import Mathlib

/-!
# libzf: buffered, backend-polymorphic stream handle (`zf.c`)

A shallow embedding of `zf.c`: the backend table `fn_table`, the format resolution and
open sequence of `zfopen`, and the buffered reader / writer (`zfread`, `zfgetc`, `zfwrite`,
`zfputc`, `zfputs`, `zfprintf`, `zfclose`) as pure state-passing functions.

Conventions.
* `uint64_t` / `size_t` values are naturals; where C arithmetic can wrap the model reduces
  modulo `U64 = 2 ^ 64` explicitly.
* A byte (`uint8_t`) is a `Fin 256`; `int` values are integers.
* The functions reached through `fio->fn` (libc, zlib, bzlib) are not part of the repository;
  their effect on the native handle is a parameter (`zf_backend`).
* A C string argument is a pointer: besides the characters up to the terminator, the model
  keeps the bytes stored in front of the pointer, because `zfopen` addresses
  `tail - strlen(ext)` without comparing lengths.
* The buffer is the `ZF_BUF_SIZE` bytes allocated behind the context. `vsprintf` in
  `zfprintf` stores the rendered text and a zero byte with no bound: a text of `ZF_BUF_SIZE`
  bytes or more overruns the buffer, which is undefined behaviour. There `zfprintf` is `none`,
  the call returns `fault`, and a run of calls ends.
-/

namespace zf

/-! ## Constants and machine integers -/

/-- ZF_BUF_SIZE: `( 512 * 1024 )`. -/
def ZF_BUF_SIZE : Nat := 512 * 1024

/-- Modulus of `uint64_t` and `size_t`. -/
def U64 : Nat := 2 ^ 64

/-- Byte type of the buffer, `uint8_t`. -/
abbrev uint8_t := Fin 256

/-- EOF of stdio.h. -/
def EOF : Int := -1

/-- STDOUT_FILENO of unistd.h. -/
def STDOUT_FILENO : Int := 1

/-- Conversion `(uint8_t)c` of an `int`. -/
def to_uint8 (c : Int) : uint8_t :=
  ⟨(c % 256).toNat, by
    have h1 : 0 ≤ c % 256 := Int.emod_nonneg c (by decide)
    have h2 : c % 256 < 256 := Int.emod_lt_of_pos c (by decide)
    omega⟩

/-- Conversion `(int)*s` of a `char` holding the byte `b` (plain `char` is signed). -/
def char_to_int (b : uint8_t) : Int :=
  if b.val < 128 then (b.val : Int) else (b.val : Int) - 256

/-- Conversion `(int)written` of a `uint64_t`. -/
def to_int (w : Nat) : Int :=
  ((w % 2 ^ 32 + 2 ^ 31) % 2 ^ 32 : Nat) - (2 ^ 31 : Int)

/-! ## Memory helpers -/

/-- The `n` bytes `buf[off], ..., buf[off + n - 1]`. -/
def buf_slice (buf : Nat → uint8_t) (off n : Nat) : List uint8_t :=
  (List.range n).map (fun i => buf (off + i))

/-- Memory after storing `data` at `buf[0], buf[1], ...`. -/
def buf_store (buf : Nat → uint8_t) (data : List uint8_t) : Nat → uint8_t :=
  fun i => if h : i < data.length then data.get ⟨i, h⟩ else buf i

/-! ## Backend functions -/

/-- The C functions that `fn_table` refers to. -/
inductive cfun where
  | fdopen | fopen | fclose | fread_wrap | fwrite_wrap
  | gzdopen | gzopen | zf_init_gzip | gzclose | gzread | gzwrite
  | BZ2_bzdopen | BZ2_bzopen | BZ2_bzclose | BZ2_bzread | BZ2_bzwrite
  deriving DecidableEq, Repr

/-- The struct zf_functions_s: a suffix and six function pointers (`none` is `NULL`). -/
structure zf_functions_s where
  ext : Option (List Char)
  dopen : Option cfun
  open_ : Option cfun
  init : Option cfun
  close : Option cfun
  read : Option cfun
  write : Option cfun
  deriving DecidableEq, Repr

/-- Outcome of a call `fio->fn.read(fp, ptr, len)`: the value returned, the bytes stored at
`ptr[0], ptr[1], ...`, and the native handle afterwards. -/
structure zf_read_result (β : Type) where
  count : Nat
  data : List uint8_t
  fp : β

/-- Outcome of a call `fio->fn.write(fp, ptr, len)`: the value returned and the native handle
afterwards. -/
structure zf_write_result (β : Type) where
  count : Nat
  fp : β

/-- What the read, write and close pointers of `fio->fn` do to a native handle of type `β`.
`write fp ptr` stands for the call with `len = ptr.length`. -/
structure zf_backend (β : Type) where
  read : β → Nat → zf_read_result β
  write : β → List uint8_t → zf_write_result β
  close : β → β

/-! ## The context `struct zf_s` -/

/-- The struct zf_s; `end_` is the field `end`, `fp` the object behind the native handle. -/
structure zf_s (β : Type) where
  path : List Char
  mode : List Char
  fd : Int
  eof : Int
  ko : Option Nat
  fp : β
  buf : Nat → uint8_t
  size : Nat
  curr : Nat
  end_ : Nat
  fn : zf_functions_s

/-! ## Buffered reader -/

/-- Result of `zfread`: the return value, the bytes stored at `ptr[0], ...`, and the context. -/
structure zfread_result (β : Type) where
  ret : Nat
  dst : List uint8_t
  fio : zf_s β

/-- The variable `buf_copy_size` of `zfread`: the number of bytes taken from the buffer, which
is `(rem_size < len) ? rem_size : len` for `rem_size = end - curr` when `curr < end`, and 0 when
the buffer is empty. -/
def zfread_buf_copy_size {β : Type} (fio : zf_s β) (len : Nat) : Nat :=
  if fio.curr < fio.end_ then
    (if fio.end_ - fio.curr < len then fio.end_ - fio.curr else len)
  else 0

/-- The function `zfread(fio, ptr, len)`. -/
def zfread {β : Type} (B : zf_backend β) (fio : zf_s β) (len : Nat) : zfread_result β :=
  /- check eof -/
  if fio.eof = 2 then ⟨0, [], fio⟩
  else
    /- if buffer is not empty, copy from buffer -/
    let buf_copy_size := zfread_buf_copy_size fio len
    let dst := buf_slice fio.buf fio.curr buf_copy_size
    let len1 := len - buf_copy_size
    let fio1 : zf_s β := { fio with curr := fio.curr + buf_copy_size }
    let copied_size := buf_copy_size
    /- if fp already reached EOF -/
    if fio1.eof = 1 then ⟨copied_size, dst, { fio1 with eof := 2 }⟩
    else if len1 > 0 then
      /- issue fread -/
      let r := B.read fio1.fp len1
      let read_size := r.count % U64
      ⟨(copied_size + read_size) % U64, dst ++ r.data,
        { fio1 with fp := r.fp, eof := if read_size < len1 then 2 else fio1.eof }⟩
    else ⟨copied_size, dst, fio1⟩

/-- The refill step of `zfgetc`, taken when `curr >= end`. -/
def zfgetc_refill {β : Type} (B : zf_backend β) (fio : zf_s β) : zf_s β :=
  if fio.curr ≥ fio.end_ then
    if fio.eof = 0 then
      let r := B.read fio.fp fio.size
      let e := r.count % U64
      { fio with
        curr := 0, end_ := e, fp := r.fp, buf := buf_store fio.buf r.data,
        eof := (if e < fio.size then 1 else 0) + (if e = 0 then 1 else 0) }
    else
      { fio with
        curr := 0, end_ := 0,
        eof := (if 0 < fio.size then 1 else 0) + 1 }
  else fio

/-- The function `zfgetc(fio)`. -/
def zfgetc {β : Type} (B : zf_backend β) (fio : zf_s β) : Int × zf_s β :=
  let fio1 := zfgetc_refill B fio
  if fio1.eof = 2 then (EOF, fio1)
  else (((fio1.buf fio1.curr).val : Int), { fio1 with curr := (fio1.curr + 1) % U64 })

/-! ## Buffered writer -/

/-- The function `zfwrite(fio, ptr, len)`, `ptr` holding the `len` bytes of the caller. -/
def zfwrite {β : Type} (B : zf_backend β) (fio : zf_s β) (ptr : List uint8_t) :
    Nat × zf_s β :=
  let w := B.write fio.fp ptr
  (w.count, { fio with fp := w.fp })

/-- The function `zfputc(fio, c)`. -/
def zfputc {β : Type} (B : zf_backend β) (fio : zf_s β) (c : Int) : Int × zf_s β :=
  let fio1 : zf_s β :=
    { fio with
      buf := Function.update fio.buf fio.curr (to_uint8 c),
      curr := (fio.curr + 1) % U64 }
  /- flush if buffer is full -/
  if fio1.curr = fio1.size then
    let w := B.write fio1.fp (buf_slice fio1.buf 0 fio1.size)
    (c, { fio1 with curr := 0, fp := w.fp })
  else (c, fio1)

/-- The function `zfputs(fio, s)`; `s` lists the bytes at the pointer, and the loop ends at the
first zero byte or at the end of the list (the terminator). -/
def zfputs {β : Type} (B : zf_backend β) (fio : zf_s β) : List uint8_t → Int × zf_s β
  | [] => (0, (zfputc B fio 10).2)
  | c :: s =>
    if c = 0 then (0, (zfputc B fio 10).2)
    else zfputs B (zfputc B fio (char_to_int c)).2 s

/-- The second half of `zfprintf`: render into `buf`, write the rendered bytes, set `curr`.
`text` is what `vsprintf` renders, `fp` the native handle at that point. `vsprintf` stores the
text and a zero byte at `buf[0], ...` without any bound, and the buffer is the `ZF_BUF_SIZE`
bytes allocated behind the context: a text of `ZF_BUF_SIZE` bytes or more overruns it. That
is undefined behaviour, and the result is `none`. Otherwise the length of the text is the
value `vsprintf` returns. -/
def zfprintf_render {β : Type} (B : zf_backend β) (fio : zf_s β) (fp : β)
    (text : List uint8_t) : Option (Int × zf_s β) :=
  if text.length < ZF_BUF_SIZE then
    /- fprintf -/
    let buf1 := buf_store fio.buf (text ++ [0])
    let size := text.length % U64
    /- flush -/
    let w := B.write fp (buf_slice buf1 0 size)
    let written := w.count % U64
    some (to_int written,
      { fio with fp := w.fp, buf := buf1, curr := (size + U64 - written) % U64 })
  else none

/-- The function `zfprintf(fio, format, ...)`, with `text` the rendering of the arguments;
`none` when `vsprintf` overruns the buffer. -/
def zfprintf {β : Type} (B : zf_backend β) (fio : zf_s β) (text : List uint8_t) :
    Option (Int × zf_s β) :=
  /- flush -/
  if fio.curr ≠ 0 then
    let f := B.write fio.fp (buf_slice fio.buf 0 fio.curr)
    /- something is wrong -/
    if f.count % U64 ≠ fio.curr then some (0, { fio with fp := f.fp })
    else zfprintf_render B fio f.fp text
  else zfprintf_render B fio fio.fp text

/-- The function `zfclose(fio)`; `none` is a `NULL` context. Returns the status and the native
handle after the final flush and `close`. -/
def zfclose {β : Type} (B : zf_backend β) (fio : Option (zf_s β)) : Int × Option β :=
  match fio with
  | none => (1, none)
  | some fio =>
    /- flush if write mode -/
    let fp1 :=
      if fio.mode.head? ≠ some 'r' then (B.write fio.fp (buf_slice fio.buf 0 fio.curr)).fp
      else fio.fp
    /- close file -/
    (0, some (B.close fp1))

/-! ## The backend table and `zfopen` -/

/-- An entry `{ .ext = ext }`: every function pointer is `NULL`. -/
def ext_only (ext : String) : zf_functions_s :=
  { ext := some ext.toList, dopen := none, open_ := none, init := none, close := none,
    read := none, write := none }

/-- The table fn_table; `HAVE_Z` and `HAVE_BZ2` are the two build switches. -/
def fn_table (HAVE_Z HAVE_BZ2 : Bool) : List zf_functions_s :=
  [ /- default -/
    { ext := none, dopen := some .fdopen, open_ := some .fopen, init := none,
      close := some .fclose, read := some .fread_wrap, write := some .fwrite_wrap },
    /- gzip -/
    (if HAVE_Z then
      { ext := some ".gz".toList, dopen := some .gzdopen, open_ := some .gzopen,
        init := some .zf_init_gzip, close := some .gzclose, read := some .gzread,
        write := some .gzwrite }
    else ext_only ".gz"),
    /- bzip2 -/
    (if HAVE_BZ2 then
      { ext := some ".bz2".toList, dopen := some .BZ2_bzdopen, open_ := some .BZ2_bzopen,
        init := none, close := some .BZ2_bzclose, read := some .BZ2_bzread,
        write := some .BZ2_bzwrite }
    else ext_only ".bz2"),
    /- other unsupported formats -/
    ext_only ".lz",
    ext_only ".lzma",
    ext_only ".xz",
    ext_only ".z" ]

/-- A `char const *` argument: `str` lists the characters from the pointer up to the
terminator, `before k` is the byte stored at address `pointer - 1 - k`. -/
structure cstr where
  before : Nat → Char
  str : List Char

/-- The function strlen. -/
def strlen (s : cstr) : Nat := s.str.length

/-- The `n` bytes at `tail - n, ..., tail - 1`, where `tail = s + strlen(s)`. When `n` exceeds
the length of the string they start in front of the pointer. -/
def tail_bytes (s : cstr) (n : Nat) : List Char :=
  if n ≤ strlen s then s.str.drop (strlen s - n)
  else (List.range (n - strlen s)).reverse.map s.before ++ s.str

/-- The test `strncmp(tail - strlen(ext), ext, strlen(ext)) == 0`, for `ext` free of zero
bytes: all `strlen(ext)` bytes are compared and have to agree. -/
def tail_match (s : cstr) (ext : List Char) : Bool :=
  tail_bytes s ext.length == ext

/-- Outcome of the format loop of `zfopen`: the index of the first hit, none, or a fault
(`strlen` of a `NULL` suffix). -/
inductive zf_format where
  | hit (i : Nat)
  | miss
  | fault
  deriving DecidableEq, Repr

/-- The loop `for(i = 1; i < sizeof(fn_table) / sizeof(struct zf_functions_s); i++)` of
`zfopen`, started at index `i` with the entries from `i` on. On a mode hit the loop body also
makes a truncated copy of `mode`, in a variable `mode_dup` of its own block; that copy is
never read afterwards and has no part in the result. -/
def zfopen_format (path mode : cstr) : Nat → List zf_functions_s → zf_format
  | _, [] => .miss
  | i, e :: rest =>
    match e.ext with
    | none => .fault
    | some ext =>
      /- check path -/
      if tail_match path ext then .hit i
      /- check mode -/
      else if tail_match mode ext then .hit i
      else zfopen_format path mode (i + 1) rest

/-- Calls that `zfopen` makes to the collaborator (`kopen`, `kclose`) and to backend functions;
`fault` marks a call through a `NULL` pointer. -/
inductive zf_call where
  | kopen (path : List Char)
  | kclose (ko : Nat)
  | dopen (f : cfun) (fd : Int) (mode : List Char)
  | open_ (f : cfun) (path mode : List Char)
  | init (f : cfun)
  | fault
  deriving DecidableEq, Repr

/-- Everything outside `zf.c` that decides a run of `zfopen`: the build switches, whether
`malloc` succeeds and what the allocated buffer holds, the outcome of `kopen(path, &fd)`
(`none` is `NULL`, otherwise the `kopen` pointer and the descriptor), the outcomes of the
backend open functions (`none` is `NULL`), the effect of an initializer, and `stdout`. -/
structure zfopen_env (β : Type) where
  HAVE_Z : Bool
  HAVE_BZ2 : Bool
  malloc_ok : Bool
  mem : Nat → uint8_t
  kopen : List Char → Option (Nat × Int)
  dopen : cfun → Int → List Char → Option β
  open_ : cfun → List Char → List Char → Option β
  init : cfun → β → β
  stdout : β

/-- The entry `fn` that the format loop of `zfopen(path, mode)` leaves selected. -/
def zfopen_fn (HAVE_Z HAVE_BZ2 : Bool) (path mode : cstr) : Option zf_functions_s :=
  match zfopen_format path mode 1 (fn_table HAVE_Z HAVE_BZ2).tail with
  | .hit i => (fn_table HAVE_Z HAVE_BZ2)[i]?
  | .miss => (fn_table HAVE_Z HAVE_BZ2)[0]?
  | .fault => none

/-- The fields `fd`, `ko`, `fp` of the context on arrival at the label `_zfopen_finish`
(`none` is `NULL`; the `memset` leaves `fd = 0`, `ko = NULL`, `fp = NULL`), and the calls
made on the way. -/
structure zfopen_file_result (β : Type) where
  fd : Int
  ko : Option Nat
  fp : Option β
  calls : List zf_call

/-- The part `open file` of `zfopen`, for the selected entry `fn`. -/
def zfopen_file {β : Type} (env : zfopen_env β) (fn : zf_functions_s) (path mode : cstr) :
    zfopen_file_result β :=
  if mode.str.head? = some 'r' then
    /- read mode, open file with kopen -/
    match env.kopen path.str with
    | none => ⟨0, none, none, [.kopen path.str]⟩
    | some (ko, fd) =>
      match fn.dopen with
      | none => ⟨fd, some ko, none, [.kopen path.str, .fault]⟩
      | some f =>
        ⟨fd, some ko, env.dopen f fd mode.str, [.kopen path.str, .dopen f fd mode.str]⟩
  else
    /- write mode, check if stdout is specified -/
    if path.str.head? = some '-' then ⟨STDOUT_FILENO, none, some env.stdout, []⟩
    else
      /- open file -/
      match fn.open_ with
      | none => ⟨-1, none, none, [.fault]⟩
      | some f => ⟨-1, none, env.open_ f path.str mode.str, [.open_ f path.str mode.str]⟩

/-- The tail of `zfopen` from the label `_zfopen_finish` on. The outer variable `mode_dup`
still equals `mode` here: the copy that the loop makes on a mode hit is assigned to a new
variable of the inner block. -/
def zfopen_finish {β : Type} (env : zfopen_env β) (fn : zf_functions_s) (path mode : cstr)
    (r : zfopen_file_result β) : Option (zf_s β) × List zf_call :=
  match r.fp with
  | none =>
    /- something wrong occurred -/
    match r.ko with
    | some ko => (none, r.calls ++ [.kclose ko])
    | none => (none, r.calls)
  | some fp =>
    /- everything is going right -/
    let mode_dup := mode.str
    let fio : zf_s β :=
      { path := path.str, mode := mode_dup, fd := r.fd, eof := 0, ko := r.ko, fp := fp,
        buf := env.mem, size := ZF_BUF_SIZE, curr := 0, end_ := 0, fn := fn }
    match fn.init with
    | some f => (some { fio with fp := env.init f fp }, r.calls ++ [.init f])
    | none => (some fio, r.calls)

/-- The function `zfopen(path, mode)`; `none` is `NULL`, for the arguments and for the result.
The second component lists the collaborator and backend calls made. -/
def zfopen {β : Type} (env : zfopen_env β) (path mode : Option cstr) :
    Option (zf_s β) × List zf_call :=
  match path, mode with
  | none, _ => (none, [])
  | some _, none => (none, [])
  | some path, some mode =>
    /- determine format -/
    match zfopen_fn env.HAVE_Z env.HAVE_BZ2 path mode with
    | none => (none, [.fault])
    | some fn =>
      /- check if functions are available -/
      if fn.open_ = none then (none, [])
      /- malloc context -/
      else if env.malloc_ok = false then (none, [])
      else zfopen_finish env fn path mode (zfopen_file env fn path mode)

/-! ## A faithful backend, and runs of operations -/

/-- A native handle that behaves like a regular file behind `fread` / `fwrite`: `input` is
what is still to be read, `output` what has been written. -/
structure file_s where
  input : List uint8_t
  output : List uint8_t
  deriving DecidableEq, Repr

/-- A backend that delivers its stream in order (a read of `len` returns the next
`min len remaining` bytes) and writes every byte it is given. -/
def file_backend : zf_backend file_s where
  read fp len := ⟨(fp.input.take len).length, fp.input.take len,
    { fp with input := fp.input.drop len }⟩
  write fp ptr := ⟨ptr.length, { fp with output := fp.output ++ ptr }⟩
  close fp := fp

/-- One call of the stream interface on an open context. -/
inductive zf_op where
  | read (len : Nat)
  | getc
  | write (ptr : List uint8_t)
  | putc (c : Int)
  | puts (s : List uint8_t)
  | printf (text : List uint8_t)
  deriving DecidableEq, Repr

/-- What the caller gets back from one call; `fault` stands for a call whose behaviour is
undefined (a `zfprintf` that overruns the buffer). -/
inductive zf_ret where
  | read (ret : Nat) (dst : List uint8_t)
  | getc (c : Int)
  | write (ret : Nat)
  | putc (c : Int)
  | puts (ret : Int)
  | printf (ret : Int)
  | fault
  deriving DecidableEq, Repr

/-- Perform one call. A call with undefined behaviour returns `fault`, and the context given
is that of before the call. -/
def zf_step {β : Type} (B : zf_backend β) (fio : zf_s β) : zf_op → zf_ret × zf_s β
  | .read len => let r := zfread B fio len; (.read r.ret r.dst, r.fio)
  | .getc => let r := zfgetc B fio; (.getc r.1, r.2)
  | .write ptr => let r := zfwrite B fio ptr; (.write r.1, r.2)
  | .putc c => let r := zfputc B fio c; (.putc r.1, r.2)
  | .puts s => let r := zfputs B fio s; (.puts r.1, r.2)
  | .printf text =>
    match zfprintf B fio text with
    | some r => (.printf r.1, r.2)
    | none => (.fault, fio)

/-- Perform a sequence of calls, collecting what each returns. The run ends at the first call
with undefined behaviour: nothing is modelled after it. -/
def zf_run {β : Type} (B : zf_backend β) (fio : zf_s β) : List zf_op → List zf_ret × zf_s β
  | [] => ([], fio)
  | op :: ops =>
    let r := zf_step B fio op
    match r.1 with
    | .fault => ([.fault], r.2)
    | _ =>
      let rs := zf_run B r.2 ops
      (r.1 :: rs.1, rs.2)

/-- The data bytes one call hands to the caller: the first `ret` bytes of the destination of
a `zfread`, the byte a `zfgetc` returns unless it is `EOF`. -/
def delivered : zf_ret → List uint8_t
  | .read ret dst => dst.take ret
  | .getc c => if c = EOF then [] else [to_uint8 c]
  | _ => []

/-- All data bytes handed to the caller by a sequence of calls, in call order. -/
def delivered_all (rs : List zf_ret) : List uint8_t :=
  (rs.map delivered).flatten

/-- Write the bytes of `s` one at a time with `zfputc`. -/
def zfputc_each {β : Type} (B : zf_backend β) (fio : zf_s β) : List uint8_t → zf_s β
  | [] => fio
  | b :: s => zfputc_each B (zfputc B fio (b.val : Int)).2 s

/-- Call `zfgetc` `n` times, collecting the values returned. -/
def zfgetc_times {β : Type} (B : zf_backend β) (fio : zf_s β) : Nat → List Int × zf_s β
  | 0 => ([], fio)
  | n + 1 =>
    let r := zfgetc B fio
    let rs := zfgetc_times B r.2 n
    (r.1 :: rs.1, rs.2)

/-! ## Predicates and observations used in the statements -/

/-- The state in which `zfopen` hands out a context. -/
def fresh {β : Type} (fio : zf_s β) : Prop :=
  fio.curr = 0 ∧ fio.end_ = 0 ∧ fio.eof = 0 ∧ fio.size = ZF_BUF_SIZE

/-- Everything written so far through the context: what the backend has received, followed
by the bytes pending in the buffer. -/
def written (f : zf_s file_s) : List uint8_t :=
  f.fp.output ++ buf_slice f.buf 0 f.curr

/-- The bytes still to come: the unread part of the buffer, then what the backend holds. -/
def pending (f : zf_s file_s) : List uint8_t :=
  buf_slice f.buf f.curr (f.end_ - f.curr) ++ f.fp.input

/-- Invariant of a context that is read with `zfgetc` only. -/
def getc_inv (f : zf_s file_s) : Prop :=
  f.curr ≤ f.end_ ∧ f.end_ ≤ f.size ∧ 0 < f.size ∧ f.size < U64 ∧
  (f.eof = 0 ∨ f.eof = 1 ∨ f.eof = 2) ∧ (f.eof ≠ 0 → f.fp.input = []) ∧
  (f.eof = 2 → f.curr = f.end_)

/-! ## Concrete inputs -/

/-- A string literal: the byte in front of it is a terminator. -/
def lit (s : String) : cstr :=
  ⟨fun _ => Char.ofNat 0, s.toList⟩

/-- A pointer into the middle of a string: `str` preceded in memory by `pre`. -/
def lit_after (pre s : String) : cstr :=
  ⟨fun k => pre.toList.reverse.getD k (Char.ofNat 0), s.toList⟩

/-- An environment with both libraries built in, in which every open call succeeds; the file
opened for reading holds `inp`, a file opened for writing starts empty. -/
def demo_env (inp : List uint8_t) : zfopen_env file_s :=
  { HAVE_Z := true, HAVE_BZ2 := true, malloc_ok := true, mem := fun _ => 0,
    kopen := fun _ => some (1, 3),
    dopen := fun _ _ _ => some ⟨inp, []⟩,
    open_ := fun _ _ _ => some ⟨[], []⟩,
    init := fun _ fp => fp,
    stdout := ⟨[], []⟩ }

/-- The context of `zfopen("tmp.txt", "w")` in `demo_env`. -/
def demo_wfio : zf_s file_s :=
  { path := "tmp.txt".toList, mode := "w".toList, fd := -1, eof := 0, ko := none,
    fp := ⟨[], []⟩, buf := fun _ => 0, size := ZF_BUF_SIZE, curr := 0, end_ := 0,
    fn := ⟨none, some .fdopen, some .fopen, none, some .fclose, some .fread_wrap,
      some .fwrite_wrap⟩ }

/-- The context of `zfopen("tmp.txt", "r")` in `demo_env inp`. -/
def demo_rfio (inp : List uint8_t) : zf_s file_s :=
  { path := "tmp.txt".toList, mode := "r".toList, fd := 3, eof := 0, ko := some 1,
    fp := ⟨inp, []⟩, buf := fun _ => 0, size := ZF_BUF_SIZE, curr := 0, end_ := 0,
    fn := ⟨none, some .fdopen, some .fopen, none, some .fclose, some .fread_wrap,
      some .fwrite_wrap⟩ }

/-! ## Recording backend calls -/

/-- One call through the read, write or close pointer of `fio->fn`. -/
inductive io_call where
  | read (len : Nat)
  | write (ptr : List uint8_t)
  | close
  deriving DecidableEq, Repr

/-- The backend `B` with a log of the calls made attached to the native handle. -/
def traced {β : Type} (B : zf_backend β) : zf_backend (β × List io_call) where
  read fp len :=
    ⟨(B.read fp.1 len).count, (B.read fp.1 len).data,
      ((B.read fp.1 len).fp, fp.2 ++ [.read len])⟩
  write fp ptr := ⟨(B.write fp.1 ptr).count, ((B.write fp.1 ptr).fp, fp.2 ++ [.write ptr])⟩
  close fp := (B.close fp.1, fp.2 ++ [.close])

/-- The lengths of the backend reads in a log, in call order. -/
def reads : List io_call → List Nat
  | [] => []
  | .read len :: log => len :: reads log
  | _ :: log => reads log

/-- The environment `demo_env inp` with the backend calls recorded. -/
def demo_env_traced (inp : List uint8_t) : zfopen_env (file_s × List io_call) :=
  { HAVE_Z := true, HAVE_BZ2 := true, malloc_ok := true, mem := fun _ => 0,
    kopen := fun _ => some (1, 3),
    dopen := fun _ _ _ => some (⟨inp, []⟩, []),
    open_ := fun _ _ _ => some (⟨[], []⟩, []),
    init := fun _ fp => fp,
    stdout := (⟨[], []⟩, []) }

/-- The context of `zfopen("tmp.txt", "r")` in `demo_env_traced inp`. -/
def demo_rfio_traced (inp : List uint8_t) : zf_s (file_s × List io_call) :=
  { path := "tmp.txt".toList, mode := "r".toList, fd := 3, eof := 0, ko := some 1,
    fp := (⟨inp, []⟩, []), buf := fun _ => 0, size := ZF_BUF_SIZE, curr := 0, end_ := 0,
    fn := ⟨none, some .fdopen, some .fopen, none, some .fclose, some .fread_wrap,
      some .fwrite_wrap⟩ }

/-- A backend whose read reports one byte more than it was asked for (and stores nothing);
its write and close are those of `file_backend`. -/
def over_reporting_backend : zf_backend file_s where
  read fp len := ⟨len + 1, [], fp⟩
  write fp ptr := ⟨ptr.length, { fp with output := fp.output ++ ptr }⟩
  close fp := fp

/-! ## Classes of calls -/

/-- The calls of the buffered reader: `zfread` and `zfgetc`. -/
def read_call : zf_op → Bool
  | .read _ => true
  | .getc => true
  | _ => false

/-- The calls of the buffered writer: `zfwrite`, `zfputc`, `zfputs`, and `zfprintf` with a
rendered text that fits into a buffer of `cap` bytes together with its terminator. -/
def write_call (cap : Nat) : zf_op → Bool
  | .write _ => true
  | .putc _ => true
  | .puts _ => true
  | .printf text => decide (text.length < cap)
  | _ => false

/-- Whether the format loop of `zfopen` takes the entry `e`: one of its two `strncmp` tests,
on `path` or on `mode`, succeeds. -/
def entry_hit (path mode : cstr) (e : zf_functions_s) : Bool :=
  match e.ext with
  | some ext => tail_match path ext || tail_match mode ext
  | none => false

/-- The selection criterion in the words of the specification: the suffix of the entry is a
suffix of `path` or a suffix of `mode` (as character strings). -/
def suffix_hit (path mode : List Char) (e : zf_functions_s) : Bool :=
  match e.ext with
  | some ext => ext.isSuffixOf path || ext.isSuffixOf mode
  | none => false

/-- The environment `demo_env []` with a standard output that can be told apart from a file
just opened: it already holds the byte `111`. -/
def demo_env_stdout : zfopen_env file_s :=
  { demo_env [] with stdout := ⟨[], [111]⟩ }

/-- The context of `zfopen("tmp.txt", "w")` in `demo_env_traced`. -/
def demo_wfio_traced : zf_s (file_s × List io_call) :=
  { path := "tmp.txt".toList, mode := "w".toList, fd := -1, eof := 0, ko := none,
    fp := (⟨[], []⟩, []), buf := fun _ => 0, size := ZF_BUF_SIZE, curr := 0, end_ := 0,
    fn := ⟨none, some .fdopen, some .fopen, none, some .fclose, some .fread_wrap,
      some .fwrite_wrap⟩ }

/-- A backend whose write fails: it writes nothing and reports 0. Its read and close are those
of `file_backend`. -/
def failing_write_backend : zf_backend file_s where
  read fp len := ⟨(fp.input.take len).length, fp.input.take len,
    { fp with input := fp.input.drop len }⟩
  write fp _ := ⟨0, fp⟩
  close fp := fp

/-- What a file holds after `zfclose`: the bytes the backend has received (nothing for a
`NULL` context). -/
def closed_output (r : Int × Option file_s) : List uint8_t :=
  match r.2 with
  | some fp => fp.output
  | none => []

/-- Invariant of a context that is read with any mix of `zfread` and `zfgetc`. -/
def mixed_inv (f : zf_s file_s) : Prop :=
  f.end_ ≤ f.size ∧ 0 < f.size ∧ f.size < U64

/-- The calls of the buffered reader with an argument in range: `zfgetc`, and `zfread` with a
length that a `size_t` can express. -/
def read_call_sized : zf_op → Bool
  | .read len => decide (len < U64)
  | .getc => true
  | _ => false

/-- Whether the backend write of the rendered bytes in `zfprintf(fio, ...)` is complete: the
count it reports (`written`) equals the rendered size (`size`), for a text that fits the
buffer. `fp1` is the native handle after the flush of the pending bytes, if there are any. -/
def zfprintf_complete {β : Type} (B : zf_backend β) (fio : zf_s β) (text : List uint8_t) :
    Bool :=
  let fp1 := if fio.curr ≠ 0 then (B.write fio.fp (buf_slice fio.buf 0 fio.curr)).fp else fio.fp
  (B.write fp1 (buf_slice (buf_store fio.buf (text ++ [0])) 0 (text.length % U64))).count % U64
    == text.length % U64

/-- Whether, along a run of calls, the backend write of every `zfprintf` is complete. -/
def printf_complete_run {β : Type} (B : zf_backend β) : zf_s β → List zf_op → Bool
  | _, [] => true
  | f, .printf text :: ops =>
    zfprintf_complete B f text && printf_complete_run B (zf_step B f (.printf text)).2 ops
  | f, op :: ops => printf_complete_run B (zf_step B f op).2 ops

/-! # Theorems -/

/-! ## Lemmas on buffer slices -/

theorem buf_slice_length (buf : Nat → uint8_t) (off n : Nat) :
    (buf_slice buf off n).length = n := by
  simp [buf_slice]

theorem buf_slice_zero (buf : Nat → uint8_t) (off : Nat) : buf_slice buf off 0 = [] := by
  simp [buf_slice]

theorem buf_slice_congr (b1 b2 : Nat → uint8_t) (off n : Nat)
    (h : ∀ i, i < n → b1 (off + i) = b2 (off + i)) :
    buf_slice b1 off n = buf_slice b2 off n := by
  unfold buf_slice
  apply List.map_congr_left
  intro i hi
  exact h i (List.mem_range.mp hi)

theorem buf_slice_succ_snoc (buf : Nat → uint8_t) (off n : Nat) :
    buf_slice buf off (n + 1) = buf_slice buf off n ++ [buf (off + n)] := by
  simp [buf_slice, List.range_succ]

theorem buf_slice_succ_cons (buf : Nat → uint8_t) (off n : Nat) :
    buf_slice buf off (n + 1) = buf off :: buf_slice buf (off + 1) n := by
  simp only [buf_slice, List.range_succ_eq_map, List.map_cons, List.map_map, Nat.add_zero]
  congr 1
  apply List.map_congr_left
  intro i _
  simp only [Function.comp, Nat.succ_eq_add_one]
  congr 1
  omega

theorem buf_slice_store (buf : Nat → uint8_t) (data : List uint8_t) :
    buf_slice (buf_store buf data) 0 data.length = data := by
  apply List.ext_getElem
  · simp [buf_slice]
  · intro i h1 h2
    simp [buf_slice, buf_store, h2]

theorem buf_slice_update (buf : Nat → uint8_t) (off n k : Nat) (v : uint8_t)
    (h : off + n ≤ k) :
    buf_slice (Function.update buf k v) off n = buf_slice buf off n := by
  apply buf_slice_congr
  intro i hi
  have : off + i ≠ k := by omega
  simp [Function.update, this]

theorem to_uint8_val (b : uint8_t) : to_uint8 (b.val : Int) = b := by
  apply Fin.ext
  simp only [to_uint8]
  have := b.isLt
  omega

/-! ## Fresh contexts -/

theorem zfopen_finish_fresh {β : Type} (env : zfopen_env β) (fn : zf_functions_s)
    (path mode : cstr) (r : zfopen_file_result β)
    (fio : zf_s β) (h : (zfopen_finish env fn path mode r).1 = some fio) :
    fresh fio ∧ fio.mode = mode.str ∧ fio.path = path.str ∧ fio.fn = fn := by
  unfold zfopen_finish at h
  split at h
  · split at h <;> simp at h
  · split at h <;> simp only [Option.some.injEq] at h <;> subst h <;> simp [fresh]

theorem zfopen_fresh {β : Type} (env : zfopen_env β) (path mode : cstr)
    (fio : zf_s β) (h : (zfopen env (some path) (some mode)).1 = some fio) :
    fresh fio ∧ fio.mode = mode.str ∧ fio.path = path.str := by
  unfold zfopen at h
  simp only at h
  split at h
  · simp at h
  · split at h
    · simp at h
    · split at h
      · simp at h
      · have := zfopen_finish_fresh _ _ _ _ _ _ h
        exact ⟨this.1, this.2.1, this.2.2.1⟩

/-! ## Byte-wise writing to a faithful backend -/

theorem zfputc_written (f : zf_s file_s) (c : Int) (h1 : f.curr < f.size)
    (h2 : f.size < U64) :
    (zfputc file_backend f c).2.curr < (zfputc file_backend f c).2.size ∧
    (zfputc file_backend f c).2.size = f.size ∧
    (zfputc file_backend f c).2.mode = f.mode ∧
    (zfputc file_backend f c).2.fp.input = f.fp.input ∧
    written (zfputc file_backend f c).2 = written f ++ [to_uint8 c] := by
  have h3 : (f.curr + 1) % U64 = f.curr + 1 := Nat.mod_eq_of_lt (by omega)
  unfold zfputc
  simp only [h3]
  by_cases h4 : f.curr + 1 = f.size
  · simp only [h4, if_true, written, file_backend]
    refine ⟨by omega, trivial, trivial, trivial, ?_⟩
    rw [← h4, buf_slice_succ_snoc, buf_slice_update _ _ _ _ _ (by omega), buf_slice_zero]
    simp [Function.update]
  · simp only [h4, if_false, written]
    refine ⟨by omega, trivial, trivial, trivial, ?_⟩
    rw [buf_slice_succ_snoc, buf_slice_update _ _ _ _ _ (by omega)]
    simp [Function.update]

theorem zfputc_each_written (s : List uint8_t) (f : zf_s file_s) (h1 : f.curr < f.size)
    (h2 : f.size < U64) :
    (zfputc_each file_backend f s).curr < (zfputc_each file_backend f s).size ∧
    (zfputc_each file_backend f s).mode = f.mode ∧
    (zfputc_each file_backend f s).fp.input = f.fp.input ∧
    written (zfputc_each file_backend f s) = written f ++ s := by
  induction s generalizing f with
  | nil => simp [zfputc_each, h1]
  | cons b s ih =>
    obtain ⟨a1, a2, a3, a4, a5⟩ := zfputc_written f (b.val : Int) h1 h2
    obtain ⟨b1, b2, b3, b4⟩ := ih (zfputc file_backend f (b.val : Int)).2 a1 (by omega)
    simp only [zfputc_each]
    refine ⟨b1, by rw [b2, a3], by rw [b3, a4], ?_⟩
    rw [b4, a5, to_uint8_val]
    simp

/-! ## Byte-wise reading from a faithful backend -/

theorem zfgetc_refill_pending (f : zf_s file_s) (h : getc_inv f) :
    getc_inv (zfgetc_refill file_backend f) ∧
    pending (zfgetc_refill file_backend f) = pending f ∧
    ((zfgetc_refill file_backend f).eof = 2 → pending f = []) ∧
    ((zfgetc_refill file_backend f).eof ≠ 2 →
      (zfgetc_refill file_backend f).curr < (zfgetc_refill file_backend f).end_) := by
  obtain ⟨h1, h2, h3, h4, h5, h6, h7⟩ := h
  by_cases hc : f.curr ≥ f.end_
  · have hce : f.curr = f.end_ := by omega
    have hpend : pending f = f.fp.input := by
      simp [pending, hce, buf_slice_zero]
    by_cases he : f.eof = 0
    · have hle : (List.take f.size f.fp.input).length ≤ f.size :=
        List.length_take_le f.size f.fp.input
      have hlen : (List.take f.size f.fp.input).length % U64 =
          (List.take f.size f.fp.input).length := Nat.mod_eq_of_lt (by omega)
      have hg : zfgetc_refill file_backend f =
          { f with
            curr := 0, end_ := (List.take f.size f.fp.input).length,
            fp := { f.fp with input := f.fp.input.drop f.size },
            buf := buf_store f.buf (List.take f.size f.fp.input),
            eof := (if (List.take f.size f.fp.input).length < f.size then 1 else 0) +
              (if (List.take f.size f.fp.input).length = 0 then 1 else 0) } := by
        unfold zfgetc_refill
        rw [if_pos hc, if_pos he]
        simp only [file_backend, hlen]
      rw [hg]
      have hdrop : (List.take f.size f.fp.input).length < f.size →
          List.drop f.size f.fp.input = [] := by
        intro hlt
        rw [List.length_take] at hlt
        apply List.drop_eq_nil_of_le
        omega
      have hnil : (List.take f.size f.fp.input).length = 0 → f.fp.input = [] := by
        intro h0
        rw [List.length_take] at h0
        have : f.fp.input.length = 0 := by omega
        exact List.length_eq_zero.mp this
      refine ⟨⟨Nat.zero_le _, hle, h3, h4, ?_, ?_, ?_⟩, ?_, ?_, ?_⟩
      · show (_ : Int) = 0 ∨ (_ : Int) = 1 ∨ (_ : Int) = 2
        split_ifs <;> simp
      · show (_ : Int) ≠ 0 → _
        intro hne
        apply hdrop
        by_contra hcon
        apply hne
        have h9 : (List.take f.size f.fp.input).length ≠ 0 := by omega
        rw [if_neg hcon, if_neg h9]
        rfl
      · show (_ : Int) = 2 → (0 : Nat) = _
        intro h2'
        by_contra hcon
        have h9 : ¬ (List.take f.size f.fp.input).length = 0 := fun h => hcon h.symm
        rw [if_neg h9] at h2'
        split_ifs at h2' <;> simp at h2'
      · show buf_slice (buf_store f.buf (List.take f.size f.fp.input)) 0
            ((List.take f.size f.fp.input).length - 0) ++ List.drop f.size f.fp.input = _
        rw [Nat.sub_zero, buf_slice_store, hpend]
        exact List.take_append_drop _ _
      · show (_ : Int) = 2 → _
        intro h2'
        rw [hpend]
        apply hnil
        by_contra hcon
        rw [if_neg hcon] at h2'
        split_ifs at h2' <;> simp at h2'
      · show (_ : Int) ≠ 2 → (0 : Nat) < (List.take f.size f.fp.input).length
        intro hne
        by_contra hcon
        have h0 : (List.take f.size f.fp.input).length = 0 := by omega
        apply hne
        rw [if_pos h0, if_pos (by omega)]
        rfl
    · have hin := h6 he
      have hg : zfgetc_refill file_backend f = { f with curr := 0, end_ := 0, eof := 2 } := by
        unfold zfgetc_refill
        rw [if_pos hc, if_neg he, if_pos h3]
        rfl
      rw [hg]
      refine ⟨⟨Nat.le_refl _, Nat.zero_le _, h3, h4, Or.inr (Or.inr rfl), fun _ => hin,
        fun _ => rfl⟩, ?_, ?_, ?_⟩
      · simp [pending, hce, buf_slice_zero]
      · intro _
        rw [hpend, hin]
      · intro hne
        exact absurd rfl hne
  · have hlt : f.curr < f.end_ := by omega
    have hg : zfgetc_refill file_backend f = f := by
      unfold zfgetc_refill
      rw [if_neg hc]
    rw [hg]
    refine ⟨⟨h1, h2, h3, h4, h5, h6, h7⟩, rfl, ?_, ?_⟩
    · intro h2'
      have := h7 h2'
      omega
    · intro _
      exact hlt

theorem zfgetc_pending (f : zf_s file_s) (h : getc_inv f) :
    getc_inv (zfgetc file_backend f).2 ∧
    (pending f = [] → (zfgetc file_backend f).1 = EOF ∧
      pending (zfgetc file_backend f).2 = []) ∧
    (∀ b rest, pending f = b :: rest → (zfgetc file_backend f).1 = (b.val : Int) ∧
      pending (zfgetc file_backend f).2 = rest) := by
  obtain ⟨g1, g2, g3, g4⟩ := zfgetc_refill_pending f h
  by_cases he : (zfgetc_refill file_backend f).eof = 2
  · have hz : zfgetc file_backend f = (EOF, zfgetc_refill file_backend f) := by
      unfold zfgetc
      simp only [he, if_true]
    rw [hz]
    have hp := g3 he
    refine ⟨g1, fun _ => ⟨rfl, by rw [g2, hp]⟩, ?_⟩
    intro b rest hb
    rw [hp] at hb
    cases hb
  · have hz : zfgetc file_backend f =
        ((((zfgetc_refill file_backend f).buf (zfgetc_refill file_backend f).curr).val : Int),
          { zfgetc_refill file_backend f with
            curr := ((zfgetc_refill file_backend f).curr + 1) % U64 }) := by
      unfold zfgetc
      simp only [he, if_false]
    rw [hz]
    have hlt := g4 he
    obtain ⟨i1, i2, i3, i4, i5, i6, i7⟩ := g1
    have hmod : ((zfgetc_refill file_backend f).curr + 1) % U64 =
        (zfgetc_refill file_backend f).curr + 1 := Nat.mod_eq_of_lt (by omega)
    have hsplit : pending (zfgetc_refill file_backend f) =
        (zfgetc_refill file_backend f).buf (zfgetc_refill file_backend f).curr ::
          (buf_slice (zfgetc_refill file_backend f).buf
            ((zfgetc_refill file_backend f).curr + 1)
            ((zfgetc_refill file_backend f).end_ - ((zfgetc_refill file_backend f).curr + 1)) ++
          (zfgetc_refill file_backend f).fp.input) := by
      unfold pending
      have : (zfgetc_refill file_backend f).end_ - (zfgetc_refill file_backend f).curr =
          ((zfgetc_refill file_backend f).end_ - ((zfgetc_refill file_backend f).curr + 1)) + 1 := by
        omega
      rw [this, buf_slice_succ_cons]
      simp
    rw [g2] at hsplit
    have hcur : ((zfgetc_refill file_backend f).curr + 1) % U64 ≤
        (zfgetc_refill file_backend f).end_ := by rw [hmod]; omega
    refine ⟨⟨hcur, i2, i3, i4, i5, i6, fun h2 => absurd h2 he⟩, ?_, ?_⟩
    · intro hnil
      rw [hnil] at hsplit
      cases hsplit
    · intro b rest hb
      rw [hb] at hsplit
      injection hsplit with e1 e2
      refine ⟨by rw [e1], ?_⟩
      show buf_slice _ (_ % U64) (_ - _ % U64) ++ _ = rest
      rw [hmod]
      exact e2.symm

theorem zfgetc_times_pending (s : List uint8_t) (f : zf_s file_s) (h : getc_inv f)
    (rest : List uint8_t) (hp : pending f = s ++ rest) :
    (zfgetc_times file_backend f s.length).1 = s.map (fun b => (b.val : Int)) ∧
    getc_inv (zfgetc_times file_backend f s.length).2 ∧
    pending (zfgetc_times file_backend f s.length).2 = rest := by
  induction s generalizing f with
  | nil => simpa [zfgetc_times, h] using hp
  | cons b s ih =>
    obtain ⟨a1, _, a3⟩ := zfgetc_pending f h
    obtain ⟨c1, c2⟩ := a3 b (s ++ rest) (by simpa using hp)
    obtain ⟨d1, d2, d3⟩ := ih (zfgetc file_backend f).2 a1 c2
    simp only [List.length_cons, zfgetc_times, List.map_cons]
    exact ⟨by rw [c1, d1], d2, d3⟩

theorem fresh_getc_inv (f : zf_s file_s) (h : fresh f) :
    getc_inv f ∧ pending f = f.fp.input := by
  obtain ⟨h1, h2, h3, h4⟩ := h
  refine ⟨⟨by omega, by omega, by rw [h4]; decide, by rw [h4]; decide, Or.inl h3,
    fun hne => absurd h3 hne, fun _ => by omega⟩, ?_⟩
  simp [pending, h1, h2, buf_slice_zero]

/-! ## Round trips (C1, C2) -/

theorem zfclose_file_write (f : zf_s file_s) (h : f.mode.head? ≠ some 'r') :
    (zfclose file_backend (some f)).2 = some { input := f.fp.input, output := written f } := by
  unfold zfclose
  simp only [if_pos h]
  rfl

theorem demo_wfio_open (inp : List uint8_t) :
    (zfopen (demo_env inp) (some (lit "tmp.txt")) (some (lit "w"))).1 = some demo_wfio := by
  rfl

theorem demo_rfio_open (inp : List uint8_t) :
    (zfopen (demo_env inp) (some (lit "tmp.txt")) (some (lit "r"))).1 =
      some (demo_rfio inp) := by
  rfl

/-- C1: byte-wise round trip. On a context that `zfopen` returned, over a backend that writes
every byte it is given and delivers its stream in order: in write mode, `zfputc` on each byte
of `s` followed by `zfclose` hands the backend exactly `s`; and when the backend holds `s`,
`s.length` calls of `zfgetc` return the bytes of `s` in order and the next call returns
`EOF`. No bound on the length of `s` is needed. -/
theorem C1_bytewise_round_trip (env : zfopen_env file_s) (path mode : cstr)
    (fio : zf_s file_s) (s : List uint8_t)
    (hopen : (zfopen env (some path) (some mode)).1 = some fio) :
    (mode.str.head? ≠ some 'r' →
      (zfclose file_backend (some (zfputc_each file_backend fio s))).2 =
        some { input := fio.fp.input, output := fio.fp.output ++ s }) ∧
    (fio.fp.input = s →
      (zfgetc_times file_backend fio s.length).1 = s.map (fun b => (b.val : Int)) ∧
      (zfgetc file_backend (zfgetc_times file_backend fio s.length).2).1 = EOF) := by
  obtain ⟨hf, hmode, _⟩ := zfopen_fresh env path mode fio hopen
  constructor
  · intro hw
    obtain ⟨f1, f2, f3, f4⟩ := hf
    obtain ⟨a1, a2, a3, a4⟩ := zfputc_each_written s fio (by rw [f1, f4]; decide)
      (by rw [f4]; decide)
    have hm : (zfputc_each file_backend fio s).mode.head? ≠ some 'r' := by
      rw [a2, hmode]; exact hw
    have hw0 : written fio = fio.fp.output := by
      simp [written, f1, buf_slice_zero]
    rw [zfclose_file_write _ hm, a4, hw0, a3]
  · intro hin
    obtain ⟨g1, g2⟩ := fresh_getc_inv fio hf
    obtain ⟨b1, b2, b3⟩ := zfgetc_times_pending s fio g1 [] (by rw [g2, hin]; simp)
    exact ⟨b1, ((zfgetc_pending _ b2).2.1 b3).1⟩

/-- C1 at a concrete input: the bytes `104, 105, 255` through `zfopen("tmp.txt", "w")` and
through `zfopen("tmp.txt", "r")`. -/
theorem C1_bytewise_round_trip_witness :
    ((zfclose file_backend (some (zfputc_each file_backend demo_wfio [104, 105, 255]))).2 =
        some { input := [], output := [] ++ [104, 105, 255] }) ∧
    ((zfgetc_times file_backend (demo_rfio [104, 105, 255]) 3).1 = [104, 105, 255] ∧
      (zfgetc file_backend
        (zfgetc_times file_backend (demo_rfio [104, 105, 255]) 3).2).1 = EOF) :=
  ⟨(C1_bytewise_round_trip (demo_env []) (lit "tmp.txt") (lit "w") demo_wfio [104, 105, 255]
      (demo_wfio_open [])).1 (by decide),
   (C1_bytewise_round_trip (demo_env [104, 105, 255]) (lit "tmp.txt") (lit "r")
      (demo_rfio [104, 105, 255]) [104, 105, 255] (demo_rfio_open _)).2 rfl⟩

theorem zfread_fresh_all (f : zf_s file_s) (hf : fresh f) (hlen : f.fp.input.length < U64) :
    (zfread file_backend f f.fp.input.length).ret = f.fp.input.length ∧
    (zfread file_backend f f.fp.input.length).dst = f.fp.input ∧
    getc_inv (zfread file_backend f f.fp.input.length).fio ∧
    pending (zfread file_backend f f.fp.input.length).fio = [] := by
  obtain ⟨h1, h2, h3, h4⟩ := hf
  have hsz : 0 < f.size ∧ f.size < U64 := by rw [h4]; decide
  have e2 : ¬ f.eof = 2 := by rw [h3]; decide
  have e1 : ¬ f.eof = 1 := by rw [h3]; decide
  have hc : zfread_buf_copy_size f f.fp.input.length = 0 := by
    unfold zfread_buf_copy_size
    rw [if_neg (by omega)]
  by_cases hn : f.fp.input.length > 0
  · have hz : zfread file_backend f f.fp.input.length =
        ⟨f.fp.input.length, f.fp.input, { f with fp := ⟨[], f.fp.output⟩ }⟩ := by
      unfold zfread
      simp only [e2, e1, hc, if_false, Nat.sub_zero, hn, if_true, file_backend, Nat.add_zero,
        Nat.zero_add, buf_slice_zero, List.nil_append, List.take_length, List.drop_length,
        Nat.mod_eq_of_lt hlen, Nat.lt_irrefl]
    rw [hz]
    refine ⟨rfl, rfl, ⟨by show f.curr ≤ f.end_; omega, by show f.end_ ≤ f.size; omega, hsz.1,
      hsz.2, Or.inl h3, fun _ => rfl, fun _ => by show f.curr = f.end_; omega⟩, ?_⟩
    show buf_slice f.buf f.curr (f.end_ - f.curr) ++ [] = []
    rw [h1, h2, buf_slice_zero]
    rfl
  · have h0 : f.fp.input.length = 0 := by omega
    have hnil : f.fp.input = [] := List.length_eq_zero.mp h0
    have hz : zfread file_backend f f.fp.input.length = ⟨0, [], f⟩ := by
      unfold zfread
      simp only [e2, e1, hc, if_false, Nat.sub_zero, hn, Nat.add_zero, buf_slice_zero]
    rw [hz]
    obtain ⟨g1, g2⟩ := fresh_getc_inv f ⟨h1, h2, h3, h4⟩
    refine ⟨h0.symm, hnil.symm, g1, ?_⟩
    show pending f = []
    rw [g2, hnil]

/-- C2: bulk round trip. On a context that `zfopen` returned, over a backend that writes
every byte it is given and delivers its stream in order: in write mode, one `zfwrite` of `s`
returns `s.length` and, followed by `zfclose`, hands the backend exactly `s`; and when the
backend holds `s` (of a length that a `size_t` can express), one `zfread` of length
`s.length` returns `s.length`, fills the destination with `s`, and the next `zfgetc` returns
`EOF`. -/
theorem C2_bulk_round_trip (env : zfopen_env file_s) (path mode : cstr)
    (fio : zf_s file_s) (s : List uint8_t)
    (hopen : (zfopen env (some path) (some mode)).1 = some fio) :
    (mode.str.head? ≠ some 'r' →
      (zfwrite file_backend fio s).1 = s.length ∧
      (zfclose file_backend (some (zfwrite file_backend fio s).2)).2 =
        some { input := fio.fp.input, output := fio.fp.output ++ s }) ∧
    (fio.fp.input = s → s.length < U64 →
      (zfread file_backend fio s.length).ret = s.length ∧
      (zfread file_backend fio s.length).dst = s ∧
      (zfgetc file_backend (zfread file_backend fio s.length).fio).1 = EOF) := by
  obtain ⟨hf, hmode, _⟩ := zfopen_fresh env path mode fio hopen
  constructor
  · intro hw
    refine ⟨rfl, ?_⟩
    have hm : (zfwrite file_backend fio s).2.mode.head? ≠ some 'r' := by
      show fio.mode.head? ≠ some 'r'
      rw [hmode]; exact hw
    rw [zfclose_file_write _ hm]
    obtain ⟨f1, _, _, _⟩ := hf
    show some (file_s.mk fio.fp.input ((fio.fp.output ++ s) ++ buf_slice fio.buf 0 fio.curr))
      = _
    rw [f1, buf_slice_zero, List.append_nil]
  · intro hin hlen
    subst hin
    obtain ⟨a1, a2, a3, a4⟩ := zfread_fresh_all fio hf hlen
    exact ⟨a1, a2, ((zfgetc_pending _ a3).2.1 a4).1⟩

/-- C2 at a concrete input: the bytes `104, 105, 255` in one `zfwrite` through
`zfopen("tmp.txt", "w")` and in one `zfread` through `zfopen("tmp.txt", "r")`. -/
theorem C2_bulk_round_trip_witness :
    ((zfwrite file_backend demo_wfio [104, 105, 255]).1 = 3 ∧
      (zfclose file_backend (some (zfwrite file_backend demo_wfio [104, 105, 255]).2)).2 =
        some { input := [], output := [] ++ [104, 105, 255] }) ∧
    ((zfread file_backend (demo_rfio [104, 105, 255]) 3).ret = 3 ∧
      (zfread file_backend (demo_rfio [104, 105, 255]) 3).dst = [104, 105, 255] ∧
      (zfgetc file_backend (zfread file_backend (demo_rfio [104, 105, 255]) 3).fio).1 = EOF) :=
  ⟨(C2_bulk_round_trip (demo_env []) (lit "tmp.txt") (lit "w") demo_wfio [104, 105, 255]
      (demo_wfio_open [])).1 (by decide),
   (C2_bulk_round_trip (demo_env [104, 105, 255]) (lit "tmp.txt") (lit "r")
      (demo_rfio [104, 105, 255]) [104, 105, 255] (demo_rfio_open _)).2 rfl (by decide)⟩

/-! ## End of stream (C3, C4, C5) -/

/-- C3 at a failing input: the stream `1, ..., 10` opened with `zfopen("tmp.txt", "r")`, then
`zfgetc`, `zfread` of 3, `zfread` of 5, `zfgetc`. The first `zfgetc` fetches all ten bytes
into the buffer (short read, `eof = 1`); the `zfread` of 3 takes three of them and sets
`eof = 2` although six bytes are still buffered (`curr = 4`, `end = 10`); the `zfread` of 5
then returns 0 and the `zfgetc` returns `EOF`, with only `1, 2, 3, 4` delivered. -/
theorem C3_buffered_bytes_dropped :
    (zfopen (demo_env [1, 2, 3, 4, 5, 6, 7, 8, 9, 10]) (some (lit "tmp.txt"))
      (some (lit "r"))).1 = some (demo_rfio [1, 2, 3, 4, 5, 6, 7, 8, 9, 10]) ∧
    (zf_run file_backend (demo_rfio [1, 2, 3, 4, 5, 6, 7, 8, 9, 10])
      [.getc, .read 3, .read 5, .getc]).1 =
      [.getc 1, .read 3 [2, 3, 4], .read 0 [], .getc EOF] ∧
    delivered_all (zf_run file_backend (demo_rfio [1, 2, 3, 4, 5, 6, 7, 8, 9, 10])
      [.getc, .read 3, .read 5, .getc]).1 = [1, 2, 3, 4] ∧
    (zf_run file_backend (demo_rfio [1, 2, 3, 4, 5, 6, 7, 8, 9, 10])
      [.getc, .read 3]).2.curr = 4 ∧
    (zf_run file_backend (demo_rfio [1, 2, 3, 4, 5, 6, 7, 8, 9, 10])
      [.getc, .read 3]).2.end_ = 10 ∧
    (zf_run file_backend (demo_rfio [1, 2, 3, 4, 5, 6, 7, 8, 9, 10])
      [.getc, .read 3]).2.eof = 2 := by
  refine ⟨rfl, ?_, ?_, ?_, ?_, ?_⟩ <;> decide

theorem zfputc_frame {β : Type} (B : zf_backend β) (f : zf_s β) (c : Int) :
    (zfputc B f c).2.eof = f.eof ∧ (zfputc B f c).2.size = f.size ∧
    (zfputc B f c).2.end_ = f.end_ ∧ (zfputc B f c).2.mode = f.mode := by
  unfold zfputc
  dsimp only
  split_ifs <;> exact ⟨rfl, rfl, rfl, rfl⟩

theorem zfputs_frame {β : Type} (B : zf_backend β) (s : List uint8_t) (f : zf_s β) :
    (zfputs B f s).2.eof = f.eof ∧ (zfputs B f s).2.size = f.size ∧
    (zfputs B f s).2.end_ = f.end_ ∧ (zfputs B f s).2.mode = f.mode := by
  induction s generalizing f with
  | nil => exact zfputc_frame B f 10
  | cons c s ih =>
    unfold zfputs
    split_ifs
    · exact zfputc_frame B f 10
    · obtain ⟨a1, a2, a3, a4⟩ := ih (zfputc B f (char_to_int c)).2
      obtain ⟨b1, b2, b3, b4⟩ := zfputc_frame B f (char_to_int c)
      exact ⟨a1.trans b1, a2.trans b2, a3.trans b3, a4.trans b4⟩

theorem zfprintf_frame {β : Type} (B : zf_backend β) (f : zf_s β) (text : List uint8_t)
    (r : Int × zf_s β) (h : zfprintf B f text = some r) :
    r.2.eof = f.eof ∧ r.2.size = f.size ∧ r.2.end_ = f.end_ ∧ r.2.mode = f.mode := by
  unfold zfprintf zfprintf_render at h
  dsimp only at h
  split_ifs at h <;>
    first
    | exact absurd h (Option.noConfusion)
    | (rw [← Option.some.inj h]; exact ⟨rfl, rfl, rfl, rfl⟩)

theorem zf_step_printf {β : Type} (B : zf_backend β) (f : zf_s β) (text : List uint8_t) :
    zf_step B f (.printf text) =
      match zfprintf B f text with
      | some r => (.printf r.1, r.2)
      | none => (.fault, f) := rfl

/-- A `zfprintf` step either has undefined behaviour, or is the defined call. -/
theorem zf_step_printf_cases {β : Type} (B : zf_backend β) (f : zf_s β)
    (text : List uint8_t) :
    (zfprintf B f text = none ∧ zf_step B f (.printf text) = (.fault, f)) ∨
    (∃ r, zfprintf B f text = some r ∧ zf_step B f (.printf text) = (.printf r.1, r.2)) := by
  rw [zf_step_printf]
  cases h : zfprintf B f text with
  | none => exact Or.inl ⟨rfl, rfl⟩
  | some r => exact Or.inr ⟨r, rfl, rfl⟩

theorem zf_step_printf_frame {β : Type} (B : zf_backend β) (f : zf_s β)
    (text : List uint8_t) :
    (zf_step B f (.printf text)).2.eof = f.eof ∧
    (zf_step B f (.printf text)).2.size = f.size ∧
    (zf_step B f (.printf text)).2.end_ = f.end_ ∧
    (zf_step B f (.printf text)).2.mode = f.mode := by
  rcases zf_step_printf_cases B f text with ⟨_, h⟩ | ⟨r, hr, h⟩
  · rw [h]; exact ⟨rfl, rfl, rfl, rfl⟩
  · rw [h]; exact zfprintf_frame B f text r hr

/-- A run of at least one call: either the first call has undefined behaviour and the run
ends there, or the run goes on from the context the first call leaves. -/
theorem zf_run_cons_cases {β : Type} (B : zf_backend β) (f : zf_s β) (op : zf_op)
    (ops : List zf_op) :
    ((zf_step B f op).1 = .fault ∧
      zf_run B f (op :: ops) = ([.fault], (zf_step B f op).2)) ∨
    ((zf_step B f op).1 ≠ .fault ∧
      zf_run B f (op :: ops) =
        ((zf_step B f op).1 :: (zf_run B (zf_step B f op).2 ops).1,
          (zf_run B (zf_step B f op).2 ops).2)) := by
  cases h : (zf_step B f op).1 <;> simp [zf_run, h]

/-- The context a run of at least one call leaves: that of the first call when it has
undefined behaviour, that of the rest of the run otherwise. -/
theorem zf_run_cons_state {β : Type} (B : zf_backend β) (f : zf_s β) (op : zf_op)
    (ops : List zf_op) :
    ((zf_step B f op).1 = .fault ∧ (zf_run B f (op :: ops)).2 = (zf_step B f op).2) ∨
    ((zf_step B f op).1 ≠ .fault ∧
      (zf_run B f (op :: ops)).2 = (zf_run B (zf_step B f op).2 ops).2) := by
  rcases zf_run_cons_cases B f op ops with ⟨h, e⟩ | ⟨h, e⟩
  · exact Or.inl ⟨h, by rw [e]⟩
  · exact Or.inr ⟨h, by rw [e]⟩

/-- Only a `zfprintf` whose text does not fit the buffer has undefined behaviour. -/
theorem zf_step_fault {β : Type} (B : zf_backend β) (f : zf_s β) (op : zf_op)
    (h : (zf_step B f op).1 = .fault) :
    ∃ text, op = .printf text ∧ ZF_BUF_SIZE ≤ text.length ∧ (zf_step B f op).2 = f := by
  cases op with
  | read len => cases h
  | getc => cases h
  | write ptr => cases h
  | putc c => cases h
  | puts s => cases h
  | printf text =>
    rcases zf_step_printf_cases B f text with ⟨hn, e⟩ | ⟨r, _, e⟩
    · refine ⟨text, rfl, ?_, by rw [e]⟩
      by_contra hlt
      have hlt2 : text.length < ZF_BUF_SIZE := by omega
      unfold zfprintf zfprintf_render at hn
      dsimp only at hn
      rw [if_pos hlt2] at hn
      split_ifs at hn
    · rw [e] at h; cases h

/-- A run whose first call is defined goes on from the context that call leaves. -/
theorem zf_run_cons_ok {β : Type} (B : zf_backend β) (f : zf_s β) (op : zf_op)
    (ops : List zf_op) (h : (zf_step B f op).1 ≠ .fault) :
    zf_run B f (op :: ops) =
      ((zf_step B f op).1 :: (zf_run B (zf_step B f op).2 ops).1,
        (zf_run B (zf_step B f op).2 ops).2) := by
  rcases zf_run_cons_cases B f op ops with ⟨hf, _⟩ | ⟨_, e⟩
  · exact absurd hf h
  · exact e

/-- The calls of a reader are defined. -/
theorem zf_step_read_call {β : Type} (B : zf_backend β) (f : zf_s β) (op : zf_op)
    (hop : read_call op = true) : (zf_step B f op).1 ≠ .fault := by
  intro h
  obtain ⟨text, rfl, _, _⟩ := zf_step_fault B f op h
  simp [read_call] at hop

/-- The calls of a writer are defined when every formatted text fits the buffer. -/
theorem zf_step_write_call {β : Type} (B : zf_backend β) (f : zf_s β) (op : zf_op)
    (cap : Nat) (hcap : cap ≤ ZF_BUF_SIZE) (hop : write_call cap op = true) :
    (zf_step B f op).1 ≠ .fault := by
  intro h
  obtain ⟨text, rfl, hlen, _⟩ := zf_step_fault B f _ h
  simp only [write_call, decide_eq_true_eq] at hop
  omega

/-- A `zfprintf` whose text fits the buffer, with nothing pending: the text and a zero byte
are stored at the start of the buffer, one backend write is made. -/
theorem zfprintf_render_fits {β : Type} (B : zf_backend β) (f : zf_s β) (fp : β)
    (text : List uint8_t) (h : text.length < ZF_BUF_SIZE) :
    zfprintf_render B f fp text =
      some (to_int ((B.write fp
          (buf_slice (buf_store f.buf (text ++ [0])) 0 (text.length % U64))).count % U64),
        { f with
          fp := (B.write fp
            (buf_slice (buf_store f.buf (text ++ [0])) 0 (text.length % U64))).fp,
          buf := buf_store f.buf (text ++ [0]),
          curr := (text.length % U64 + U64 - (B.write fp
            (buf_slice (buf_store f.buf (text ++ [0])) 0 (text.length % U64))).count % U64)
              % U64 }) := by
  unfold zfprintf_render
  rw [if_pos h]

/-- A `zfprintf_render` that gives a result had a text that fits the buffer. -/
theorem zfprintf_render_some {β : Type} (B : zf_backend β) (f : zf_s β) (fp : β)
    (text : List uint8_t) (r : Int × zf_s β) (h : zfprintf_render B f fp text = some r) :
    text.length < ZF_BUF_SIZE := by
  by_contra hn
  unfold zfprintf_render at h
  rw [if_neg hn] at h
  exact Option.noConfusion h

theorem zfread_size {β : Type} (B : zf_backend β) (f : zf_s β) (len : Nat) :
    (zfread B f len).fio.size = f.size ∧ (zfread B f len).fio.end_ = f.end_ := by
  unfold zfread
  dsimp only
  split_ifs <;> exact ⟨rfl, rfl⟩

theorem zfgetc_refill_size {β : Type} (B : zf_backend β) (f : zf_s β) :
    (zfgetc_refill B f).size = f.size := by
  unfold zfgetc_refill
  dsimp only
  split_ifs <;> rfl

theorem zfgetc_size {β : Type} (B : zf_backend β) (f : zf_s β) :
    (zfgetc B f).2.size = f.size := by
  unfold zfgetc
  dsimp only
  split_ifs <;> exact zfgetc_refill_size B f

theorem zf_step_size {β : Type} (B : zf_backend β) (f : zf_s β) (op : zf_op) :
    (zf_step B f op).2.size = f.size := by
  cases op with
  | read len => exact (zfread_size B f len).1
  | getc => exact zfgetc_size B f
  | write ptr => rfl
  | putc c => exact (zfputc_frame B f c).2.1
  | puts s => exact (zfputs_frame B s f).2.1
  | printf text => exact (zf_step_printf_frame B f text).2.1

theorem zf_run_size {β : Type} (B : zf_backend β) (ops : List zf_op) (f : zf_s β) :
    (zf_run B f ops).2.size = f.size := by
  induction ops generalizing f with
  | nil => rfl
  | cons op ops ih =>
    rcases zf_run_cons_state B f op ops with ⟨_, e⟩ | ⟨_, e⟩
    · rw [e, zf_step_size]
    · rw [e, ih, zf_step_size]

/-- Once `eof = 2`, `zfread` returns 0, stores nothing and leaves the context alone. -/
theorem zfread_drained {β : Type} (B : zf_backend β) (f : zf_s β) (len : Nat)
    (h : f.eof = 2) : zfread B f len = ⟨0, [], f⟩ := by
  unfold zfread
  rw [if_pos h]

/-- Once `eof = 2` (and the buffer has a positive size), the refill of `zfgetc` makes no
backend call and leaves `eof = 2`. -/
theorem zfgetc_refill_drained {β : Type} (B : zf_backend β) (f : zf_s β)
    (h : f.eof = 2) (hs : 0 < f.size) :
    (zfgetc_refill B f).eof = 2 ∧ (zfgetc_refill B f).fp = f.fp := by
  have h0 : ¬ f.eof = 0 := by rw [h]; decide
  unfold zfgetc_refill
  dsimp only
  split_ifs
  · exact ⟨rfl, rfl⟩
  · exact ⟨h, rfl⟩

theorem zfgetc_drained {β : Type} (B : zf_backend β) (f : zf_s β)
    (h : f.eof = 2) (hs : 0 < f.size) :
    (zfgetc B f).1 = EOF ∧ (zfgetc B f).2.eof = 2 ∧ (zfgetc B f).2.fp = f.fp := by
  obtain ⟨a1, a2⟩ := zfgetc_refill_drained B f h hs
  unfold zfgetc
  dsimp only
  rw [if_pos a1]
  exact ⟨rfl, a1, a2⟩

theorem zf_step_drained {β : Type} (B : zf_backend β) (f : zf_s β) (op : zf_op)
    (h : f.eof = 2) (hs : 0 < f.size) : (zf_step B f op).2.eof = 2 := by
  cases op with
  | read len => show (zfread B f len).fio.eof = 2; rw [zfread_drained B f len h]; exact h
  | getc => exact (zfgetc_drained B f h hs).2.1
  | write ptr => exact h
  | putc c => exact (zfputc_frame B f c).1.trans h
  | puts s => exact (zfputs_frame B s f).1.trans h
  | printf text => exact (zf_step_printf_frame B f text).1.trans h

theorem zf_run_drained {β : Type} (B : zf_backend β) (ops : List zf_op) (f : zf_s β)
    (h : f.eof = 2) (hs : 0 < f.size) : (zf_run B f ops).2.eof = 2 := by
  induction ops generalizing f with
  | nil => exact h
  | cons op ops ih =>
    rcases zf_run_cons_state B f op ops with ⟨_, e⟩ | ⟨_, e⟩
    · rw [e]; exact zf_step_drained B f op h hs
    · rw [e]
      exact ih _ (zf_step_drained B f op h hs) (by rw [zf_step_size]; exact hs)

theorem zfread_buf_copy_size_le {β : Type} (f : zf_s β) (len : Nat) :
    zfread_buf_copy_size f len ≤ len ∧
    (f.curr ≤ f.end_ → f.curr + zfread_buf_copy_size f len ≤ f.end_) := by
  unfold zfread_buf_copy_size
  split_ifs <;> constructor <;> omega

/-- A `zfread` that returns less than `len` leaves `eof = 2`, when the backend never reports
more bytes than requested. -/
theorem zfread_short_eof {β : Type} (B : zf_backend β) (f : zf_s β) (len : Nat)
    (hB : ∀ fp n, (B.read fp n).count ≤ n) (hlen : len < U64)
    (hshort : (zfread B f len).ret < len) : (zfread B f len).fio.eof = 2 := by
  have hle := (zfread_buf_copy_size_le f len).1
  by_cases h2 : f.eof = 2
  · rw [zfread_drained B f len h2]
    exact h2
  by_cases h1 : f.eof = 1
  · have hz : zfread B f len = ⟨zfread_buf_copy_size f len,
        buf_slice f.buf f.curr (zfread_buf_copy_size f len),
        { f with curr := f.curr + zfread_buf_copy_size f len, eof := 2 }⟩ := by
      unfold zfread
      rw [if_neg h2]
      dsimp only
      rw [if_pos h1]
    rw [hz]
  by_cases hpos : len - zfread_buf_copy_size f len > 0
  · have hz : zfread B f len =
        ⟨(zfread_buf_copy_size f len +
            (B.read f.fp (len - zfread_buf_copy_size f len)).count % U64) % U64,
          buf_slice f.buf f.curr (zfread_buf_copy_size f len) ++
            (B.read f.fp (len - zfread_buf_copy_size f len)).data,
          { f with
            curr := f.curr + zfread_buf_copy_size f len,
            fp := (B.read f.fp (len - zfread_buf_copy_size f len)).fp,
            eof := if (B.read f.fp (len - zfread_buf_copy_size f len)).count % U64 <
              len - zfread_buf_copy_size f len then 2 else f.eof }⟩ := by
      unfold zfread
      rw [if_neg h2]
      dsimp only
      rw [if_neg h1, if_pos hpos]
    rw [hz] at hshort ⊢
    have hcnt := hB f.fp (len - zfread_buf_copy_size f len)
    have hmod := Nat.mod_le (B.read f.fp (len - zfread_buf_copy_size f len)).count U64
    have hs : (zfread_buf_copy_size f len +
        (B.read f.fp (len - zfread_buf_copy_size f len)).count % U64) % U64 < len := hshort
    rw [Nat.mod_eq_of_lt (by omega)] at hs
    show (if (B.read f.fp (len - zfread_buf_copy_size f len)).count % U64 <
      len - zfread_buf_copy_size f len then (2 : Int) else f.eof) = 2
    rw [if_pos (by omega)]
  · have hz : zfread B f len = ⟨zfread_buf_copy_size f len,
        buf_slice f.buf f.curr (zfread_buf_copy_size f len),
        { f with curr := f.curr + zfread_buf_copy_size f len }⟩ := by
      unfold zfread
      rw [if_neg h2]
      dsimp only
      rw [if_neg h1, if_neg hpos]
    rw [hz] at hshort
    have hs : zfread_buf_copy_size f len < len := hshort
    omega

/-- C4: bulk-read EOF idempotence. On a context reached from `zfopen` by any calls, over a
backend that never reports more bytes than requested: once a `zfread` (of a length that a
`size_t` can express) returns fewer bytes than requested, every later `zfread` returns 0,
whatever calls are made in between. -/
theorem C4_bulk_read_eof_idempotent {β : Type} (B : zf_backend β) (env : zfopen_env β)
    (path mode : cstr) (fio : zf_s β) (ops later : List zf_op) (len len2 : Nat)
    (hopen : (zfopen env (some path) (some mode)).1 = some fio)
    (hB : ∀ fp n, (B.read fp n).count ≤ n) (hlen : len < U64)
    (hshort : (zfread B (zf_run B fio ops).2 len).ret < len) :
    (zfread B (zf_run B (zfread B (zf_run B fio ops).2 len).fio later).2 len2).ret = 0 := by
  obtain ⟨⟨_, _, _, f4⟩, _, _⟩ := zfopen_fresh env path mode fio hopen
  have hs : 0 < (zfread B (zf_run B fio ops).2 len).fio.size := by
    rw [(zfread_size B _ len).1, zf_run_size, f4]
    decide
  have h2 := zfread_short_eof B (zf_run B fio ops).2 len hB hlen hshort
  rw [zfread_drained B _ len2 (zf_run_drained B later _ h2 hs)]

/-- C4 at a concrete input: the stream `1, 2, 3`; a `zfread` of 5 returns 3, and after a
`zfgetc` a `zfread` of 4 returns 0. -/
theorem C4_bulk_read_eof_idempotent_witness :
    (zfread file_backend (zf_run file_backend (demo_rfio [1, 2, 3]) []).2 5).ret < 5 ∧
    (zfread file_backend (zf_run file_backend
      (zfread file_backend (zf_run file_backend (demo_rfio [1, 2, 3]) []).2 5).fio
      [.getc]).2 4).ret = 0 :=
  ⟨by decide,
   C4_bulk_read_eof_idempotent file_backend (demo_env [1, 2, 3]) (lit "tmp.txt") (lit "r")
    (demo_rfio [1, 2, 3]) [] [.getc] 5 4 (demo_rfio_open _)
    (fun fp n => List.length_take_le n fp.input) (by decide) (by decide)⟩

theorem zfgetc_eof {β : Type} (B : zf_backend β) (f : zf_s β) (h : (zfgetc B f).1 = EOF) :
    (zfgetc B f).2.eof = 2 := by
  unfold zfgetc at h ⊢
  dsimp only at h ⊢
  split_ifs at h ⊢ with h2
  · exact h2
  · exfalso
    have h3 : (((zfgetc_refill B f).buf (zfgetc_refill B f).curr).val : Int) = EOF := h
    unfold EOF at h3
    omega

theorem reads_append (a b : List io_call) : reads (a ++ b) = reads a ++ reads b := by
  induction a with
  | nil => rfl
  | cons c a ih =>
    cases c <;> simp [reads, ih]

theorem reads_write (a : List io_call) (p : List uint8_t) :
    reads (a ++ [.write p]) = reads a := by
  rw [reads_append]
  simp [reads]

theorem zfputc_reads {β : Type} (B : zf_backend β) (f : zf_s (β × List io_call)) (c : Int) :
    reads (zfputc (traced B) f c).2.fp.2 = reads f.fp.2 := by
  unfold zfputc
  dsimp only
  split_ifs
  · exact reads_write _ _
  · rfl

theorem zfputs_reads {β : Type} (B : zf_backend β) (s : List uint8_t)
    (f : zf_s (β × List io_call)) :
    reads (zfputs (traced B) f s).2.fp.2 = reads f.fp.2 := by
  induction s generalizing f with
  | nil => exact zfputc_reads B f 10
  | cons c s ih =>
    unfold zfputs
    split_ifs
    · exact zfputc_reads B f 10
    · rw [ih, zfputc_reads]

theorem zfprintf_reads {β : Type} (B : zf_backend β) (f : zf_s (β × List io_call))
    (text : List uint8_t) (r : Int × zf_s (β × List io_call))
    (h : zfprintf (traced B) f text = some r) :
    reads r.2.fp.2 = reads f.fp.2 := by
  unfold zfprintf zfprintf_render at h
  dsimp only at h
  split_ifs at h
  · rw [← Option.some.inj h]
    exact reads_write _ _
  · rw [← Option.some.inj h]
    show reads ((f.fp.2 ++ [.write _]) ++ [.write _]) = _
    rw [reads_write, reads_write]
  · rw [← Option.some.inj h]
    exact reads_write _ _

theorem zf_step_printf_reads {β : Type} (B : zf_backend β) (f : zf_s (β × List io_call))
    (text : List uint8_t) :
    reads (zf_step (traced B) f (.printf text)).2.fp.2 = reads f.fp.2 := by
  rcases zf_step_printf_cases (traced B) f text with ⟨_, h⟩ | ⟨r, hr, h⟩
  · rw [h]
  · rw [h]; exact zfprintf_reads B f text r hr

theorem zf_step_drained_reads {β : Type} (B : zf_backend β) (f : zf_s (β × List io_call))
    (op : zf_op) (h : f.eof = 2) (hs : 0 < f.size) :
    reads (zf_step (traced B) f op).2.fp.2 = reads f.fp.2 := by
  cases op with
  | read len =>
    show reads (zfread (traced B) f len).fio.fp.2 = _
    rw [zfread_drained _ f len h]
  | getc =>
    show reads (zfgetc (traced B) f).2.fp.2 = _
    rw [(zfgetc_drained _ f h hs).2.2]
  | write ptr => exact reads_write _ _
  | putc c => exact zfputc_reads B f c
  | puts s => exact zfputs_reads B s f
  | printf text => exact zf_step_printf_reads B f text

theorem zf_run_drained_reads {β : Type} (B : zf_backend β) (ops : List zf_op)
    (f : zf_s (β × List io_call)) (h : f.eof = 2) (hs : 0 < f.size) :
    reads (zf_run (traced B) f ops).2.fp.2 = reads f.fp.2 := by
  induction ops generalizing f with
  | nil => rfl
  | cons op ops ih =>
    rcases zf_run_cons_state (traced B) f op ops with ⟨_, e⟩ | ⟨_, e⟩
    · rw [e, zf_step_drained_reads B f op h hs]
    · rw [e, ih _ (zf_step_drained _ f op h hs) (by rw [zf_step_size]; exact hs),
        zf_step_drained_reads B f op h hs]

/-- C5: byte-wise EOF idempotence. On a context reached from `zfopen` by any calls, over any
backend (its calls recorded): once `zfgetc` returns `EOF`, then after any further calls
`zfgetc` returns `EOF` again, `zfread` returns 0, and neither they nor the calls in between
issue a backend read (of any length). -/
theorem C5_bytewise_eof_idempotent {β : Type} (B : zf_backend β)
    (env : zfopen_env (β × List io_call)) (path mode : cstr)
    (fio : zf_s (β × List io_call)) (ops later : List zf_op) (len : Nat)
    (hopen : (zfopen env (some path) (some mode)).1 = some fio)
    (heof : (zfgetc (traced B) (zf_run (traced B) fio ops).2).1 = EOF) :
    (zfgetc (traced B) (zf_run (traced B)
      (zfgetc (traced B) (zf_run (traced B) fio ops).2).2 later).2).1 = EOF ∧
    (zfread (traced B) (zf_run (traced B)
      (zfgetc (traced B) (zf_run (traced B) fio ops).2).2 later).2 len).ret = 0 ∧
    reads (zfgetc (traced B) (zf_run (traced B)
      (zfgetc (traced B) (zf_run (traced B) fio ops).2).2 later).2).2.fp.2 =
      reads (zfgetc (traced B) (zf_run (traced B) fio ops).2).2.fp.2 ∧
    reads (zfread (traced B) (zf_run (traced B)
      (zfgetc (traced B) (zf_run (traced B) fio ops).2).2 later).2 len).fio.fp.2 =
      reads (zfgetc (traced B) (zf_run (traced B) fio ops).2).2.fp.2 := by
  obtain ⟨⟨_, _, _, f4⟩, _, _⟩ := zfopen_fresh env path mode fio hopen
  have hs : 0 < (zfgetc (traced B) (zf_run (traced B) fio ops).2).2.size := by
    rw [zfgetc_size, zf_run_size, f4]
    decide
  have h2 := zfgetc_eof _ _ heof
  have h2' := zf_run_drained (traced B) later _ h2 hs
  have hs' : 0 < (zf_run (traced B)
      (zfgetc (traced B) (zf_run (traced B) fio ops).2).2 later).2.size := by
    rw [zf_run_size]; exact hs
  have hr := zf_run_drained_reads B later _ h2 hs
  obtain ⟨g1, _, g3⟩ := zfgetc_drained (traced B) _ h2' hs'
  refine ⟨g1, ?_, ?_, ?_⟩
  · rw [zfread_drained _ _ len h2']
  · rw [g3, hr]
  · rw [zfread_drained _ _ len h2', hr]

/-- C5 at a concrete input: the stream `7`; the second `zfgetc` returns `EOF`, and after a
`zfread` of 2 and a `zfgetc` the next `zfgetc` returns `EOF` and a `zfread` of 3 returns 0,
with the single backend read of the first `zfgetc` the only one made. -/
theorem C5_bytewise_eof_idempotent_witness :
    (zfgetc (traced file_backend)
      (zf_run (traced file_backend) (demo_rfio_traced [7]) [.getc]).2).1 = EOF ∧
    ((zfgetc (traced file_backend) (zf_run (traced file_backend)
      (zfgetc (traced file_backend)
        (zf_run (traced file_backend) (demo_rfio_traced [7]) [.getc]).2).2
      [.read 2, .getc]).2).1 = EOF ∧
    (zfread (traced file_backend) (zf_run (traced file_backend)
      (zfgetc (traced file_backend)
        (zf_run (traced file_backend) (demo_rfio_traced [7]) [.getc]).2).2
      [.read 2, .getc]).2 3).ret = 0 ∧
    reads (zfgetc (traced file_backend) (zf_run (traced file_backend)
      (zfgetc (traced file_backend)
        (zf_run (traced file_backend) (demo_rfio_traced [7]) [.getc]).2).2
      [.read 2, .getc]).2).2.fp.2 =
      reads (zfgetc (traced file_backend)
        (zf_run (traced file_backend) (demo_rfio_traced [7]) [.getc]).2).2.fp.2 ∧
    reads (zfread (traced file_backend) (zf_run (traced file_backend)
      (zfgetc (traced file_backend)
        (zf_run (traced file_backend) (demo_rfio_traced [7]) [.getc]).2).2
      [.read 2, .getc]).2 3).fio.fp.2 =
      reads (zfgetc (traced file_backend)
        (zf_run (traced file_backend) (demo_rfio_traced [7]) [.getc]).2).2.fp.2) :=
  ⟨by decide,
   C5_bytewise_eof_idempotent file_backend (demo_env_traced [7]) (lit "tmp.txt") (lit "r")
    (demo_rfio_traced [7]) [.getc] [.read 2, .getc] 3 rfl (by decide)⟩

/-! ## Buffer bounds (C6) -/

/-- C6 as stated fails: after `zfopen("tmp.txt", "w")` and one `zfputc`, the cursor is 1 and
`end` is still 0, so `curr <= end` does not hold. Moreover `end <= size` rests on the backend:
after `zfopen("tmp.txt", "r")` and one `zfgetc` over a backend that reports one byte more than
requested, `end` is 524289. -/
theorem C6_write_cursor_exceeds_end :
    (zfopen (demo_env []) (some (lit "tmp.txt")) (some (lit "w"))).1 = some demo_wfio ∧
    (zf_run file_backend demo_wfio [.putc 104]).2.curr = 1 ∧
    (zf_run file_backend demo_wfio [.putc 104]).2.end_ = 0 ∧
    ¬ ((zf_run file_backend demo_wfio [.putc 104]).2.curr ≤
      (zf_run file_backend demo_wfio [.putc 104]).2.end_) ∧
    (zfopen (demo_env []) (some (lit "tmp.txt")) (some (lit "r"))).1 = some (demo_rfio []) ∧
    (zf_run over_reporting_backend (demo_rfio []) [.getc]).2.end_ = 524289 ∧
    ¬ ((zf_run over_reporting_backend (demo_rfio []) [.getc]).2.end_ ≤
      (zf_run over_reporting_backend (demo_rfio []) [.getc]).2.size) := by
  refine ⟨rfl, ?_, ?_, ?_, rfl, ?_, ?_⟩ <;> decide

theorem zfread_bounds {β : Type} (B : zf_backend β) (f : zf_s β) (len : Nat)
    (h : f.curr ≤ f.end_) : (zfread B f len).fio.curr ≤ (zfread B f len).fio.end_ := by
  have hle := (zfread_buf_copy_size_le f len).2 h
  unfold zfread
  dsimp only
  split_ifs <;> first | exact h | exact hle

theorem zfgetc_refill_bounds {β : Type} (B : zf_backend β) (f : zf_s β)
    (hB : ∀ fp n, (B.read fp n).count ≤ n) (h1 : f.curr ≤ f.end_) (h2 : f.end_ ≤ f.size)
    (h3 : 0 < f.size) :
    (zfgetc_refill B f).curr ≤ (zfgetc_refill B f).end_ ∧
    (zfgetc_refill B f).end_ ≤ f.size ∧
    ((zfgetc_refill B f).eof ≠ 2 → (zfgetc_refill B f).curr < (zfgetc_refill B f).end_) := by
  by_cases hc : f.curr ≥ f.end_
  · by_cases he : f.eof = 0
    · have hcnt := hB f.fp f.size
      have hmod := Nat.mod_le (B.read f.fp f.size).count U64
      have hg : zfgetc_refill B f =
          { f with
            curr := 0, end_ := (B.read f.fp f.size).count % U64,
            fp := (B.read f.fp f.size).fp, buf := buf_store f.buf (B.read f.fp f.size).data,
            eof := (if (B.read f.fp f.size).count % U64 < f.size then 1 else 0) +
              (if (B.read f.fp f.size).count % U64 = 0 then 1 else 0) } := by
        unfold zfgetc_refill
        rw [if_pos hc, if_pos he]
      rw [hg]
      refine ⟨Nat.zero_le _, by show _ % U64 ≤ f.size; omega, ?_⟩
      show ((if (B.read f.fp f.size).count % U64 < f.size then (1 : Int) else 0) +
        (if (B.read f.fp f.size).count % U64 = 0 then 1 else 0)) ≠ 2 →
        0 < (B.read f.fp f.size).count % U64
      intro hne
      by_contra hcon
      have h0 : (B.read f.fp f.size).count % U64 = 0 := by omega
      apply hne
      rw [if_pos h0, if_pos (by omega)]
      rfl
    · have hg : zfgetc_refill B f = { f with curr := 0, end_ := 0, eof := 2 } := by
        unfold zfgetc_refill
        rw [if_pos hc, if_neg he, if_pos h3]
        rfl
      rw [hg]
      exact ⟨Nat.le_refl _, Nat.zero_le _, fun hne => absurd rfl hne⟩
  · have hg : zfgetc_refill B f = f := by
      unfold zfgetc_refill
      rw [if_neg hc]
    rw [hg]
    exact ⟨h1, h2, fun _ => by omega⟩

theorem zfgetc_bounds {β : Type} (B : zf_backend β) (f : zf_s β)
    (hB : ∀ fp n, (B.read fp n).count ≤ n) (h1 : f.curr ≤ f.end_) (h2 : f.end_ ≤ f.size)
    (h3 : 0 < f.size) (h4 : f.size < U64) :
    (zfgetc B f).2.curr ≤ (zfgetc B f).2.end_ ∧ (zfgetc B f).2.end_ ≤ f.size := by
  obtain ⟨a1, a2, a3⟩ := zfgetc_refill_bounds B f hB h1 h2 h3
  by_cases he : (zfgetc_refill B f).eof = 2
  · have hz : zfgetc B f = (EOF, zfgetc_refill B f) := by
      unfold zfgetc
      simp only [he, if_true]
    rw [hz]
    exact ⟨a1, a2⟩
  · have hz : zfgetc B f =
        ((((zfgetc_refill B f).buf (zfgetc_refill B f).curr).val : Int),
          { zfgetc_refill B f with curr := ((zfgetc_refill B f).curr + 1) % U64 }) := by
      unfold zfgetc
      simp only [he, if_false]
    rw [hz]
    have hlt := a3 he
    have hmod : ((zfgetc_refill B f).curr + 1) % U64 = (zfgetc_refill B f).curr + 1 :=
      Nat.mod_eq_of_lt (by omega)
    have hcur : ((zfgetc_refill B f).curr + 1) % U64 ≤ (zfgetc_refill B f).end_ := by
      rw [hmod]; omega
    exact ⟨hcur, a2⟩

theorem zf_run_read_bounds {β : Type} (B : zf_backend β)
    (hB : ∀ fp n, (B.read fp n).count ≤ n) (ops : List zf_op) (f : zf_s β)
    (hops : ∀ op ∈ ops, read_call op = true)
    (h1 : f.curr ≤ f.end_) (h2 : f.end_ ≤ f.size) (h3 : 0 < f.size) (h4 : f.size < U64) :
    (zf_run B f ops).2.curr ≤ (zf_run B f ops).2.end_ ∧
    (zf_run B f ops).2.end_ ≤ (zf_run B f ops).2.size := by
  induction ops generalizing f with
  | nil => exact ⟨h1, h2⟩
  | cons op ops ih =>
    have hrest : ∀ o ∈ ops, read_call o = true := fun o ho => hops o (List.mem_cons_of_mem _ ho)
    have hop := hops op (List.mem_cons_self _ _)
    rw [zf_run_cons_ok B f op ops (zf_step_read_call B f op hop)]
    show (zf_run B (zf_step B f op).2 ops).2.curr ≤ (zf_run B (zf_step B f op).2 ops).2.end_ ∧
      (zf_run B (zf_step B f op).2 ops).2.end_ ≤ (zf_run B (zf_step B f op).2 ops).2.size
    have hsz := zf_step_size B f op
    cases op with
    | read len =>
      apply ih _ hrest
      · exact zfread_bounds B f len h1
      · show (zfread B f len).fio.end_ ≤ (zfread B f len).fio.size
        rw [(zfread_size B f len).1, (zfread_size B f len).2]
        exact h2
      · rw [hsz]; exact h3
      · rw [hsz]; exact h4
    | getc =>
      obtain ⟨a1, a2⟩ := zfgetc_bounds B f hB h1 h2 h3 h4
      apply ih _ hrest
      · exact a1
      · show (zfgetc B f).2.end_ ≤ (zfgetc B f).2.size
        rw [zfgetc_size]
        exact a2
      · rw [hsz]; exact h3
      · rw [hsz]; exact h4
    | write ptr => simp [read_call] at hop
    | putc c => simp [read_call] at hop
    | puts s => simp [read_call] at hop
    | printf text => simp [read_call] at hop

theorem zfputc_cursor {β : Type} (B : zf_backend β) (f : zf_s β) (c : Int)
    (h1 : f.curr < f.size) (h2 : f.size < U64) :
    (zfputc B f c).2.curr < f.size := by
  have h3 : (f.curr + 1) % U64 = f.curr + 1 := Nat.mod_eq_of_lt (by omega)
  unfold zfputc
  dsimp only
  rw [h3]
  split_ifs with h
  · show 0 < f.size
    omega
  · show f.curr + 1 < f.size
    omega

theorem zfputs_cursor {β : Type} (B : zf_backend β) (s : List uint8_t) (f : zf_s β)
    (h1 : f.curr < f.size) (h2 : f.size < U64) :
    (zfputs B f s).2.curr < f.size := by
  induction s generalizing f with
  | nil => exact zfputc_cursor B f 10 h1 h2
  | cons c s ih =>
    unfold zfputs
    split_ifs
    · exact zfputc_cursor B f 10 h1 h2
    · have hs := (zfputc_frame B f (char_to_int c)).2.1
      have := ih (zfputc B f (char_to_int c)).2
        (by rw [hs]; exact zfputc_cursor B f _ h1 h2) (by rw [hs]; exact h2)
      rw [hs] at this
      exact this

theorem zfprintf_render_cursor {β : Type} (B : zf_backend β) (f : zf_s β) (fp : β)
    (text : List uint8_t) (hB : ∀ fp p, (B.write fp p).count ≤ p.length)
    (ht : text.length < U64) (r : Int × zf_s β) (hr : zfprintf_render B f fp text = some r) :
    r.2.curr ≤ text.length := by
  have hm : text.length % U64 = text.length := Nat.mod_eq_of_lt ht
  rw [zfprintf_render_fits B f fp text (zfprintf_render_some B f fp text r hr)] at hr
  rw [← Option.some.inj hr]
  dsimp only
  rw [hm]
  have hcnt := hB fp (buf_slice (buf_store f.buf (text ++ [0])) 0 text.length)
  rw [buf_slice_length] at hcnt
  have hmod := Nat.mod_le
    (B.write fp (buf_slice (buf_store f.buf (text ++ [0])) 0 text.length)).count U64
  have : (text.length + U64 -
      (B.write fp (buf_slice (buf_store f.buf (text ++ [0])) 0 text.length)).count % U64) =
      (text.length -
        (B.write fp (buf_slice (buf_store f.buf (text ++ [0])) 0 text.length)).count % U64)
      + U64 := by omega
  rw [this, Nat.add_mod_right]
  exact le_trans (Nat.mod_le _ _) (Nat.sub_le _ _)

theorem zfprintf_cursor {β : Type} (B : zf_backend β) (f : zf_s β) (text : List uint8_t)
    (hB : ∀ fp p, (B.write fp p).count ≤ p.length)
    (h1 : f.curr < f.size) (ht : text.length < f.size) (h2 : f.size < U64)
    (r : Int × zf_s β) (hr : zfprintf B f text = some r) :
    r.2.curr < f.size := by
  unfold zfprintf at hr
  dsimp only at hr
  split_ifs at hr
  · rw [← Option.some.inj hr]
    exact h1
  · exact lt_of_le_of_lt (zfprintf_render_cursor B f _ text hB (by omega) r hr) ht
  · exact lt_of_le_of_lt (zfprintf_render_cursor B f _ text hB (by omega) r hr) ht

theorem zf_step_write_bounds {β : Type} (B : zf_backend β)
    (hB : ∀ fp p, (B.write fp p).count ≤ p.length) (f : zf_s β) (op : zf_op)
    (hop : write_call f.size op = true)
    (h0 : f.end_ = 0) (h1 : f.curr < f.size) (h2 : f.size < U64) :
    (zf_step B f op).2.end_ = 0 ∧ (zf_step B f op).2.curr < f.size := by
  cases op with
  | read len => simp [write_call] at hop
  | getc => simp [write_call] at hop
  | write ptr => exact ⟨h0, h1⟩
  | putc c => exact ⟨(zfputc_frame B f c).2.2.1.trans h0, zfputc_cursor B f c h1 h2⟩
  | puts s => exact ⟨(zfputs_frame B s f).2.2.1.trans h0, zfputs_cursor B s f h1 h2⟩
  | printf text =>
    have ht : text.length < f.size := by simpa [write_call] using hop
    rcases zf_step_printf_cases B f text with ⟨_, e⟩ | ⟨r, hr, e⟩
    · rw [e]; exact ⟨h0, h1⟩
    · rw [e]
      exact ⟨(zfprintf_frame B f text r hr).2.2.1.trans h0,
        zfprintf_cursor B f text hB h1 ht h2 r hr⟩

theorem zf_run_write_bounds {β : Type} (B : zf_backend β)
    (hB : ∀ fp p, (B.write fp p).count ≤ p.length) (ops : List zf_op) (f : zf_s β)
    (hops : ∀ op ∈ ops, write_call f.size op = true)
    (h0 : f.end_ = 0) (h1 : f.curr < f.size) (h2 : f.size < U64) :
    (zf_run B f ops).2.end_ = 0 ∧ (zf_run B f ops).2.curr < (zf_run B f ops).2.size := by
  induction ops generalizing f with
  | nil => exact ⟨h0, h1⟩
  | cons op ops ih =>
    have hsz := zf_step_size B f op
    have hrest : ∀ o ∈ ops, write_call (zf_step B f op).2.size o = true := by
      intro o ho
      rw [hsz]
      exact hops o (List.mem_cons_of_mem _ ho)
    have hop := hops op (List.mem_cons_self _ _)
    obtain ⟨s0, s1⟩ := zf_step_write_bounds B hB f op hop h0 h1 h2
    rcases zf_run_cons_state B f op ops with ⟨_, e⟩ | ⟨_, e⟩
    · rw [e, hsz]; exact ⟨s0, s1⟩
    · rw [e]
      exact ih _ hrest s0 (by rw [hsz]; exact s1) (by rw [hsz]; exact h2)

/-- C6 amended. From a context that `zfopen` returned, over a backend that never reports
more bytes than requested: after any sequence of `zfread` and `zfgetc` calls,
`curr <= end <= size = 512 KiB`; after any sequence of `zfwrite`, `zfputc`, `zfputs` and
`zfprintf` calls (each rendered text shorter than the buffer), `end = 0` and
`curr < size = 512 KiB`, where `curr` is the write cursor. -/
theorem C6_buffer_bounds {β : Type} (B : zf_backend β) (env : zfopen_env β)
    (path mode : cstr) (fio : zf_s β) (ops : List zf_op)
    (hopen : (zfopen env (some path) (some mode)).1 = some fio)
    (hR : ∀ fp n, (B.read fp n).count ≤ n)
    (hW : ∀ fp p, (B.write fp p).count ≤ p.length) :
    ((∀ op ∈ ops, read_call op = true) →
      (zf_run B fio ops).2.curr ≤ (zf_run B fio ops).2.end_ ∧
      (zf_run B fio ops).2.end_ ≤ (zf_run B fio ops).2.size ∧
      (zf_run B fio ops).2.size = ZF_BUF_SIZE) ∧
    ((∀ op ∈ ops, write_call ZF_BUF_SIZE op = true) →
      (zf_run B fio ops).2.end_ = 0 ∧
      (zf_run B fio ops).2.curr < (zf_run B fio ops).2.size ∧
      (zf_run B fio ops).2.size = ZF_BUF_SIZE) := by
  obtain ⟨⟨f1, f2, _, f4⟩, _, _⟩ := zfopen_fresh env path mode fio hopen
  have hsz : (zf_run B fio ops).2.size = ZF_BUF_SIZE := by rw [zf_run_size, f4]
  constructor
  · intro hops
    obtain ⟨a1, a2⟩ := zf_run_read_bounds B hR ops fio hops (by omega) (by omega)
      (by rw [f4]; decide) (by rw [f4]; decide)
    exact ⟨a1, a2, hsz⟩
  · intro hops
    obtain ⟨a1, a2⟩ := zf_run_write_bounds B hW ops fio (by rw [f4]; exact hops) f2
      (by rw [f1, f4]; decide) (by rw [f4]; decide)
    exact ⟨a1, a2, hsz⟩

/-- C6 amended, at concrete inputs: `zfgetc`, `zfread` of 2 on the stream `1, 2, 3`, and
`zfputc`, `zfprintf` of two bytes, `zfputs` on a context opened for writing. -/
theorem C6_buffer_bounds_witness :
    ((zf_run file_backend (demo_rfio [1, 2, 3]) [.getc, .read 2]).2.curr ≤
        (zf_run file_backend (demo_rfio [1, 2, 3]) [.getc, .read 2]).2.end_ ∧
      (zf_run file_backend (demo_rfio [1, 2, 3]) [.getc, .read 2]).2.end_ ≤
        (zf_run file_backend (demo_rfio [1, 2, 3]) [.getc, .read 2]).2.size ∧
      (zf_run file_backend (demo_rfio [1, 2, 3]) [.getc, .read 2]).2.size = ZF_BUF_SIZE) ∧
    ((zf_run file_backend demo_wfio [.putc 104, .printf [105, 106], .puts [107]]).2.end_ = 0 ∧
      (zf_run file_backend demo_wfio [.putc 104, .printf [105, 106], .puts [107]]).2.curr <
        (zf_run file_backend demo_wfio [.putc 104, .printf [105, 106], .puts [107]]).2.size ∧
      (zf_run file_backend demo_wfio [.putc 104, .printf [105, 106], .puts [107]]).2.size =
        ZF_BUF_SIZE) :=
  ⟨(C6_buffer_bounds file_backend (demo_env [1, 2, 3]) (lit "tmp.txt") (lit "r")
      (demo_rfio [1, 2, 3]) [.getc, .read 2] (demo_rfio_open _)
      (fun fp n => List.length_take_le n fp.input) (fun _ _ => Nat.le_refl _)).1 (by decide),
   (C6_buffer_bounds file_backend (demo_env []) (lit "tmp.txt") (lit "w")
      demo_wfio [.putc 104, .printf [105, 106], .puts [107]] (demo_wfio_open _)
      (fun fp n => List.length_take_le n fp.input) (fun _ _ => Nat.le_refl _)).2 (by decide)⟩

/-! ## Format resolution and `zfopen` (C7, C8, C9, C10) -/

theorem zfopen_format_cons (path mode : cstr) (i : Nat) (e : zf_functions_s)
    (rest : List zf_functions_s) (ext : List Char) (h : e.ext = some ext) :
    zfopen_format path mode i (e :: rest) =
      if entry_hit path mode e = true then .hit i
      else zfopen_format path mode (i + 1) rest := by
  unfold entry_hit
  rw [zfopen_format]
  simp only [h]
  by_cases h1 : tail_match path ext = true
  · simp [h1]
  · by_cases h2 : tail_match mode ext = true
    · simp [h1, h2]
    · simp [h1, h2]

/-- The format loop returns the first entry (in table order) that is hit, and reports a miss
only when no entry is hit. -/
theorem zfopen_format_spec (path mode : cstr) (tbl : List zf_functions_s) (i : Nat)
    (hext : ∀ e ∈ tbl, e.ext ≠ none) :
    (∃ k e, zfopen_format path mode i tbl = .hit (i + k) ∧ tbl[k]? = some e ∧
        entry_hit path mode e = true ∧
        ∀ k' e', k' < k → tbl[k']? = some e' → entry_hit path mode e' = false) ∨
    (zfopen_format path mode i tbl = .miss ∧ ∀ e ∈ tbl, entry_hit path mode e = false) := by
  induction tbl generalizing i with
  | nil => exact Or.inr ⟨rfl, fun e he => by cases he⟩
  | cons e rest ih =>
    obtain ⟨ext, hx⟩ := Option.ne_none_iff_exists'.mp (hext e (List.mem_cons_self _ _))
    rw [zfopen_format_cons path mode i e rest ext hx]
    by_cases hh : entry_hit path mode e = true
    · left
      refine ⟨0, e, by rw [if_pos hh]; rfl, by simp, hh, ?_⟩
      intro k' e' hk
      omega
    · rw [if_neg hh]
      have hf : entry_hit path mode e = false := by simpa using hh
      rcases ih (i + 1) (fun e' he' => hext e' (List.mem_cons_of_mem _ he')) with
        ⟨k, e1, h1, h2, h3, h4⟩ | ⟨h1, h2⟩
      · left
        refine ⟨k + 1, e1, by rw [h1]; congr 1; omega, by simpa using h2, h3, ?_⟩
        intro k' e' hk he'
        cases k' with
        | zero =>
          simp only [List.getElem?_cons_zero, Option.some.injEq] at he'
          rw [← he']; exact hf
        | succ k'' =>
          simp only [List.getElem?_cons_succ] at he'
          exact h4 k'' e' (by omega) he'
      · right
        refine ⟨h1, ?_⟩
        intro e' he'
        rcases List.mem_cons.mp he' with h | h
        · rw [h]; exact hf
        · exact h2 e' h

/-- The shape of the table whatever the build switches: seven entries, the suffixes in the
order `.gz`, `.bz2`, `.lz`, `.lzma`, `.xz`, `.z`, the last four without any function. -/
theorem fn_table_shape (hz hb : Bool) :
    ∃ e0 e1 e2, fn_table hz hb =
        [e0, e1, e2, ext_only ".lz", ext_only ".lzma", ext_only ".xz", ext_only ".z"] ∧
      e0.open_ ≠ none ∧ e1.ext = some ".gz".toList ∧ e2.ext = some ".bz2".toList := by
  cases hz <;> cases hb <;> exact ⟨_, _, _, rfl, by decide, rfl, rfl⟩

theorem fn_table_tail_ext (hz hb : Bool) : ∀ e ∈ (fn_table hz hb).tail, e.ext ≠ none := by
  obtain ⟨e0, e1, e2, htbl, _, hx1, hx2⟩ := fn_table_shape hz hb
  rw [htbl]
  intro e he
  simp only [List.tail_cons, List.mem_cons, List.mem_singleton, List.not_mem_nil,
    or_false] at he
  rcases he with h | h | h | h | h | h <;> rw [h]
  · rw [hx1]; exact Option.some_ne_none _
  · rw [hx2]; exact Option.some_ne_none _
  all_goals exact Option.some_ne_none _

theorem fn_table_length (hz hb : Bool) : (fn_table hz hb).length = 7 := by
  obtain ⟨e0, e1, e2, htbl, _⟩ := fn_table_shape hz hb
  rw [htbl]
  rfl

/-- Positive form of the selection rule: `zfopen` selects the entry of least index `i >= 1`
that is hit by one of the two `strncmp` tests, and entry 0 exactly when no entry is hit. -/
theorem zfopen_fn_least (hz hb : Bool) (path mode : cstr) :
    ∃ i fn, zfopen_fn hz hb path mode = some fn ∧ (fn_table hz hb)[i]? = some fn ∧
      (i = 0 ∨ entry_hit path mode fn = true) ∧
      ∀ j e, 1 ≤ j → (j < i ∨ i = 0) → (fn_table hz hb)[j]? = some e →
        entry_hit path mode e = false := by
  have htl : ∀ k, (fn_table hz hb).tail[k]? = (fn_table hz hb)[k + 1]? := by
    intro k
    obtain ⟨e0, e1, e2, htbl, _⟩ := fn_table_shape hz hb
    rw [htbl]
    simp only [List.tail_cons, List.getElem?_cons_succ]
  rcases zfopen_format_spec path mode (fn_table hz hb).tail 1 (fn_table_tail_ext hz hb) with
    ⟨k, e, h1, h2, h3, h4⟩ | ⟨h1, h2⟩
  · refine ⟨1 + k, e, ?_, ?_, Or.inr h3, ?_⟩
    · unfold zfopen_fn
      rw [h1]
      show (fn_table hz hb)[1 + k]? = some e
      rw [Nat.add_comm, ← htl]; exact h2
    · rw [Nat.add_comm, ← htl]; exact h2
    · intro j e' hj hlt he'
      have hj' : j - 1 < k := by omega
      apply h4 (j - 1) e' hj'
      rw [htl]
      have : j - 1 + 1 = j := by omega
      rw [this]; exact he'
  · have h0 : ∃ fn, (fn_table hz hb)[0]? = some fn := by
      obtain ⟨e0, e1, e2, htbl, _⟩ := fn_table_shape hz hb
      exact ⟨e0, by rw [htbl]; rfl⟩
    obtain ⟨fn, hfn⟩ := h0
    refine ⟨0, fn, ?_, hfn, Or.inl rfl, ?_⟩
    · unfold zfopen_fn
      rw [h1]
      exact hfn
    · intro j e' hj _ he'
      apply h2
      have : (fn_table hz hb).tail[j - 1]? = some e' := by
        rw [htl]
        have : j - 1 + 1 = j := by omega
        rw [this]; exact he'
      exact List.mem_iff_getElem?.mpr ⟨_, this⟩

theorem tail_bytes_drop (s : cstr) (n k : Nat) (h1 : k ≤ n) (h2 : k ≤ s.str.length) :
    (tail_bytes s n).drop (n - k) = s.str.drop (s.str.length - k) := by
  unfold tail_bytes strlen
  split_ifs with h
  · rw [List.drop_drop]
    congr 1
    omega
  · have hlen : ((List.range (n - s.str.length)).reverse.map s.before).length =
        n - s.str.length := by simp
    have : n - k = ((List.range (n - s.str.length)).reverse.map s.before).length +
        (s.str.length - k) := by rw [hlen]; omega
    rw [this, List.drop_append]

/-- A `strncmp` test fails as soon as the last `k` characters of the suffix differ from the
last `k` characters of the string. -/
theorem tail_match_ne (s : cstr) (ext : List Char) (k : Nat) (h1 : k ≤ ext.length)
    (h2 : k ≤ s.str.length)
    (hne : ext.drop (ext.length - k) ≠ s.str.drop (s.str.length - k)) :
    tail_match s ext = false := by
  by_contra hcon
  have ht : tail_match s ext = true := by simpa using hcon
  unfold tail_match at ht
  have he : tail_bytes s ext.length = ext := by simpa using ht
  have := tail_bytes_drop s ext.length k h1 h2
  rw [he] at this
  exact hne this

theorem suffix_drop (a b : List Char) (k : Nat) (h : a <:+ b) (hk : k ≤ a.length) :
    b.drop (b.length - k) = a.drop (a.length - k) := by
  obtain ⟨pre, rfl⟩ := h
  have : (pre ++ a).length - k = pre.length + (a.length - k) := by
    rw [List.length_append]; omega
  rw [this, List.drop_append]

/-- In bounds, the `strncmp` test is the suffix test. -/
theorem tail_match_suffix (s : cstr) (ext : List Char) (h : ext.length ≤ s.str.length) :
    tail_match s ext = true ↔ ext <:+ s.str := by
  unfold tail_match tail_bytes strlen
  rw [if_pos h, List.suffix_iff_eq_drop]
  simp only [beq_iff_eq]
  exact eq_comm

theorem tail_match_of_suffix (s : cstr) (ext : List Char) (h : ext <:+ s.str) :
    tail_match s ext = true :=
  (tail_match_suffix s ext h.length_le).mpr h

theorem entry_hit_ext (path mode : cstr) (e : zf_functions_s) (ext : List Char)
    (h : e.ext = some ext) :
    entry_hit path mode e = (tail_match path ext || tail_match mode ext) := by
  unfold entry_hit
  rw [h]

theorem entry_hit_false (path mode : cstr) (e : zf_functions_s) (ext : List Char)
    (h : e.ext = some ext) (h1 : tail_match path ext = false)
    (h2 : tail_match mode ext = false) : entry_hit path mode e ≠ true := by
  rw [entry_hit_ext path mode e ext h, h1, h2]
  decide

/-- If one of the entries `.lz`, `.lzma`, `.xz`, `.z` is hit and neither `.gz` nor `.bz2` is,
`zfopen` returns `NULL` before any collaborator or backend call. -/
theorem zfopen_unsupported {β : Type} (env : zfopen_env β) (path mode : cstr)
    (hgz : tail_match path ".gz".toList = false ∧ tail_match mode ".gz".toList = false)
    (hbz : tail_match path ".bz2".toList = false ∧ tail_match mode ".bz2".toList = false)
    (hhit : ∃ ext ∈ [".lz".toList, ".lzma".toList, ".xz".toList, ".z".toList],
      tail_match path ext = true ∨ tail_match mode ext = true) :
    zfopen env (some path) (some mode) = (none, []) := by
  obtain ⟨i, fn, h1, h2, h3, h4⟩ := zfopen_fn_least env.HAVE_Z env.HAVE_BZ2 path mode
  obtain ⟨e0, e1, e2, htbl, _, hx1, hx2⟩ := fn_table_shape env.HAVE_Z env.HAVE_BZ2
  rw [htbl] at h2 h4
  have hopen : fn.open_ = none := by
    obtain ⟨ext, hmem, hx⟩ := hhit
    have hx' : (tail_match path ext || tail_match mode ext) = true := by
      rcases hx with h | h <;> simp [h]
    match i, h2, h3, h4 with
    | 0, _, _, h4 =>
      exfalso
      simp only [List.mem_cons, List.mem_singleton, List.not_mem_nil, or_false] at hmem
      rcases hmem with h | h | h | h
      · have := h4 3 (ext_only ".lz") (by omega) (Or.inr rfl) rfl
        rw [entry_hit_ext path mode _ _ rfl, ← h, hx'] at this
        cases this
      · have := h4 4 (ext_only ".lzma") (by omega) (Or.inr rfl) rfl
        rw [entry_hit_ext path mode _ _ rfl, ← h, hx'] at this
        cases this
      · have := h4 5 (ext_only ".xz") (by omega) (Or.inr rfl) rfl
        rw [entry_hit_ext path mode _ _ rfl, ← h, hx'] at this
        cases this
      · have := h4 6 (ext_only ".z") (by omega) (Or.inr rfl) rfl
        rw [entry_hit_ext path mode _ _ rfl, ← h, hx'] at this
        cases this
    | 1, h2, h3, _ =>
      exfalso
      have he : e1 = fn := Option.some.inj h2
      rcases h3 with h | h
      · omega
      · rw [← he] at h
        exact entry_hit_false path mode e1 _ hx1 hgz.1 hgz.2 h
    | 2, h2, h3, _ =>
      exfalso
      have he : e2 = fn := Option.some.inj h2
      rcases h3 with h | h
      · omega
      · rw [← he] at h
        exact entry_hit_false path mode e2 _ hx2 hbz.1 hbz.2 h
    | 3, h2, _, _ =>
      have he : ext_only ".lz" = fn := Option.some.inj h2
      rw [← he]; rfl
    | 4, h2, _, _ =>
      have he : ext_only ".lzma" = fn := Option.some.inj h2
      rw [← he]; rfl
    | 5, h2, _, _ =>
      have he : ext_only ".xz" = fn := Option.some.inj h2
      rw [← he]; rfl
    | 6, h2, _, _ =>
      have he : ext_only ".z" = fn := Option.some.inj h2
      rw [← he]; rfl
    | n + 7, h2, _, _ =>
      exfalso
      cases h2
  unfold zfopen
  simp only [h1, hopen, if_true]

/-- Out of bounds, the `strncmp` test fails when the byte in front of the string is a
terminator (as for a string stored right behind another one). -/
theorem tail_match_short (s : cstr) (ext : List Char) (h : s.str.length < ext.length)
    (h0 : s.before 0 = Char.ofNat 0) (hx : Char.ofNat 0 ∉ ext) :
    tail_match s ext = false := by
  by_contra hcon
  have ht : tail_match s ext = true := by simpa using hcon
  unfold tail_match tail_bytes strlen at ht
  rw [if_neg (by omega)] at ht
  have he : (List.range (ext.length - s.str.length)).reverse.map s.before ++ s.str = ext := by
    simpa using ht
  apply hx
  rw [← he, ← h0]
  apply List.mem_append_left
  apply List.mem_map.mpr
  exact ⟨0, by simp; omega, rfl⟩

/-- For strings that have a terminator in front of them, the two `strncmp` tests of an entry
with a suffix free of zero bytes decide exactly whether the suffix ends `path` or `mode`. -/
theorem entry_hit_eq_suffix_hit (path mode : cstr) (e : zf_functions_s)
    (hext : ∀ ext, e.ext = some ext → Char.ofNat 0 ∉ ext)
    (hp : path.before 0 = Char.ofNat 0) (hm : mode.before 0 = Char.ofNat 0) :
    entry_hit path mode e = suffix_hit path.str mode.str e := by
  have key : ∀ (s : cstr) (ext : List Char), s.before 0 = Char.ofNat 0 →
      Char.ofNat 0 ∉ ext → tail_match s ext = ext.isSuffixOf s.str := by
    intro s ext h0 hx
    by_cases hl : ext.length ≤ s.str.length
    · by_cases hs : ext <:+ s.str
      · rw [(tail_match_suffix s ext hl).mpr hs]
        exact (List.isSuffixOf_iff_suffix.mpr hs).symm
      · have h1 : tail_match s ext = false := by
          by_contra hcon
          exact hs ((tail_match_suffix s ext hl).mp (by simpa using hcon))
        have h2 : ext.isSuffixOf s.str = false := by
          by_contra hcon
          exact hs (List.isSuffixOf_iff_suffix.mp (by simpa using hcon))
        rw [h1, h2]
    · rw [tail_match_short s ext (by omega) h0 hx]
      have h2 : ext.isSuffixOf s.str = false := by
        by_contra hcon
        have := (List.isSuffixOf_iff_suffix.mp (by simpa using hcon) : ext <:+ s.str).length_le
        omega
      rw [h2]
  unfold entry_hit suffix_hit
  cases hx : e.ext with
  | none => rfl
  | some ext =>
    simp only
    rw [key path ext hp (hext ext hx), key mode ext hm (hext ext hx)]

/-- C7 at a failing input: `path` points at the characters `gz` of the string `x.gz` (so the
path is `gz`, with `x.` stored in front of it) and `mode` is `w`. No suffix of the table ends
`gz` or `w`, so the default entry 0 should be selected; but `path_tail - strlen(".gz")` is one
byte in front of `path`, the three bytes there are `.gz`, and `zfopen` selects entry 1 (gzip)
and calls `gzopen`. -/
theorem C7_short_path_matches_before_pointer :
    (lit_after "x." "gz").str = "gz".toList ∧
    (fn_table true true).tail.all
      (fun e => !suffix_hit (lit_after "x." "gz").str (lit "w").str e) = true ∧
    zfopen_fn true true (lit_after "x." "gz") (lit "w") = (fn_table true true)[1]? ∧
    (zfopen (demo_env []) (some (lit_after "x." "gz")) (some (lit "w"))).2 =
      [.open_ .gzopen "gz".toList "w".toList, .init .zf_init_gzip] := by
  decide

/-- C8 at a failing input: `zfopen("tmpfile", "w.gz")` with zlib built in. The backend is
selected by the mode suffix, yet `gzopen` is called with the mode `w.gz` and the context
stores `w.gz`, not `w`: the stripped copy is assigned to a variable of the inner block. -/
theorem C8_mode_suffix_not_stripped :
    zfopen_fn true true (lit "tmpfile") (lit "w.gz") = (fn_table true true)[1]? ∧
    tail_match (lit "tmpfile") ".gz".toList = false ∧
    tail_match (lit "w.gz") ".gz".toList = true ∧
    (zfopen (demo_env []) (some (lit "tmpfile")) (some (lit "w.gz"))).2 =
      [.open_ .gzopen "tmpfile".toList "w.gz".toList, .init .zf_init_gzip] ∧
    (zfopen (demo_env []) (some (lit "tmpfile")) (some (lit "w.gz"))).1.map zf_s.mode =
      some "w.gz".toList := by
  decide

/-- C9 as stated fails: `zfopen("x.gz", "w.lz")` with zlib built in. The mode ends with
`.lz`, but the path hits the entry `.gz` first, `gzopen` is called and a context is
returned. -/
theorem C9_path_suffix_wins :
    ".lz".toList <:+ (lit "w.lz").str ∧
    (zfopen (demo_env []) (some (lit "x.gz")) (some (lit "w.lz"))).1.isSome = true ∧
    (zfopen (demo_env []) (some (lit "x.gz")) (some (lit "w.lz"))).2 =
      [.open_ .gzopen "x.gz".toList "w.lz".toList, .init .zf_init_gzip] := by
  decide

theorem mode_suffix_not_gz_bz2 (mode : cstr)
    (hmode : ∃ ext ∈ [".lz".toList, ".lzma".toList, ".xz".toList, ".z".toList],
      ext <:+ mode.str) :
    tail_match mode ".gz".toList = false ∧ tail_match mode ".bz2".toList = false := by
  obtain ⟨ext, hmem, hs⟩ := hmode
  have hl := hs.length_le
  simp only [List.mem_cons, List.mem_singleton, List.not_mem_nil, or_false] at hmem
  rcases hmem with h | h | h | h <;> subst h
  all_goals
    have h2 : 2 ≤ mode.str.length := le_trans (by decide) hl
    constructor
    · apply tail_match_ne mode _ 2 (by decide) h2
      rw [suffix_drop _ _ 2 hs (by decide)]
      decide
    · apply tail_match_ne mode _ 1 (by decide) (by omega)
      rw [suffix_drop _ _ 1 hs (by decide)]
      decide

/-- C9 amended: for every mode that ends with one of `.lz`, `.lzma`, `.xz`, `.z` and every
path on which the tests for `.gz` and `.bz2` fail, `zfopen` returns `NULL`, in every
environment and without any collaborator or backend call. -/
theorem C9_unimplemented_mode_suffix {β : Type} (env : zfopen_env β) (path mode : cstr)
    (hmode : ∃ ext ∈ [".lz".toList, ".lzma".toList, ".xz".toList, ".z".toList],
      ext <:+ mode.str)
    (hgz : tail_match path ".gz".toList = false)
    (hbz : tail_match path ".bz2".toList = false) :
    zfopen env (some path) (some mode) = (none, []) := by
  obtain ⟨m1, m2⟩ := mode_suffix_not_gz_bz2 mode hmode
  obtain ⟨ext, hmem, hs⟩ := hmode
  exact zfopen_unsupported env path mode ⟨hgz, m1⟩ ⟨hbz, m2⟩
    ⟨ext, hmem, Or.inr (tail_match_of_suffix mode ext hs)⟩

/-- C9 amended, at a concrete input: `zfopen("f", "w.xz")`. -/
theorem C9_unimplemented_mode_suffix_witness :
    (∃ ext ∈ [".lz".toList, ".lzma".toList, ".xz".toList, ".z".toList],
      ext <:+ (lit "w.xz").str) ∧
    tail_match (lit "f") ".gz".toList = false ∧
    tail_match (lit "f") ".bz2".toList = false ∧
    zfopen (demo_env []) (some (lit "f")) (some (lit "w.xz")) = (none, []) :=
  ⟨⟨".xz".toList, by decide, by decide⟩, by decide, by decide,
   C9_unimplemented_mode_suffix (demo_env []) (lit "f") (lit "w.xz")
    ⟨".xz".toList, by decide, by decide⟩ (by decide) (by decide)⟩

theorem tail_match_ne_str (b : Nat → Char) (str ext : List Char) (k : Nat)
    (h1 : k ≤ ext.length) (h2 : k ≤ str.length)
    (hne : ext.drop (ext.length - k) ≠ str.drop (str.length - k)) :
    tail_match ⟨b, str⟩ ext = false :=
  tail_match_ne ⟨b, str⟩ ext k h1 h2 hne

theorem tail_match_of_suffix_str (b : Nat → Char) (str ext : List Char) (h : ext <:+ str) :
    tail_match ⟨b, str⟩ ext = true :=
  tail_match_of_suffix ⟨b, str⟩ ext h

theorem zfopen_finish_some {β : Type} (env : zfopen_env β) (fn : zf_functions_s)
    (path mode : cstr) (r : zfopen_file_result β) (fio : zf_s β)
    (h : (zfopen_finish env fn path mode r).1 = some fio) :
    ∃ fp, r.fp = some fp ∧ fio.fn = fn ∧
      (fio.fp = fp ∨ ∃ f, fn.init = some f ∧ fio.fp = env.init f fp) := by
  unfold zfopen_finish at h
  cases hfp : r.fp with
  | none =>
    rw [hfp] at h
    dsimp only at h
    split at h <;> simp at h
  | some fp =>
    rw [hfp] at h
    dsimp only at h
    cases hi : fn.init with
    | none =>
      rw [hi] at h
      simp only [Option.some.injEq] at h
      subst h
      exact ⟨fp, rfl, rfl, Or.inl rfl⟩
    | some f =>
      rw [hi] at h
      simp only [Option.some.injEq] at h
      subst h
      exact ⟨fp, rfl, rfl, Or.inr ⟨f, rfl, rfl⟩⟩

theorem zfopen_some {β : Type} (env : zfopen_env β) (path mode : Option cstr)
    (fio : zf_s β) (h : (zfopen env path mode).1 = some fio) :
    ∃ p m fn fp, path = some p ∧ mode = some m ∧
      zfopen_fn env.HAVE_Z env.HAVE_BZ2 p m = some fn ∧ fn.open_ ≠ none ∧
      (zfopen_file env fn p m).fp = some fp ∧ fio.fn = fn ∧
      (fio.fp = fp ∨ ∃ f, fn.init = some f ∧ fio.fp = env.init f fp) := by
  cases path with
  | none => simp [zfopen] at h
  | some p =>
    cases mode with
    | none => simp [zfopen] at h
    | some m =>
      unfold zfopen at h
      dsimp only at h
      cases hfn : zfopen_fn env.HAVE_Z env.HAVE_BZ2 p m with
      | none =>
        rw [hfn] at h
        simp at h
      | some fn =>
        rw [hfn] at h
        dsimp only at h
        by_cases ho : fn.open_ = none
        · rw [if_pos ho] at h
          simp at h
        · rw [if_neg ho] at h
          by_cases hm : env.malloc_ok = false
          · rw [if_pos hm] at h
            simp at h
          · rw [if_neg hm] at h
            obtain ⟨fp, a1, a2, a3⟩ := zfopen_finish_some env fn p m _ fio h
            exact ⟨p, m, fn, fp, rfl, rfl, hfn, ho, a1, a2, a3⟩

/-- C10: no half-open handle. For every path and mode (`NULL` included) and every
environment: if `zfopen` returns a context, then the selected entry has an open function and
the native handle reached at `_zfopen_finish` is not `NULL` (and it is the one stored, after
the initializer if there is one); if the selected entry has no open function or that native
handle is `NULL`, `zfopen` returns `NULL`. In particular `zfopen("f.lz", "w")` and
`zfopen("f", "w.xz")` return `NULL` without any collaborator or backend call, whatever is
stored in front of the two strings. -/
theorem C10_no_half_open_handle {β : Type} (env : zfopen_env β) (path mode : Option cstr) :
    (∀ fio, (zfopen env path mode).1 = some fio →
      ∃ p m fn fp, path = some p ∧ mode = some m ∧
        zfopen_fn env.HAVE_Z env.HAVE_BZ2 p m = some fn ∧ fn.open_ ≠ none ∧
        (zfopen_file env fn p m).fp = some fp ∧ fio.fn = fn ∧
        (fio.fp = fp ∨ ∃ f, fn.init = some f ∧ fio.fp = env.init f fp)) ∧
    ((∀ p m fn, path = some p → mode = some m →
        zfopen_fn env.HAVE_Z env.HAVE_BZ2 p m = some fn →
        fn.open_ = none ∨ (zfopen_file env fn p m).fp = none) →
      (zfopen env path mode).1 = none) ∧
    (∀ b1 b2 : Nat → Char,
      zfopen env (some ⟨b1, "f.lz".toList⟩) (some ⟨b2, "w".toList⟩) = (none, [])) ∧
    (∀ b1 b2 : Nat → Char,
      zfopen env (some ⟨b1, "f".toList⟩) (some ⟨b2, "w.xz".toList⟩) = (none, [])) := by
  refine ⟨zfopen_some env path mode, ?_, ?_, ?_⟩
  · intro hall
    cases hres : (zfopen env path mode).1 with
    | none => rfl
    | some fio =>
      exfalso
      obtain ⟨p, m, fn, fp, a1, a2, a3, a4, a5, _⟩ := zfopen_some env path mode fio hres
      rcases hall p m fn a1 a2 a3 with h | h
      · exact a4 h
      · rw [h] at a5
        cases a5
  · intro b1 b2
    apply zfopen_unsupported
    · exact ⟨tail_match_ne_str _ _ _ 3 (by decide) (by decide) (by decide),
        tail_match_ne_str _ _ _ 1 (by decide) (by decide) (by decide)⟩
    · exact ⟨tail_match_ne_str _ _ _ 1 (by decide) (by decide) (by decide),
        tail_match_ne_str _ _ _ 1 (by decide) (by decide) (by decide)⟩
    · exact ⟨".lz".toList, by decide, Or.inl (tail_match_of_suffix_str _ _ _ (by decide))⟩
  · intro b1 b2
    apply zfopen_unsupported
    · exact ⟨tail_match_ne_str _ _ _ 1 (by decide) (by decide) (by decide),
        tail_match_ne_str _ _ _ 2 (by decide) (by decide) (by decide)⟩
    · exact ⟨tail_match_ne_str _ _ _ 1 (by decide) (by decide) (by decide),
        tail_match_ne_str _ _ _ 1 (by decide) (by decide) (by decide)⟩
    · exact ⟨".xz".toList, by decide, Or.inr (tail_match_of_suffix_str _ _ _ (by decide))⟩

/-- C10 at concrete inputs: the context of `zfopen("tmp.txt", "w")` comes from an entry with
an open function and a native handle that is not `NULL`; and when `fopen` fails,
`zfopen("tmp.txt", "w")` returns `NULL`. -/
theorem C10_no_half_open_handle_witness :
    (∃ p m fn fp, some (lit "tmp.txt") = some p ∧ some (lit "w") = some m ∧
      zfopen_fn (demo_env []).HAVE_Z (demo_env []).HAVE_BZ2 p m = some fn ∧
      fn.open_ ≠ none ∧ (zfopen_file (demo_env []) fn p m).fp = some fp ∧
      demo_wfio.fn = fn ∧
      (demo_wfio.fp = fp ∨ ∃ f, fn.init = some f ∧ demo_wfio.fp = (demo_env []).init f fp)) ∧
    (zfopen { demo_env [] with open_ := fun _ _ _ => none }
      (some (lit "tmp.txt")) (some (lit "w"))).1 = none :=
  ⟨(C10_no_half_open_handle (demo_env []) (some (lit "tmp.txt")) (some (lit "w"))).1
      demo_wfio (demo_wfio_open []),
   (C10_no_half_open_handle { demo_env [] with open_ := fun _ _ _ => none }
      (some (lit "tmp.txt")) (some (lit "w"))).2.1 (by
        intro p m fn hp hm hfn
        cases hp
        cases hm
        have h0 : zfopen_fn true true (lit "tmp.txt") (lit "w") =
            some ⟨none, some .fdopen, some .fopen, none, some .fclose, some .fread_wrap,
              some .fwrite_wrap⟩ := by decide
        cases hfn.symm.trans h0
        right
        rfl)⟩

theorem fn_table_tail_nul_free (hz hb : Bool) :
    ∀ e ∈ (fn_table hz hb).tail, ∀ ext, e.ext = some ext → Char.ofNat 0 ∉ ext := by
  obtain ⟨e0, e1, e2, htbl, _, hx1, hx2⟩ := fn_table_shape hz hb
  rw [htbl]
  intro e he ext hext
  simp only [List.tail_cons, List.mem_cons, List.mem_singleton, List.not_mem_nil,
    or_false] at he
  rcases he with h | h | h | h | h | h <;> subst h
  · rw [hx1] at hext; cases hext; decide
  · rw [hx2] at hext; cases hext; decide
  all_goals (cases hext; decide)

/-- The selection rule of C7 for strings that have a terminator stored in front of them (a
string placed right behind another one): `zfopen` selects the entry of least index `i >= 1`
whose suffix ends `path` or `mode`, and entry 0 exactly when no suffix ends either string. -/
theorem zfopen_fn_suffix_rule (hz hb : Bool) (path mode : cstr)
    (hp : path.before 0 = Char.ofNat 0) (hm : mode.before 0 = Char.ofNat 0) :
    ∃ i fn, zfopen_fn hz hb path mode = some fn ∧ (fn_table hz hb)[i]? = some fn ∧
      (i = 0 ∨ suffix_hit path.str mode.str fn = true) ∧
      ∀ j e, 1 ≤ j → (j < i ∨ i = 0) → (fn_table hz hb)[j]? = some e →
        suffix_hit path.str mode.str e = false := by
  have htail : ∀ j e, 1 ≤ j → (fn_table hz hb)[j]? = some e → e ∈ (fn_table hz hb).tail := by
    intro j e hj he
    obtain ⟨e0, e1, e2, htbl, _⟩ := fn_table_shape hz hb
    rw [htbl] at he ⊢
    obtain ⟨k, rfl⟩ : ∃ k, j = k + 1 := ⟨j - 1, by omega⟩
    exact List.mem_iff_getElem?.mpr ⟨k, by simpa using he⟩
  obtain ⟨i, fn, h1, h2, h3, h4⟩ := zfopen_fn_least hz hb path mode
  refine ⟨i, fn, h1, h2, ?_, ?_⟩
  · rcases h3 with h | h
    · exact Or.inl h
    · by_cases hi : i = 0
      · exact Or.inl hi
      · right
        rw [← entry_hit_eq_suffix_hit path mode fn
          (fn_table_tail_nul_free hz hb fn (htail i fn (by omega) h2)) hp hm]
        exact h
  · intro j e hj hlt he
    rw [← entry_hit_eq_suffix_hit path mode e
      (fn_table_tail_nul_free hz hb e (htail j e hj he)) hp hm]
    exact h4 j e hj hlt he

/-! ## Standard output (C11) -/

/-- In write mode the part `open file` of `zfopen` binds to `stdout`, without any call, exactly
when the first character of `path` is `-`; otherwise it calls the open function of the entry
with `path` and `mode`. -/
theorem zfopen_file_write {β : Type} (env : zfopen_env β) (fn : zf_functions_s)
    (path mode : cstr) (f : cfun) (hw : mode.str.head? ≠ some 'r') (hf : fn.open_ = some f) :
    (path.str.head? = some '-' →
      (zfopen_file env fn path mode).fp = some env.stdout ∧
      (zfopen_file env fn path mode).fd = STDOUT_FILENO ∧
      (zfopen_file env fn path mode).calls = []) ∧
    (path.str.head? ≠ some '-' →
      (zfopen_file env fn path mode).fp = env.open_ f path.str mode.str ∧
      (zfopen_file env fn path mode).fd = -1 ∧
      (zfopen_file env fn path mode).calls = [.open_ f path.str mode.str]) := by
  unfold zfopen_file
  rw [if_neg hw]
  constructor
  · intro h
    rw [if_pos h]
    exact ⟨rfl, rfl, rfl⟩
  · intro h
    rw [if_neg h, hf]
    exact ⟨rfl, rfl, rfl⟩

/-- C11 at a failing input: `zfopen("-x.txt", "w")`. The path is not `-`, so the open function
of the selected (default) entry should be called with it; but only the first character is
compared (`strncmp(path, "-", strlen("-"))`), and the context is bound to `stdout` with
descriptor `STDOUT_FILENO` and without any open call. For comparison, `zfopen("x.txt", "w")`
calls `fopen`, and `zfopen("-", "w")` binds to `stdout`. -/
theorem C11_dash_prefix_binds_stdout :
    (lit "-x.txt").str ≠ "-".toList ∧
    (zfopen demo_env_stdout (some (lit "-x.txt")) (some (lit "w"))).2 = [] ∧
    (zfopen demo_env_stdout (some (lit "-x.txt")) (some (lit "w"))).1.map zf_s.fp =
      some demo_env_stdout.stdout ∧
    (zfopen demo_env_stdout (some (lit "-x.txt")) (some (lit "w"))).1.map zf_s.fd =
      some STDOUT_FILENO ∧
    (zfopen demo_env_stdout (some (lit "x.txt")) (some (lit "w"))).2 =
      [.open_ .fopen "x.txt".toList "w".toList] ∧
    (zfopen demo_env_stdout (some (lit "-")) (some (lit "w"))).2 = [] ∧
    (zfopen demo_env_stdout (some (lit "-")) (some (lit "w"))).1.map zf_s.fp =
      some demo_env_stdout.stdout := by
  decide

/-! ## Bulk write (C13) -/

/-- C13: bulk write is a pure pass-through. For every context, over any backend (its calls
recorded) and for every source `ptr`: `zfwrite` adds exactly one call to the log, a backend
write of the bytes of the caller; it returns the count that this call reports; and apart
from the native handle the context is unchanged, in particular the buffer, `curr`, `end` and
the EOF state (so nothing pending in the buffer is flushed). -/
theorem C13_bulk_write_pass_through {β : Type} (B : zf_backend β)
    (fio : zf_s (β × List io_call)) (ptr : List uint8_t) :
    (zfwrite (traced B) fio ptr).1 = (B.write fio.fp.1 ptr).count ∧
    (zfwrite (traced B) fio ptr).2.fp.2 = fio.fp.2 ++ [.write ptr] ∧
    (zfwrite (traced B) fio ptr).2.fp.1 = (B.write fio.fp.1 ptr).fp ∧
    (zfwrite (traced B) fio ptr).2 =
      { fio with fp := ((B.write fio.fp.1 ptr).fp, fio.fp.2 ++ [.write ptr]) } ∧
    (zfwrite (traced B) fio ptr).2.buf = fio.buf ∧
    (zfwrite (traced B) fio ptr).2.curr = fio.curr ∧
    (zfwrite (traced B) fio ptr).2.end_ = fio.end_ ∧
    (zfwrite (traced B) fio ptr).2.eof = fio.eof :=
  ⟨rfl, rfl, rfl, rfl, rfl, rfl, rfl, rfl⟩

/-! ## Line output (C15) -/

theorem to_uint8_char_to_int (b : uint8_t) : to_uint8 (char_to_int b) = b := by
  apply Fin.ext
  have hb := b.isLt
  unfold to_uint8 char_to_int
  simp only
  split_ifs <;> omega

/-- The context after `zfputc(fio, c)` depends on `c` only through `(uint8_t)c`. -/
theorem zfputc_state_congr {β : Type} (B : zf_backend β) (f : zf_s β) (c c' : Int)
    (h : to_uint8 c = to_uint8 c') : (zfputc B f c).2 = (zfputc B f c').2 := by
  unfold zfputc
  simp only [h]
  split_ifs <;> rfl

/-- C15: put_line. For every context, every backend and every text `t` free of zero bytes,
`zfputs(fio, t)` returns 0 and leaves the context, native handle included, exactly as
`zfputc` on each byte of `t` in order followed by `zfputc` of the line feed (10) does. -/
theorem C15_put_line {β : Type} (B : zf_backend β) (fio : zf_s β) (t : List uint8_t)
    (hnul : ∀ b ∈ t, b ≠ 0) :
    (zfputs B fio t).1 = 0 ∧
    (zfputs B fio t).2 = (zfputc B (zfputc_each B fio t) 10).2 := by
  induction t generalizing fio with
  | nil => exact ⟨rfl, rfl⟩
  | cons b t ih =>
    have hb : ¬ b = 0 := hnul b (List.mem_cons_self _ _)
    have hrest : ∀ x ∈ t, x ≠ 0 := fun x hx => hnul x (List.mem_cons_of_mem _ hx)
    have hz : zfputs B fio (b :: t) = zfputs B (zfputc B fio (char_to_int b)).2 t := by
      rw [zfputs]
      rw [if_neg hb]
    have hstate : (zfputc B fio (char_to_int b)).2 = (zfputc B fio (b.val : Int)).2 :=
      zfputc_state_congr B fio _ _ (by rw [to_uint8_char_to_int, to_uint8_val])
    rw [hz, hstate]
    exact ih _ hrest

theorem demo_text_nul_free : ∀ b ∈ ([104, 105] : List uint8_t), b ≠ 0 := by
  intro b hb
  simp only [List.mem_cons, List.mem_singleton, List.not_mem_nil, or_false] at hb
  rcases hb with h | h <;> rw [h] <;> decide

/-- C15 at a concrete input: the text `104, 105` on the context of `zfopen("tmp.txt", "w")`. -/
theorem C15_put_line_witness :
    (∀ b ∈ ([104, 105] : List uint8_t), b ≠ 0) ∧
    (zfputs file_backend demo_wfio [104, 105]).1 = 0 ∧
    (zfputs file_backend demo_wfio [104, 105]).2 =
      (zfputc file_backend (zfputc_each file_backend demo_wfio [104, 105]) 10).2 :=
  ⟨demo_text_nul_free, C15_put_line file_backend demo_wfio [104, 105] demo_text_nul_free⟩

/-! ## EOF state (C16, C17, C18) -/

/-- C16 as stated fails: the stream `1, 2, 3` opened with `zfopen("tmp.txt", "r")` and one
`zfread` of 5. The EOF state is 0 on entry, the backend read of 5 returns 3, and the EOF state
after the call is 2, not 1; the three bytes are returned. -/
theorem C16_short_read_sets_drained :
    (demo_rfio [1, 2, 3]).eof = 0 ∧
    (file_backend.read (demo_rfio [1, 2, 3]).fp 5).count = 3 ∧
    (zfread file_backend (demo_rfio [1, 2, 3]) 5).ret = 3 ∧
    (zfread file_backend (demo_rfio [1, 2, 3]) 5).dst = [1, 2, 3] ∧
    (zfread file_backend (demo_rfio [1, 2, 3]) 5).fio.eof = 2 ∧
    (zfread file_backend (demo_rfio [1, 2, 3]) 5).fio.eof ≠ 1 := by
  decide

/-- The three outcomes of `zfread` when the EOF state is not 2 on entry. -/
theorem zfread_cases {β : Type} (B : zf_backend β) (f : zf_s β) (len : Nat)
    (h2 : f.eof ≠ 2) :
    (f.eof = 1 → zfread B f len = ⟨zfread_buf_copy_size f len,
        buf_slice f.buf f.curr (zfread_buf_copy_size f len),
        { f with curr := f.curr + zfread_buf_copy_size f len, eof := 2 }⟩) ∧
    (f.eof ≠ 1 → len - zfread_buf_copy_size f len > 0 → zfread B f len =
        ⟨(zfread_buf_copy_size f len +
            (B.read f.fp (len - zfread_buf_copy_size f len)).count % U64) % U64,
          buf_slice f.buf f.curr (zfread_buf_copy_size f len) ++
            (B.read f.fp (len - zfread_buf_copy_size f len)).data,
          { f with
            curr := f.curr + zfread_buf_copy_size f len,
            fp := (B.read f.fp (len - zfread_buf_copy_size f len)).fp,
            eof := if (B.read f.fp (len - zfread_buf_copy_size f len)).count % U64 <
              len - zfread_buf_copy_size f len then 2 else f.eof }⟩) ∧
    (f.eof ≠ 1 → ¬ len - zfread_buf_copy_size f len > 0 → zfread B f len =
        ⟨zfread_buf_copy_size f len, buf_slice f.buf f.curr (zfread_buf_copy_size f len),
          { f with curr := f.curr + zfread_buf_copy_size f len }⟩) := by
  refine ⟨?_, ?_, ?_⟩
  · intro h1
    unfold zfread
    rw [if_neg h2]
    dsimp only
    rw [if_pos h1]
  · intro h1 hpos
    unfold zfread
    rw [if_neg h2]
    dsimp only
    rw [if_neg h1, if_pos hpos]
  · intro h1 hpos
    unfold zfread
    rw [if_neg h2]
    dsimp only
    rw [if_neg h1, if_neg hpos]

/-- C16 amended: when `zfread` is called in EOF state 0 and its backend read (issued for the
length that remains after the copy from the buffer) returns fewer bytes than that, the EOF
state after the call is 2 at once; the bytes of the short read are still returned, and the
buffer holds nothing unread at that point (`curr >= end`). -/
theorem C16_short_read_eof_state {β : Type} (B : zf_backend β) (fio : zf_s β) (len : Nat)
    (h0 : fio.eof = 0)
    (hpos : len - zfread_buf_copy_size fio len > 0)
    (hshort : (B.read fio.fp (len - zfread_buf_copy_size fio len)).count % U64 <
      len - zfread_buf_copy_size fio len) :
    (zfread B fio len).fio.eof = 2 ∧
    (zfread B fio len).ret = (zfread_buf_copy_size fio len +
      (B.read fio.fp (len - zfread_buf_copy_size fio len)).count % U64) % U64 ∧
    (zfread B fio len).dst = buf_slice fio.buf fio.curr (zfread_buf_copy_size fio len) ++
      (B.read fio.fp (len - zfread_buf_copy_size fio len)).data ∧
    (zfread B fio len).fio.curr ≥ (zfread B fio len).fio.end_ := by
  have h2 : fio.eof ≠ 2 := by rw [h0]; decide
  have h1 : fio.eof ≠ 1 := by rw [h0]; decide
  rw [(zfread_cases B fio len h2).2.1 h1 hpos]
  refine ⟨?_, rfl, rfl, ?_⟩
  · show (if (B.read fio.fp (len - zfread_buf_copy_size fio len)).count % U64 <
      len - zfread_buf_copy_size fio len then (2 : Int) else fio.eof) = 2
    rw [if_pos hshort]
  · show fio.curr + zfread_buf_copy_size fio len ≥ fio.end_
    unfold zfread_buf_copy_size at hpos ⊢
    split_ifs at hpos ⊢ <;> omega

/-- C16 amended, at a concrete input: the stream `1, 2, 3` and a `zfread` of 5. -/
theorem C16_short_read_eof_state_witness :
    (zfread file_backend (demo_rfio [1, 2, 3]) 5).fio.eof = 2 ∧
    (zfread file_backend (demo_rfio [1, 2, 3]) 5).ret =
      (zfread_buf_copy_size (demo_rfio [1, 2, 3]) 5 +
        (file_backend.read (demo_rfio [1, 2, 3]).fp
          (5 - zfread_buf_copy_size (demo_rfio [1, 2, 3]) 5)).count % U64) % U64 ∧
    (zfread file_backend (demo_rfio [1, 2, 3]) 5).dst =
      buf_slice (demo_rfio [1, 2, 3]).buf (demo_rfio [1, 2, 3]).curr
        (zfread_buf_copy_size (demo_rfio [1, 2, 3]) 5) ++
      (file_backend.read (demo_rfio [1, 2, 3]).fp
        (5 - zfread_buf_copy_size (demo_rfio [1, 2, 3]) 5)).data ∧
    (zfread file_backend (demo_rfio [1, 2, 3]) 5).fio.curr ≥
      (zfread file_backend (demo_rfio [1, 2, 3]) 5).fio.end_ :=
  C16_short_read_eof_state file_backend (demo_rfio [1, 2, 3]) 5 rfl (by decide) (by decide)

theorem zfread_eof_step {β : Type} (B : zf_backend β) (f : zf_s β) (len : Nat)
    (hr : f.eof = 0 ∨ f.eof = 1 ∨ f.eof = 2) :
    f.eof ≤ (zfread B f len).fio.eof ∧
    ((zfread B f len).fio.eof = 0 ∨ (zfread B f len).fio.eof = 1 ∨
      (zfread B f len).fio.eof = 2) := by
  by_cases h2 : f.eof = 2
  · rw [zfread_drained B f len h2]
    exact ⟨le_refl _, hr⟩
  obtain ⟨c1, c2, c3⟩ := zfread_cases B f len h2
  by_cases h1 : f.eof = 1
  · rw [c1 h1]
    exact ⟨by show f.eof ≤ 2; omega, Or.inr (Or.inr rfl)⟩
  have h0 : f.eof = 0 := by omega
  by_cases hpos : len - zfread_buf_copy_size f len > 0
  · rw [c2 h1 hpos]
    dsimp only
    split_ifs
    · exact ⟨by omega, Or.inr (Or.inr rfl)⟩
    · exact ⟨le_refl _, hr⟩
  · rw [c3 h1 hpos]
    exact ⟨le_refl _, hr⟩

theorem zfgetc_refill_eof_step {β : Type} (B : zf_backend β) (f : zf_s β)
    (hr : f.eof = 0 ∨ f.eof = 1 ∨ f.eof = 2) (hs : 0 < f.size) :
    f.eof ≤ (zfgetc_refill B f).eof ∧
    ((zfgetc_refill B f).eof = 0 ∨ (zfgetc_refill B f).eof = 1 ∨
      (zfgetc_refill B f).eof = 2) := by
  unfold zfgetc_refill
  by_cases hc : f.curr ≥ f.end_
  · rw [if_pos hc]
    by_cases he : f.eof = 0
    · rw [if_pos he]
      dsimp only
      rw [he]
      split_ifs <;> simp
    · rw [if_neg he]
      dsimp only
      rw [if_pos hs]
      exact ⟨by omega, Or.inr (Or.inr rfl)⟩
  · rw [if_neg hc]
    exact ⟨le_refl _, hr⟩

theorem zfgetc_eof_refill {β : Type} (B : zf_backend β) (f : zf_s β) :
    (zfgetc B f).2.eof = (zfgetc_refill B f).eof ∧
    (zfgetc B f).2.end_ = (zfgetc_refill B f).end_ ∧
    (zfgetc B f).2.fp = (zfgetc_refill B f).fp ∧
    (zfgetc B f).2.buf = (zfgetc_refill B f).buf := by
  unfold zfgetc
  dsimp only
  split_ifs <;> exact ⟨rfl, rfl, rfl, rfl⟩

/-- One call never lowers the EOF state and keeps it in `{0, 1, 2}`, on a context with a
buffer of positive size. -/
theorem zf_step_eof {β : Type} (B : zf_backend β) (f : zf_s β) (op : zf_op)
    (hr : f.eof = 0 ∨ f.eof = 1 ∨ f.eof = 2) (hs : 0 < f.size) :
    f.eof ≤ (zf_step B f op).2.eof ∧
    ((zf_step B f op).2.eof = 0 ∨ (zf_step B f op).2.eof = 1 ∨
      (zf_step B f op).2.eof = 2) := by
  cases op with
  | read len => exact zfread_eof_step B f len hr
  | getc =>
    show f.eof ≤ (zfgetc B f).2.eof ∧ ((zfgetc B f).2.eof = 0 ∨ (zfgetc B f).2.eof = 1 ∨
      (zfgetc B f).2.eof = 2)
    rw [(zfgetc_eof_refill B f).1]
    exact zfgetc_refill_eof_step B f hr hs
  | write ptr => exact ⟨le_refl _, hr⟩
  | putc c =>
    show f.eof ≤ (zfputc B f c).2.eof ∧ ((zfputc B f c).2.eof = 0 ∨ (zfputc B f c).2.eof = 1 ∨
      (zfputc B f c).2.eof = 2)
    rw [(zfputc_frame B f c).1]
    exact ⟨le_refl _, hr⟩
  | puts s =>
    show f.eof ≤ (zfputs B f s).2.eof ∧ ((zfputs B f s).2.eof = 0 ∨ (zfputs B f s).2.eof = 1 ∨
      (zfputs B f s).2.eof = 2)
    rw [(zfputs_frame B s f).1]
    exact ⟨le_refl _, hr⟩
  | printf text =>
    rw [(zf_step_printf_frame B f text).1]
    exact ⟨le_refl _, hr⟩

theorem zf_run_eof_range {β : Type} (B : zf_backend β) (ops : List zf_op) (f : zf_s β)
    (hr : f.eof = 0 ∨ f.eof = 1 ∨ f.eof = 2) (hs : 0 < f.size) :
    (zf_run B f ops).2.eof = 0 ∨ (zf_run B f ops).2.eof = 1 ∨ (zf_run B f ops).2.eof = 2 := by
  induction ops generalizing f with
  | nil => exact hr
  | cons op ops ih =>
    rcases zf_run_cons_state B f op ops with ⟨_, e⟩ | ⟨_, e⟩
    · rw [e]; exact (zf_step_eof B f op hr hs).2
    · rw [e]
      exact ih _ (zf_step_eof B f op hr hs).2 (by rw [zf_step_size]; exact hs)

/-- C17: the EOF state never regresses. In every state that a context can reach from
`zfopen` by any sequence of calls over any backend, every further call (`zfread`, `zfgetc`,
`zfwrite`, `zfputc`, `zfputs`, `zfprintf`) leaves an EOF state that is not below the one
before it, and the EOF state is one of 0, 1, 2 before and after. -/
theorem C17_eof_never_regresses {β : Type} (B : zf_backend β) (env : zfopen_env β)
    (path mode : cstr) (fio : zf_s β) (ops : List zf_op) (op : zf_op)
    (hopen : (zfopen env (some path) (some mode)).1 = some fio) :
    (zf_run B fio ops).2.eof ≤ (zf_step B (zf_run B fio ops).2 op).2.eof ∧
    ((zf_run B fio ops).2.eof = 0 ∨ (zf_run B fio ops).2.eof = 1 ∨
      (zf_run B fio ops).2.eof = 2) ∧
    ((zf_step B (zf_run B fio ops).2 op).2.eof = 0 ∨
      (zf_step B (zf_run B fio ops).2 op).2.eof = 1 ∨
      (zf_step B (zf_run B fio ops).2 op).2.eof = 2) := by
  obtain ⟨⟨_, _, f3, f4⟩, _, _⟩ := zfopen_fresh env path mode fio hopen
  have hs0 : 0 < fio.size := by rw [f4]; decide
  have hr := zf_run_eof_range B ops fio (Or.inl f3) hs0
  have hs : 0 < (zf_run B fio ops).2.size := by rw [zf_run_size]; exact hs0
  obtain ⟨a1, a2⟩ := zf_step_eof B _ op hr hs
  exact ⟨a1, hr, a2⟩

/-- C17 at a concrete input: the stream `1, 2, 3`, after `zfgetc` the call `zfread` of 1
takes the EOF state from 1 to 2. -/
theorem C17_eof_never_regresses_witness :
    (zf_run file_backend (demo_rfio [1, 2, 3]) [.getc]).2.eof ≤
      (zf_step file_backend (zf_run file_backend (demo_rfio [1, 2, 3]) [.getc]).2
        (.read 1)).2.eof ∧
    ((zf_run file_backend (demo_rfio [1, 2, 3]) [.getc]).2.eof = 0 ∨
      (zf_run file_backend (demo_rfio [1, 2, 3]) [.getc]).2.eof = 1 ∨
      (zf_run file_backend (demo_rfio [1, 2, 3]) [.getc]).2.eof = 2) ∧
    ((zf_step file_backend (zf_run file_backend (demo_rfio [1, 2, 3]) [.getc]).2
        (.read 1)).2.eof = 0 ∨
      (zf_step file_backend (zf_run file_backend (demo_rfio [1, 2, 3]) [.getc]).2
        (.read 1)).2.eof = 1 ∨
      (zf_step file_backend (zf_run file_backend (demo_rfio [1, 2, 3]) [.getc]).2
        (.read 1)).2.eof = 2) :=
  C17_eof_never_regresses file_backend (demo_env [1, 2, 3]) (lit "tmp.txt") (lit "r")
    (demo_rfio [1, 2, 3]) [.getc] (.read 1) (demo_rfio_open _)

/-- C18: the refill of `zfgetc`. On a context with a buffer of positive size, over any
backend (its calls recorded). When `curr >= end` on entry: the refill step sets `curr` to 0;
in EOF state 0 it issues one backend read of `size` bytes into the buffer and sets `end` to
the count (as a `uint64_t`), in any other EOF state it makes no backend call and sets `end`
to 0; and the EOF state becomes 0 if `end = size`, 1 if `0 < end < size`, 2 if `end = 0`.
When `curr < end` on entry the refill step changes nothing and makes no call. `zfgetc` then
keeps `end`, the EOF state, the buffer and the native handle of that step, and returns `EOF`
with `curr` as it is if the EOF state is 2, else the byte at `curr`, advancing `curr` by one. -/
theorem C18_zfgetc_refill {β : Type} (B : zf_backend β) (fio : zf_s (β × List io_call))
    (hs : 0 < fio.size) :
    (fio.curr ≥ fio.end_ →
      (zfgetc_refill (traced B) fio).curr = 0 ∧
      (fio.eof = 0 →
        (zfgetc_refill (traced B) fio).end_ = (B.read fio.fp.1 fio.size).count % U64 ∧
        (zfgetc_refill (traced B) fio).fp.2 = fio.fp.2 ++ [.read fio.size] ∧
        (zfgetc_refill (traced B) fio).buf =
          buf_store fio.buf (B.read fio.fp.1 fio.size).data) ∧
      (fio.eof ≠ 0 →
        (zfgetc_refill (traced B) fio).end_ = 0 ∧
        (zfgetc_refill (traced B) fio).fp = fio.fp ∧
        (zfgetc_refill (traced B) fio).buf = fio.buf) ∧
      ((zfgetc_refill (traced B) fio).end_ = fio.size →
        (zfgetc_refill (traced B) fio).eof = 0) ∧
      (0 < (zfgetc_refill (traced B) fio).end_ ∧
        (zfgetc_refill (traced B) fio).end_ < fio.size →
        (zfgetc_refill (traced B) fio).eof = 1) ∧
      ((zfgetc_refill (traced B) fio).end_ = 0 →
        (zfgetc_refill (traced B) fio).eof = 2)) ∧
    (fio.curr < fio.end_ → zfgetc_refill (traced B) fio = fio) ∧
    (zfgetc (traced B) fio).2.end_ = (zfgetc_refill (traced B) fio).end_ ∧
    (zfgetc (traced B) fio).2.eof = (zfgetc_refill (traced B) fio).eof ∧
    (zfgetc (traced B) fio).2.fp = (zfgetc_refill (traced B) fio).fp ∧
    (zfgetc (traced B) fio).2.buf = (zfgetc_refill (traced B) fio).buf ∧
    ((zfgetc_refill (traced B) fio).eof = 2 →
      (zfgetc (traced B) fio).1 = EOF ∧
      (zfgetc (traced B) fio).2.curr = (zfgetc_refill (traced B) fio).curr) ∧
    ((zfgetc_refill (traced B) fio).eof ≠ 2 →
      (zfgetc (traced B) fio).1 =
        (((zfgetc_refill (traced B) fio).buf (zfgetc_refill (traced B) fio).curr).val : Int) ∧
      (zfgetc (traced B) fio).2.curr = ((zfgetc_refill (traced B) fio).curr + 1) % U64) := by
  obtain ⟨g1, g2, g3, g4⟩ := zfgetc_eof_refill (traced B) fio
  refine ⟨?_, ?_, g2, g1, g3, g4, ?_, ?_⟩
  · intro hc
    by_cases he : fio.eof = 0
    · have hg : zfgetc_refill (traced B) fio =
          { fio with
            curr := 0, end_ := (B.read fio.fp.1 fio.size).count % U64,
            fp := ((B.read fio.fp.1 fio.size).fp, fio.fp.2 ++ [.read fio.size]),
            buf := buf_store fio.buf (B.read fio.fp.1 fio.size).data,
            eof := (if (B.read fio.fp.1 fio.size).count % U64 < fio.size then 1 else 0) +
              (if (B.read fio.fp.1 fio.size).count % U64 = 0 then 1 else 0) } := by
        unfold zfgetc_refill
        rw [if_pos hc, if_pos he]
        rfl
      rw [hg]
      dsimp only
      refine ⟨rfl, fun _ => ⟨rfl, rfl, rfl⟩, fun hne => absurd he hne, ?_, ?_, ?_⟩
      · intro h
        rw [if_neg (by omega), if_neg (by omega)]
        rfl
      · intro h
        rw [if_pos h.2, if_neg (by omega)]
        rfl
      · intro h
        rw [if_pos (by omega), if_pos h]
        rfl
    · have hg : zfgetc_refill (traced B) fio = { fio with curr := 0, end_ := 0, eof := 2 } := by
        unfold zfgetc_refill
        rw [if_pos hc, if_neg he, if_pos hs]
        rfl
      rw [hg]
      dsimp only
      refine ⟨rfl, fun h => absurd h he, fun _ => ⟨rfl, rfl, rfl⟩, ?_, ?_, ?_⟩
      · intro h
        omega
      · intro h
        omega
      · intro _
        rfl
  · intro hc
    unfold zfgetc_refill
    rw [if_neg (by omega)]
  · intro h2
    unfold zfgetc
    dsimp only
    rw [if_pos h2]
    exact ⟨rfl, rfl⟩
  · intro h2
    unfold zfgetc
    dsimp only
    rw [if_neg h2]
    exact ⟨rfl, rfl⟩

/-- C18 at a concrete input: the first `zfgetc` on the stream `1, 2, 3` (`curr = end = 0`,
EOF state 0, buffer of 512 KiB). -/
theorem C18_zfgetc_refill_witness :
    0 < (demo_rfio_traced [1, 2, 3]).size ∧
    (zfgetc_refill (traced file_backend) (demo_rfio_traced [1, 2, 3])).end_ = 3 ∧
    (zfgetc_refill (traced file_backend) (demo_rfio_traced [1, 2, 3])).fp.2 =
      [.read ZF_BUF_SIZE] ∧
    (zfgetc_refill (traced file_backend) (demo_rfio_traced [1, 2, 3])).eof = 1 ∧
    (zfgetc (traced file_backend) (demo_rfio_traced [1, 2, 3])).2.eof =
      (zfgetc_refill (traced file_backend) (demo_rfio_traced [1, 2, 3])).eof :=
  ⟨by decide,
   (((C18_zfgetc_refill file_backend (demo_rfio_traced [1, 2, 3]) (by decide)).1
      (by decide)).2.1 rfl).1.trans (by decide),
   (((C18_zfgetc_refill file_backend (demo_rfio_traced [1, 2, 3]) (by decide)).1
      (by decide)).2.1 rfl).2.1,
   ((C18_zfgetc_refill file_backend (demo_rfio_traced [1, 2, 3]) (by decide)).1
      (by decide)).2.2.2.2.1 (by decide),
   (C18_zfgetc_refill file_backend (demo_rfio_traced [1, 2, 3]) (by decide)).2.2.2.1⟩

/-! ## Formatted write (C14) -/

theorem to_int_small (w : Nat) (h : w < 2 ^ 31) : to_int w = (w : Int) := by
  unfold to_int
  omega

theorem buf_slice_store_text (buf : Nat → uint8_t) (text : List uint8_t) :
    buf_slice (buf_store buf (text ++ [0])) 0 text.length = text := by
  apply List.ext_getElem
  · simp [buf_slice]
  · intro i h1 h2
    have h3 : i < (text ++ [0]).length := by rw [List.length_append]; omega
    simp only [buf_slice, buf_store, List.getElem_map, List.getElem_range, Nat.zero_add,
      dif_pos h3, List.get_eq_getElem]
    exact List.getElem_append_left h2

/-- A text that fits the buffer has a length that an `int` can express. -/
theorem text_fits_int (n : Nat) (h : n < ZF_BUF_SIZE) : n < 2 ^ 31 := by
  unfold ZF_BUF_SIZE at h
  omega

/-- A rendered text of `ZF_BUF_SIZE` bytes or more overruns the buffer. -/
theorem zfprintf_render_overrun {β : Type} (B : zf_backend β) (fio : zf_s β) (fp : β)
    (text : List uint8_t) (h : ZF_BUF_SIZE ≤ text.length) :
    zfprintf_render B fio fp text = none := by
  unfold zfprintf_render
  rw [if_neg (by omega)]

/-- The second half of `zfprintf` over a recording backend that never reports more bytes than
requested, for a rendered text that fits the buffer with its zero byte. -/
theorem zfprintf_render_traced {β : Type} (B : zf_backend β) (fio : zf_s (β × List io_call))
    (fp : β × List io_call) (text : List uint8_t)
    (hW : ∀ fp p, (B.write fp p).count ≤ p.length) (ht : text.length < ZF_BUF_SIZE) :
    ∃ r, zfprintf_render (traced B) fio fp text = some r ∧
      r.1 = ((B.write fp.1 text).count : Int) ∧
      r.2.fp.2 = fp.2 ++ [.write text] ∧
      r.2.fp.1 = (B.write fp.1 text).fp ∧
      r.2.curr = text.length - (B.write fp.1 text).count ∧
      r.2.buf = buf_store fio.buf (text ++ [0]) := by
  have h31 := text_fits_int _ ht
  have hU : text.length < U64 := by unfold U64; omega
  have hm : text.length % U64 = text.length := Nat.mod_eq_of_lt hU
  have hcnt := hW fp.1 text
  have hcm : (B.write fp.1 text).count % U64 = (B.write fp.1 text).count :=
    Nat.mod_eq_of_lt (by omega)
  refine ⟨_, zfprintf_render_fits (traced B) fio fp text ht, ?_⟩
  dsimp only
  rw [hm, buf_slice_store_text]
  refine ⟨?_, rfl, rfl, ?_, rfl⟩
  · show to_int ((B.write fp.1 text).count % U64) = _
    rw [hcm]
    exact to_int_small _ (by omega)
  · show (text.length + U64 - (B.write fp.1 text).count % U64) % U64 = _
    rw [hcm]
    have : text.length + U64 - (B.write fp.1 text).count =
        (text.length - (B.write fp.1 text).count) + U64 := by omega
    rw [this, Nat.add_mod_right]
    exact Nat.mod_eq_of_lt (by omega)

/-- C14: formatted write. On every context with `curr` in the range of `uint64_t`, over any
backend (its calls recorded) that never reports more bytes than requested. If `curr` is
nonzero and the flush of the `curr` pending bytes writes fewer than `curr` bytes, `zfprintf`
returns 0 with that flush as its only backend call, and leaves the buffer and `curr` alone,
whatever the text. Otherwise (`curr` is 0, or the flush is complete), for every rendered text
that fits the buffer of 512 KiB with its zero byte, it stores the text at buffer offset 0,
makes one backend write of exactly the rendered bytes (after the flush, if any), returns the
count that this write reports, and leaves `curr` equal to the rendered size minus that count.
(A longer text overruns the buffer: `zfprintf_render_overrun`.) -/
theorem C14_formatted_write {β : Type} (B : zf_backend β) (fio : zf_s (β × List io_call))
    (text : List uint8_t)
    (hW : ∀ fp p, (B.write fp p).count ≤ p.length)
    (hc : fio.curr < U64) :
    (fio.curr ≠ 0 → (B.write fio.fp.1 (buf_slice fio.buf 0 fio.curr)).count < fio.curr →
      ∃ r, zfprintf (traced B) fio text = some r ∧
        r.1 = 0 ∧
        r.2.buf = fio.buf ∧
        r.2.curr = fio.curr ∧
        r.2.fp.2 = fio.fp.2 ++ [.write (buf_slice fio.buf 0 fio.curr)]) ∧
    (fio.curr = 0 → text.length < ZF_BUF_SIZE →
      ∃ r, zfprintf (traced B) fio text = some r ∧
        r.1 = ((B.write fio.fp.1 text).count : Int) ∧
        r.2.fp.2 = fio.fp.2 ++ [.write text] ∧
        r.2.curr = text.length - (B.write fio.fp.1 text).count ∧
        r.2.buf = buf_store fio.buf (text ++ [0])) ∧
    (fio.curr ≠ 0 → ¬ (B.write fio.fp.1 (buf_slice fio.buf 0 fio.curr)).count < fio.curr →
      text.length < ZF_BUF_SIZE →
      ∃ r, zfprintf (traced B) fio text = some r ∧
        r.1 =
          ((B.write (B.write fio.fp.1 (buf_slice fio.buf 0 fio.curr)).fp text).count : Int) ∧
        r.2.fp.2 = fio.fp.2 ++ [.write (buf_slice fio.buf 0 fio.curr), .write text] ∧
        r.2.curr = text.length -
          (B.write (B.write fio.fp.1 (buf_slice fio.buf 0 fio.curr)).fp text).count ∧
        r.2.buf = buf_store fio.buf (text ++ [0])) := by
  have hcnt := hW fio.fp.1 (buf_slice fio.buf 0 fio.curr)
  rw [buf_slice_length] at hcnt
  have hcm : (B.write fio.fp.1 (buf_slice fio.buf 0 fio.curr)).count % U64 =
      (B.write fio.fp.1 (buf_slice fio.buf 0 fio.curr)).count :=
    Nat.mod_eq_of_lt (by omega)
  refine ⟨?_, ?_, ?_⟩
  · intro h0 hlt
    have hne : ((traced B).write fio.fp (buf_slice fio.buf 0 fio.curr)).count % U64 ≠
        fio.curr := by
      show (B.write fio.fp.1 (buf_slice fio.buf 0 fio.curr)).count % U64 ≠ fio.curr
      rw [hcm]
      omega
    have hz : zfprintf (traced B) fio text =
        some (0, { fio with
          fp := ((traced B).write fio.fp (buf_slice fio.buf 0 fio.curr)).fp }) := by
      unfold zfprintf
      rw [if_pos h0]
      dsimp only
      rw [if_pos hne]
    exact ⟨_, hz, rfl, rfl, rfl, rfl⟩
  · intro h0 ht
    have hz : zfprintf (traced B) fio text = zfprintf_render (traced B) fio fio.fp text := by
      unfold zfprintf
      rw [if_neg (by omega)]
    rw [hz]
    obtain ⟨r, hr, a1, a2, _, a4, a5⟩ := zfprintf_render_traced B fio fio.fp text hW ht
    exact ⟨r, hr, a1, a2, a4, a5⟩
  · intro h0 hge ht
    have heq : ¬ ((traced B).write fio.fp (buf_slice fio.buf 0 fio.curr)).count % U64 ≠
        fio.curr := by
      show ¬ (B.write fio.fp.1 (buf_slice fio.buf 0 fio.curr)).count % U64 ≠ fio.curr
      rw [hcm]
      omega
    have hz : zfprintf (traced B) fio text = zfprintf_render (traced B) fio
        ((traced B).write fio.fp (buf_slice fio.buf 0 fio.curr)).fp text := by
      unfold zfprintf
      rw [if_pos h0]
      dsimp only
      rw [if_neg heq]
    rw [hz]
    obtain ⟨r, hr, a1, a2, _, a4, a5⟩ := zfprintf_render_traced B fio
      ((traced B).write fio.fp (buf_slice fio.buf 0 fio.curr)).fp text hW ht
    refine ⟨r, hr, a1, ?_, a4, a5⟩
    rw [a2]
    show (fio.fp.2 ++ [.write (buf_slice fio.buf 0 fio.curr)]) ++ [.write text] = _
    simp

/-- C14 at concrete inputs, for the text `105, 106`: after one `zfputc` over a backend whose
write fails, `zfprintf` returns 0 and leaves `curr = 1`; on the context of
`zfopen("tmp.txt", "w")`, and after one `zfputc`, over a backend that writes everything, it
returns 2 and leaves `curr = 0`. -/
theorem C14_formatted_write_witness :
    (∃ r, zfprintf (traced failing_write_backend)
        (zfputc (traced failing_write_backend) demo_wfio_traced 104).2 [105, 106] = some r ∧
      r.1 = 0 ∧ r.2.curr = 1) ∧
    (∃ r, zfprintf (traced file_backend) demo_wfio_traced [105, 106] = some r ∧
      r.1 = 2 ∧ r.2.fp.2 = [.write [105, 106]] ∧ r.2.curr = 0) ∧
    (∃ r, zfprintf (traced file_backend)
        (zfputc (traced file_backend) demo_wfio_traced 104).2 [105, 106] = some r ∧
      r.1 = 2 ∧ r.2.fp.2 = [.write [104], .write [105, 106]] ∧ r.2.curr = 0) :=
  ⟨(((C14_formatted_write failing_write_backend
        (zfputc (traced failing_write_backend) demo_wfio_traced 104).2 [105, 106]
        (fun _ _ => Nat.zero_le _) (by decide)).1 (by decide) (by decide)).imp
      (fun _ h => ⟨h.1, h.2.1, h.2.2.2.1.trans (by decide)⟩)),
   (((C14_formatted_write file_backend demo_wfio_traced [105, 106]
        (fun _ _ => Nat.le_refl _) (by decide)).2.1 rfl (by decide)).imp
      (fun _ h => ⟨h.1, h.2.1.trans (by decide), h.2.2.1.trans (by decide),
        h.2.2.2.1.trans (by decide)⟩)),
   (((C14_formatted_write file_backend
        (zfputc (traced file_backend) demo_wfio_traced 104).2 [105, 106]
        (fun _ _ => Nat.le_refl _) (by decide)).2.2 (by decide) (by decide) (by decide)).imp
      (fun _ h => ⟨h.1, h.2.1.trans (by decide), h.2.2.1.trans (by decide),
        h.2.2.2.1.trans (by decide)⟩))⟩

/-! ## Byte-wise and bulk paths (C12) -/

/-- C12: byte-wise/bulk equivalence over a backend that stores and returns bytes faithfully.
Let a context opened for writing on a new file be used once to write `s` with `zfputc` byte
by byte and once to write `s` with one `zfwrite`, each followed by `zfclose`; and let two
contexts opened for reading hold what the two closes left in the file. Then `s.length` calls
of `zfgetc` on the first return the same byte sequence as one `zfread` of length `s.length`
stores on the second, and that sequence is `s` (of a length that a `size_t` can express). -/
theorem C12_bytewise_bulk_equivalence (env_w env_r1 env_r2 : zfopen_env file_s)
    (path mode_w mode_r : cstr) (wfio rfio1 rfio2 : zf_s file_s) (s : List uint8_t)
    (hw : (zfopen env_w (some path) (some mode_w)).1 = some wfio)
    (hmw : mode_w.str.head? ≠ some 'r') (hnew : wfio.fp.output = [])
    (hr1 : (zfopen env_r1 (some path) (some mode_r)).1 = some rfio1)
    (hr2 : (zfopen env_r2 (some path) (some mode_r)).1 = some rfio2)
    (hin1 : rfio1.fp.input =
      closed_output (zfclose file_backend (some (zfputc_each file_backend wfio s))))
    (hin2 : rfio2.fp.input =
      closed_output (zfclose file_backend (some (zfwrite file_backend wfio s).2)))
    (hlen : s.length < U64) :
    (zfgetc_times file_backend rfio1 s.length).1 =
      (zfread file_backend rfio2 s.length).dst.map (fun b => (b.val : Int)) ∧
    (zfread file_backend rfio2 s.length).ret = s.length ∧
    (zfread file_backend rfio2 s.length).dst = s := by
  obtain ⟨⟨w1, w2, w3, w4⟩, hmode, _⟩ := zfopen_fresh env_w path mode_w wfio hw
  obtain ⟨hf1, _, _⟩ := zfopen_fresh env_r1 path mode_r rfio1 hr1
  obtain ⟨hf2, _, _⟩ := zfopen_fresh env_r2 path mode_r rfio2 hr2
  have hw0 : written wfio = [] := by
    simp [written, w1, buf_slice_zero, hnew]
  -- what the byte-wise path leaves in the file
  have hfile1 : rfio1.fp.input = s := by
    obtain ⟨_, a2, _, a4⟩ := zfputc_each_written s wfio (by rw [w1, w4]; decide)
      (by rw [w4]; decide)
    have hm : (zfputc_each file_backend wfio s).mode.head? ≠ some 'r' := by
      rw [a2, hmode]; exact hmw
    rw [hin1]
    unfold closed_output
    rw [zfclose_file_write _ hm, a4, hw0]
    rfl
  -- what the bulk path leaves in the file
  have hfile2 : rfio2.fp.input = s := by
    have hm : (zfwrite file_backend wfio s).2.mode.head? ≠ some 'r' := by
      show wfio.mode.head? ≠ some 'r'
      rw [hmode]; exact hmw
    rw [hin2]
    unfold closed_output
    rw [zfclose_file_write _ hm]
    show (wfio.fp.output ++ s) ++ buf_slice wfio.buf 0 wfio.curr = s
    rw [w1, buf_slice_zero, hnew]
    simp
  obtain ⟨g1, g2⟩ := fresh_getc_inv rfio1 hf1
  obtain ⟨b1, _, _⟩ := zfgetc_times_pending s rfio1 g1 [] (by rw [g2, hfile1]; simp)
  have hl : rfio2.fp.input.length < U64 := by rw [hfile2]; exact hlen
  obtain ⟨c1, c2, _, _⟩ := zfread_fresh_all rfio2 hf2 hl
  rw [hfile2] at c1 c2
  exact ⟨by rw [b1, c2], c1, c2⟩

/-- C12 at a concrete input: the bytes `104, 105, 255` through `zfopen("tmp.txt", "w")` and
`zfopen("tmp.txt", "r")`. -/
theorem C12_bytewise_bulk_equivalence_witness :
    (zfgetc_times file_backend (demo_rfio [104, 105, 255]) 3).1 =
      (zfread file_backend (demo_rfio [104, 105, 255]) 3).dst.map (fun b => (b.val : Int)) ∧
    (zfread file_backend (demo_rfio [104, 105, 255]) 3).ret = 3 ∧
    (zfread file_backend (demo_rfio [104, 105, 255]) 3).dst = [104, 105, 255] :=
  C12_bytewise_bulk_equivalence (demo_env []) (demo_env [104, 105, 255])
    (demo_env [104, 105, 255]) (lit "tmp.txt") (lit "w") (lit "r") demo_wfio
    (demo_rfio [104, 105, 255]) (demo_rfio [104, 105, 255]) [104, 105, 255]
    (demo_wfio_open _) (by decide) rfl (demo_rfio_open _) (demo_rfio_open _)
    (by decide) (by decide) (by decide)

/-! ## Mixed reads (C19) -/

theorem buf_slice_append (buf : Nat → uint8_t) (off a b : Nat) :
    buf_slice buf off (a + b) = buf_slice buf off a ++ buf_slice buf (off + a) b := by
  induction b with
  | zero => simp [buf_slice_zero]
  | succ b ih =>
    rw [← Nat.add_assoc, buf_slice_succ_snoc, ih, buf_slice_succ_snoc, List.append_assoc,
      Nat.add_assoc]

/-- The unread part of the buffer splits at the bytes that `zfread` copies. -/
theorem pending_split (f : zf_s file_s) (len : Nat) :
    pending f = buf_slice f.buf f.curr (zfread_buf_copy_size f len) ++
      (buf_slice f.buf (f.curr + zfread_buf_copy_size f len)
        (f.end_ - (f.curr + zfread_buf_copy_size f len)) ++ f.fp.input) := by
  have hc : zfread_buf_copy_size f len ≤ f.end_ - f.curr := by
    unfold zfread_buf_copy_size
    split_ifs <;> omega
  have : f.end_ - f.curr = zfread_buf_copy_size f len +
      (f.end_ - (f.curr + zfread_buf_copy_size f len)) := by omega
  unfold pending
  rw [this, buf_slice_append, List.append_assoc]

theorem zfread_pending (f : zf_s file_s) (len : Nat) (h : mixed_inv f) (hlen : len < U64) :
    mixed_inv (zfread file_backend f len).fio ∧
    (zfread file_backend f len).dst.take (zfread file_backend f len).ret ++
      pending (zfread file_backend f len).fio = pending f := by
  have hle := (zfread_buf_copy_size_le f len).1
  have hsl : (buf_slice f.buf f.curr (zfread_buf_copy_size f len)).length =
      zfread_buf_copy_size f len := buf_slice_length _ _ _
  by_cases h2 : f.eof = 2
  · rw [zfread_drained file_backend f len h2]
    exact ⟨h, by simp⟩
  obtain ⟨c1, c2, c3⟩ := zfread_cases file_backend f len h2
  by_cases h1 : f.eof = 1
  · rw [c1 h1]
    refine ⟨h, ?_⟩
    show List.take _ (buf_slice f.buf f.curr (zfread_buf_copy_size f len)) ++
      (buf_slice f.buf (f.curr + zfread_buf_copy_size f len)
        (f.end_ - (f.curr + zfread_buf_copy_size f len)) ++ f.fp.input) = pending f
    rw [List.take_of_length_le (by rw [hsl]), ← pending_split]
  by_cases hpos : len - zfread_buf_copy_size f len > 0
  · rw [c2 h1 hpos]
    refine ⟨h, ?_⟩
    have hrest : f.end_ - (f.curr + zfread_buf_copy_size f len) = 0 := by
      unfold zfread_buf_copy_size at hpos ⊢
      split_ifs at hpos ⊢ <;> omega
    have htl := List.length_take_le (len - zfread_buf_copy_size f len) f.fp.input
    have hret : (zfread_buf_copy_size f len +
        (List.take (len - zfread_buf_copy_size f len) f.fp.input).length % U64) % U64 =
        zfread_buf_copy_size f len +
          (List.take (len - zfread_buf_copy_size f len) f.fp.input).length := by
      rw [Nat.mod_eq_of_lt (a := (List.take _ f.fp.input).length) (by omega)]
      exact Nat.mod_eq_of_lt (by omega)
    show List.take ((zfread_buf_copy_size f len +
        (List.take (len - zfread_buf_copy_size f len) f.fp.input).length % U64) % U64)
        (buf_slice f.buf f.curr (zfread_buf_copy_size f len) ++
          List.take (len - zfread_buf_copy_size f len) f.fp.input) ++
      (buf_slice f.buf (f.curr + zfread_buf_copy_size f len)
        (f.end_ - (f.curr + zfread_buf_copy_size f len)) ++
        List.drop (len - zfread_buf_copy_size f len) f.fp.input) = pending f
    rw [hret, List.take_of_length_le (by rw [List.length_append, hsl]), hrest,
      buf_slice_zero, List.nil_append, List.append_assoc, List.take_append_drop,
      pending_split f len, hrest, buf_slice_zero, List.nil_append]
  · rw [c3 h1 hpos]
    refine ⟨h, ?_⟩
    show List.take _ (buf_slice f.buf f.curr (zfread_buf_copy_size f len)) ++
      (buf_slice f.buf (f.curr + zfread_buf_copy_size f len)
        (f.end_ - (f.curr + zfread_buf_copy_size f len)) ++ f.fp.input) = pending f
    rw [List.take_of_length_le (by rw [hsl]), ← pending_split]

theorem zfgetc_refill_mixed (f : zf_s file_s) (h : mixed_inv f) :
    mixed_inv (zfgetc_refill file_backend f) ∧
    pending (zfgetc_refill file_backend f) = pending f ∧
    ((zfgetc_refill file_backend f).eof ≠ 2 →
      (zfgetc_refill file_backend f).curr < (zfgetc_refill file_backend f).end_) := by
  obtain ⟨h2, h3, h4⟩ := h
  by_cases hc : f.curr ≥ f.end_
  · have hpend : pending f = f.fp.input := by
      have : f.end_ - f.curr = 0 := by omega
      simp [pending, this, buf_slice_zero]
    by_cases he : f.eof = 0
    · have hle : (List.take f.size f.fp.input).length ≤ f.size :=
        List.length_take_le f.size f.fp.input
      have hlen : (List.take f.size f.fp.input).length % U64 =
          (List.take f.size f.fp.input).length := Nat.mod_eq_of_lt (by omega)
      have hg : zfgetc_refill file_backend f =
          { f with
            curr := 0, end_ := (List.take f.size f.fp.input).length,
            fp := { f.fp with input := f.fp.input.drop f.size },
            buf := buf_store f.buf (List.take f.size f.fp.input),
            eof := (if (List.take f.size f.fp.input).length < f.size then 1 else 0) +
              (if (List.take f.size f.fp.input).length = 0 then 1 else 0) } := by
        unfold zfgetc_refill
        rw [if_pos hc, if_pos he]
        simp only [file_backend, hlen]
      rw [hg]
      refine ⟨⟨hle, h3, h4⟩, ?_, ?_⟩
      · show buf_slice (buf_store f.buf (List.take f.size f.fp.input)) 0
            ((List.take f.size f.fp.input).length - 0) ++ List.drop f.size f.fp.input = _
        rw [Nat.sub_zero, buf_slice_store, hpend]
        exact List.take_append_drop _ _
      · dsimp only
        intro hne
        by_contra hcon
        have h0 : (List.take f.size f.fp.input).length = 0 := by omega
        apply hne
        rw [if_pos h0, if_pos (by omega)]
        rfl
    · have hg : zfgetc_refill file_backend f = { f with curr := 0, end_ := 0, eof := 2 } := by
        unfold zfgetc_refill
        rw [if_pos hc, if_neg he, if_pos h3]
        rfl
      rw [hg]
      refine ⟨⟨Nat.zero_le _, h3, h4⟩, ?_, fun hne => absurd rfl hne⟩
      rw [hpend]
      simp [pending, buf_slice_zero]
  · have hg : zfgetc_refill file_backend f = f := by
      unfold zfgetc_refill
      rw [if_neg hc]
    rw [hg]
    exact ⟨⟨h2, h3, h4⟩, rfl, fun _ => by omega⟩

theorem delivered_getc_byte (b : uint8_t) : delivered (.getc (b.val : Int)) = [b] := by
  have hne : ¬ ((b.val : Int) = EOF) := by
    unfold EOF
    omega
  show (if (b.val : Int) = EOF then [] else [to_uint8 (b.val : Int)]) = [b]
  rw [if_neg hne, to_uint8_val]

theorem zfgetc_pending_mixed (f : zf_s file_s) (h : mixed_inv f) :
    mixed_inv (zfgetc file_backend f).2 ∧
    delivered (.getc (zfgetc file_backend f).1) ++ pending (zfgetc file_backend f).2 =
      pending f := by
  obtain ⟨g1, g2, g3⟩ := zfgetc_refill_mixed f h
  by_cases he : (zfgetc_refill file_backend f).eof = 2
  · have hz : zfgetc file_backend f = (EOF, zfgetc_refill file_backend f) := by
      unfold zfgetc
      simp only [he, if_true]
    rw [hz]
    refine ⟨g1, ?_⟩
    show (if EOF = EOF then [] else [to_uint8 EOF]) ++ _ = _
    rw [if_pos rfl, List.nil_append, g2]
  · have hz : zfgetc file_backend f =
        ((((zfgetc_refill file_backend f).buf (zfgetc_refill file_backend f).curr).val : Int),
          { zfgetc_refill file_backend f with
            curr := ((zfgetc_refill file_backend f).curr + 1) % U64 }) := by
      unfold zfgetc
      simp only [he, if_false]
    rw [hz]
    have hlt := g3 he
    obtain ⟨i2, i3, i4⟩ := g1
    have hmod : ((zfgetc_refill file_backend f).curr + 1) % U64 =
        (zfgetc_refill file_backend f).curr + 1 := Nat.mod_eq_of_lt (by omega)
    have hsplit : pending (zfgetc_refill file_backend f) =
        (zfgetc_refill file_backend f).buf (zfgetc_refill file_backend f).curr ::
          (buf_slice (zfgetc_refill file_backend f).buf
            ((zfgetc_refill file_backend f).curr + 1)
            ((zfgetc_refill file_backend f).end_ - ((zfgetc_refill file_backend f).curr + 1)) ++
          (zfgetc_refill file_backend f).fp.input) := by
      unfold pending
      have : (zfgetc_refill file_backend f).end_ - (zfgetc_refill file_backend f).curr =
          ((zfgetc_refill file_backend f).end_ - ((zfgetc_refill file_backend f).curr + 1)) + 1 := by
        omega
      rw [this, buf_slice_succ_cons]
      simp
    refine ⟨⟨i2, i3, i4⟩, ?_⟩
    dsimp only
    rw [delivered_getc_byte, ← g2, hsplit]
    simp only [pending, hmod, List.singleton_append]

/-- Over a run of reader calls, what has been delivered followed by what is still to come is
what was to come at the start. -/
theorem zf_run_pending (ops : List zf_op) (f : zf_s file_s) (h : mixed_inv f)
    (hops : ∀ op ∈ ops, read_call_sized op = true) :
    mixed_inv (zf_run file_backend f ops).2 ∧
    delivered_all (zf_run file_backend f ops).1 ++ pending (zf_run file_backend f ops).2 =
      pending f := by
  induction ops generalizing f with
  | nil => exact ⟨h, by simp [zf_run, delivered_all]⟩
  | cons op ops ih =>
    have hrest : ∀ o ∈ ops, read_call_sized o = true :=
      fun o ho => hops o (List.mem_cons_of_mem _ ho)
    have hop := hops op (List.mem_cons_self _ _)
    have hstep : mixed_inv (zf_step file_backend f op).2 ∧
        delivered (zf_step file_backend f op).1 ++ pending (zf_step file_backend f op).2 =
          pending f := by
      cases op with
      | read len =>
        have hl : len < U64 := by simpa [read_call_sized] using hop
        exact zfread_pending f len h hl
      | getc => exact zfgetc_pending_mixed f h
      | write ptr => simp [read_call_sized] at hop
      | putc c => simp [read_call_sized] at hop
      | puts s => simp [read_call_sized] at hop
      | printf text => simp [read_call_sized] at hop
    have hne : (zf_step file_backend f op).1 ≠ .fault := by
      intro hf
      obtain ⟨text, rfl, _, _⟩ := zf_step_fault file_backend f op hf
      simp [read_call_sized] at hop
    obtain ⟨a1, a2⟩ := ih (zf_step file_backend f op).2 hstep.1 hrest
    rw [zf_run_cons_ok file_backend f op ops hne]
    refine ⟨a1, ?_⟩
    show delivered_all ((zf_step file_backend f op).1 ::
        (zf_run file_backend (zf_step file_backend f op).2 ops).1) ++
      pending (zf_run file_backend (zf_step file_backend f op).2 ops).2 = pending f
    rw [← hstep.2, ← a2]
    simp [delivered_all]

/-- C19: mixed read order preservation. On a context that `zfopen` returned, over a backend
that delivers its stream in order, and for every sequence of `zfgetc` calls and `zfread` calls
(with lengths that a `size_t` can express): the bytes delivered, concatenated in call order,
followed by the bytes not yet delivered (the unread part of the buffer, then the rest of the
backend stream) are exactly the backend stream; so the delivered bytes are a prefix of it. -/
theorem C19_mixed_read_order (env : zfopen_env file_s) (path mode : cstr)
    (fio : zf_s file_s) (ops : List zf_op)
    (hopen : (zfopen env (some path) (some mode)).1 = some fio)
    (hops : ∀ op ∈ ops, read_call_sized op = true) :
    delivered_all (zf_run file_backend fio ops).1 ++
      pending (zf_run file_backend fio ops).2 = fio.fp.input ∧
    delivered_all (zf_run file_backend fio ops).1 <+: fio.fp.input := by
  obtain ⟨hf, _, _⟩ := zfopen_fresh env path mode fio hopen
  obtain ⟨f1, f2, f3, f4⟩ := hf
  have hinv : mixed_inv fio := ⟨by omega, by rw [f4]; decide, by rw [f4]; decide⟩
  obtain ⟨_, g2⟩ := fresh_getc_inv fio ⟨f1, f2, f3, f4⟩
  obtain ⟨_, a2⟩ := zf_run_pending ops fio hinv hops
  rw [g2] at a2
  exact ⟨a2, ⟨_, a2⟩⟩

/-- C19 at a concrete input: the stream `1, ..., 10` and the calls `zfread` of 4, `zfgetc`,
`zfread` of 2, `zfgetc`. -/
theorem C19_mixed_read_order_witness :
    delivered_all (zf_run file_backend (demo_rfio [1, 2, 3, 4, 5, 6, 7, 8, 9, 10])
        [.read 4, .getc, .read 2, .getc]).1 ++
      pending (zf_run file_backend (demo_rfio [1, 2, 3, 4, 5, 6, 7, 8, 9, 10])
        [.read 4, .getc, .read 2, .getc]).2 =
      (demo_rfio [1, 2, 3, 4, 5, 6, 7, 8, 9, 10]).fp.input ∧
    delivered_all (zf_run file_backend (demo_rfio [1, 2, 3, 4, 5, 6, 7, 8, 9, 10])
        [.read 4, .getc, .read 2, .getc]).1 <+:
      (demo_rfio [1, 2, 3, 4, 5, 6, 7, 8, 9, 10]).fp.input :=
  C19_mixed_read_order (demo_env [1, 2, 3, 4, 5, 6, 7, 8, 9, 10]) (lit "tmp.txt") (lit "r")
    (demo_rfio [1, 2, 3, 4, 5, 6, 7, 8, 9, 10]) [.read 4, .getc, .read 2, .getc]
    (demo_rfio_open _) (by decide)

/-! ## Write cursor (C20) -/

theorem zfprintf_cursor_complete {β : Type} (B : zf_backend β) (f : zf_s β)
    (text : List uint8_t) (hcomp : zfprintf_complete B f text = true)
    (h1 : f.curr < f.size) (r : Int × zf_s β) (hr : zfprintf B f text = some r) :
    r.2.curr < f.size := by
  have hzero : ∀ a : Nat, (a % U64 + U64 - a % U64) % U64 = 0 := by
    intro a
    have : a % U64 + U64 - a % U64 = U64 := by omega
    rw [this, Nat.mod_self]
  unfold zfprintf_complete at hcomp
  dsimp only at hcomp
  have hc := beq_iff_eq.mp hcomp
  unfold zfprintf at hr
  by_cases h0 : f.curr ≠ 0
  · rw [if_pos h0] at hc hr
    dsimp only at hr
    split_ifs at hr
    · rw [← Option.some.inj hr]
      exact h1
    · rw [zfprintf_render_fits B f _ text (zfprintf_render_some B f _ text r hr)] at hr
      rw [← Option.some.inj hr]
      dsimp only
      rw [hc, hzero]
      omega
  · rw [if_neg h0] at hc hr
    rw [zfprintf_render_fits B f _ text (zfprintf_render_some B f _ text r hr)] at hr
    rw [← Option.some.inj hr]
    dsimp only
    rw [hc, hzero]
    omega

theorem zf_run_writer_cursor {β : Type} (B : zf_backend β) (cap : Nat) (ops : List zf_op)
    (f : zf_s β) (hops : ∀ op ∈ ops, write_call cap op = true)
    (hcomp : printf_complete_run B f ops = true)
    (h1 : f.curr < f.size) (h2 : f.size < U64) :
    (zf_run B f ops).2.curr < (zf_run B f ops).2.size := by
  induction ops generalizing f with
  | nil => exact h1
  | cons op ops ih =>
    have hsz := zf_step_size B f op
    have hrest : ∀ o ∈ ops, write_call cap o = true :=
      fun o ho => hops o (List.mem_cons_of_mem _ ho)
    have hop := hops op (List.mem_cons_self _ _)
    have hstep : (zf_step B f op).2.curr < f.size ∧
        printf_complete_run B (zf_step B f op).2 ops = true := by
      cases op with
      | read len => simp [write_call] at hop
      | getc => simp [write_call] at hop
      | write ptr => exact ⟨h1, hcomp⟩
      | putc c => exact ⟨zfputc_cursor B f c h1 h2, hcomp⟩
      | puts s => exact ⟨zfputs_cursor B s f h1 h2, hcomp⟩
      | printf text =>
        have hc : zfprintf_complete B f text = true ∧
            printf_complete_run B (zf_step B f (.printf text)).2 ops = true := by
          simpa [printf_complete_run] using hcomp
        refine ⟨?_, hc.2⟩
        rcases zf_step_printf_cases B f text with ⟨_, e⟩ | ⟨r, hr, e⟩
        · rw [e]; exact h1
        · rw [e]; exact zfprintf_cursor_complete B f text hc.1 h1 r hr
    rcases zf_run_cons_state B f op ops with ⟨_, e⟩ | ⟨_, e⟩
    · rw [e, hsz]; exact hstep.1
    · rw [e]
      exact ih _ hrest hstep.2 (by rw [hsz]; exact hstep.1) (by rw [hsz]; exact h2)

/-- A run of writer calls whose formatted texts all fit the buffer has no call with undefined
behaviour. -/
theorem zf_run_write_defined {β : Type} (B : zf_backend β) (cap : Nat)
    (hcap : cap ≤ ZF_BUF_SIZE) (ops : List zf_op) (f : zf_s β)
    (hops : ∀ op ∈ ops, write_call cap op = true) :
    zf_ret.fault ∉ (zf_run B f ops).1 := by
  induction ops generalizing f with
  | nil => simp [zf_run]
  | cons op ops ih =>
    have hrest : ∀ o ∈ ops, write_call cap o = true :=
      fun o ho => hops o (List.mem_cons_of_mem _ ho)
    have hne := zf_step_write_call B f op cap hcap (hops op (List.mem_cons_self _ _))
    rw [zf_run_cons_ok B f op ops hne]
    intro hmem
    rcases List.mem_cons.mp hmem with h | h
    · exact hne h.symm
    · exact ih _ hrest h

theorem zfputc_flush_traced {β : Type} (B : zf_backend β) (f : zf_s (β × List io_call))
    (c : Int) (h1 : f.curr < f.size) (h2 : f.size < U64) :
    (zfputc (traced B) f c).2.buf f.curr = to_uint8 c ∧
    ((zfputc (traced B) f c).2.fp.2 = f.fp.2 ∨
      ∃ p, p.length = f.size ∧ (zfputc (traced B) f c).2.fp.2 = f.fp.2 ++ [.write p]) := by
  have h3 : (f.curr + 1) % U64 = f.curr + 1 := Nat.mod_eq_of_lt (by omega)
  unfold zfputc
  dsimp only
  rw [h3]
  split_ifs with h
  · refine ⟨by simp [Function.update], Or.inr ⟨_, buf_slice_length _ _ _, rfl⟩⟩
  · exact ⟨by simp [Function.update], Or.inl rfl⟩

/-- C20: the write cursor stays in bounds. From a context that `zfopen` returned, over any
backend (its calls recorded), after any sequence of `zfwrite`, `zfputc`, `zfputs` and
`zfprintf` calls in which the rendered text of each `zfprintf` fits the buffer of 512 KiB
with its zero byte and the backend write of each `zfprintf` is complete: no call of the
sequence overruns the buffer, and `curr < size` with `size` = 512 KiB. Hence the next
`zfputc` stores its byte at the index `curr` inside the buffer, leaves `curr < size` again,
and either makes no backend call or flushes exactly `size` bytes. -/
theorem C20_write_cursor_in_bounds {β : Type} (B : zf_backend β)
    (env : zfopen_env (β × List io_call)) (path mode : cstr)
    (fio : zf_s (β × List io_call)) (ops : List zf_op) (c : Int)
    (hopen : (zfopen env (some path) (some mode)).1 = some fio)
    (hops : ∀ op ∈ ops, write_call ZF_BUF_SIZE op = true)
    (hcomp : printf_complete_run (traced B) fio ops = true) :
    zf_ret.fault ∉ (zf_run (traced B) fio ops).1 ∧
    (zf_run (traced B) fio ops).2.curr < (zf_run (traced B) fio ops).2.size ∧
    (zf_run (traced B) fio ops).2.size = ZF_BUF_SIZE ∧
    (zfputc (traced B) (zf_run (traced B) fio ops).2 c).2.buf
      (zf_run (traced B) fio ops).2.curr = to_uint8 c ∧
    (zfputc (traced B) (zf_run (traced B) fio ops).2 c).2.curr < ZF_BUF_SIZE ∧
    ((zfputc (traced B) (zf_run (traced B) fio ops).2 c).2.fp.2 =
        (zf_run (traced B) fio ops).2.fp.2 ∨
      ∃ p, p.length = ZF_BUF_SIZE ∧
        (zfputc (traced B) (zf_run (traced B) fio ops).2 c).2.fp.2 =
          (zf_run (traced B) fio ops).2.fp.2 ++ [.write p]) := by
  obtain ⟨⟨f1, _, _, f4⟩, _, _⟩ := zfopen_fresh env path mode fio hopen
  have hsz : (zf_run (traced B) fio ops).2.size = ZF_BUF_SIZE := by rw [zf_run_size, f4]
  have hU : (zf_run (traced B) fio ops).2.size < U64 := by rw [hsz]; decide
  have hdef := zf_run_write_defined (traced B) ZF_BUF_SIZE (le_refl _) ops fio hops
  have hcur := zf_run_writer_cursor (traced B) ZF_BUF_SIZE ops fio hops hcomp
    (by rw [f1, f4]; decide) (by rw [f4]; decide)
  obtain ⟨a1, a2⟩ := zfputc_flush_traced B _ c hcur hU
  have a3 := zfputc_cursor (traced B) _ c hcur hU
  rw [hsz] at a2 a3
  exact ⟨hdef, hcur, hsz, a1, a3, a2⟩

/-- C20 at a concrete input: `zfputc`, `zfprintf` of two bytes, `zfputs`, `zfwrite` on the
context of `zfopen("tmp.txt", "w")`, over a backend that writes everything. -/
theorem C20_write_cursor_in_bounds_witness :
    (zf_run (traced file_backend) demo_wfio_traced
      [.putc 104, .printf [105, 106], .puts [107], .write [108]]).2.curr <
      (zf_run (traced file_backend) demo_wfio_traced
        [.putc 104, .printf [105, 106], .puts [107], .write [108]]).2.size ∧
    (zf_run (traced file_backend) demo_wfio_traced
      [.putc 104, .printf [105, 106], .puts [107], .write [108]]).2.size = ZF_BUF_SIZE :=
  ⟨(C20_write_cursor_in_bounds file_backend (demo_env_traced []) (lit "tmp.txt") (lit "w")
      demo_wfio_traced [.putc 104, .printf [105, 106], .puts [107], .write [108]] 109
      rfl (by decide) (by decide)).2.1,
   (C20_write_cursor_in_bounds file_backend (demo_env_traced []) (lit "tmp.txt") (lit "w")
      demo_wfio_traced [.putc 104, .printf [105, 106], .puts [107], .write [108]] 109
      rfl (by decide) (by decide)).2.2.1⟩

/-! ## Bulk read accounting (C21) -/

theorem zfread_buf_copy_size_min {β : Type} (f : zf_s β) (len : Nat) (h : f.curr ≤ f.end_) :
    zfread_buf_copy_size f len = min len (f.end_ - f.curr) := by
  unfold zfread_buf_copy_size
  split_ifs <;> omega

/-- C21 as stated fails: the context reached from `zfopen("tmp.txt", "r")` on the stream
`1, ..., 10` by `zfgetc` and `zfread` of 3 has `curr = 4 <= end = 10` and EOF state 2. A
`zfread` of 5 on it returns 0 at once: it copies nothing from the buffer and leaves `curr` at
4, although `min(5, end - curr) = 5`. The backend used never reports more than requested. -/
theorem C21_drained_skips_buffer :
    (∀ (fp : file_s) (n : Nat), (file_backend.read fp n).count ≤ n) ∧
    (zf_run file_backend (demo_rfio [1, 2, 3, 4, 5, 6, 7, 8, 9, 10]) [.getc, .read 3]).2.curr
      = 4 ∧
    (zf_run file_backend (demo_rfio [1, 2, 3, 4, 5, 6, 7, 8, 9, 10]) [.getc, .read 3]).2.end_
      = 10 ∧
    (zf_run file_backend (demo_rfio [1, 2, 3, 4, 5, 6, 7, 8, 9, 10]) [.getc, .read 3]).2.eof
      = 2 ∧
    (zfread file_backend (zf_run file_backend (demo_rfio [1, 2, 3, 4, 5, 6, 7, 8, 9, 10])
      [.getc, .read 3]).2 5).ret = 0 ∧
    (zfread file_backend (zf_run file_backend (demo_rfio [1, 2, 3, 4, 5, 6, 7, 8, 9, 10])
      [.getc, .read 3]).2 5).dst = [] ∧
    (zfread file_backend (zf_run file_backend (demo_rfio [1, 2, 3, 4, 5, 6, 7, 8, 9, 10])
      [.getc, .read 3]).2 5).fio.curr = 4 ∧
    min 5 ((zf_run file_backend (demo_rfio [1, 2, 3, 4, 5, 6, 7, 8, 9, 10])
        [.getc, .read 3]).2.end_ -
      (zf_run file_backend (demo_rfio [1, 2, 3, 4, 5, 6, 7, 8, 9, 10])
        [.getc, .read 3]).2.curr) = 5 := by
  refine ⟨fun fp n => List.length_take_le n fp.input, ?_, ?_, ?_, ?_, ?_, ?_, ?_⟩ <;> decide

/-- C21 amended. For every context with `curr <= end`, every length, and any backend (its
calls recorded) whose read returns at most the length asked for. In EOF state 0 or 1, `zfread`
returns a count `<= len`; the first `min(len, end - curr)` bytes of the destination are the
buffer bytes from `curr` on; `curr` advances by exactly that amount, `end` and the buffer stay;
in EOF state 0 with a positive remainder it makes exactly one backend read, of the remainder
`len - min(len, end - curr)`, and otherwise no backend call. In EOF state 2 it returns 0 at
once, stores nothing and leaves the context, native handle included, as it is. -/
theorem C21_zfread_accounting {β : Type} (B : zf_backend β)
    (fio : zf_s (β × List io_call)) (len : Nat)
    (hc : fio.curr ≤ fio.end_) (hB : ∀ fp n, (B.read fp n).count ≤ n) :
    (fio.eof = 0 ∨ fio.eof = 1 →
      (zfread (traced B) fio len).ret ≤ len ∧
      (zfread (traced B) fio len).dst.take (min len (fio.end_ - fio.curr)) =
        buf_slice fio.buf fio.curr (min len (fio.end_ - fio.curr)) ∧
      (zfread (traced B) fio len).fio.curr = fio.curr + min len (fio.end_ - fio.curr) ∧
      (zfread (traced B) fio len).fio.end_ = fio.end_ ∧
      (zfread (traced B) fio len).fio.buf = fio.buf ∧
      (fio.eof = 0 → 0 < len - min len (fio.end_ - fio.curr) →
        (zfread (traced B) fio len).fio.fp.2 =
          fio.fp.2 ++ [.read (len - min len (fio.end_ - fio.curr))]) ∧
      (fio.eof = 1 ∨ len - min len (fio.end_ - fio.curr) = 0 →
        (zfread (traced B) fio len).fio.fp = fio.fp)) ∧
    (fio.eof = 2 → zfread (traced B) fio len = ⟨0, [], fio⟩) := by
  refine ⟨?_, zfread_drained (traced B) fio len⟩
  intro he
  have h2 : fio.eof ≠ 2 := by omega
  have hm := zfread_buf_copy_size_min fio len hc
  have hsl : (buf_slice fio.buf fio.curr (zfread_buf_copy_size fio len)).length =
      zfread_buf_copy_size fio len := buf_slice_length _ _ _
  obtain ⟨c1, c2, c3⟩ := zfread_cases (traced B) fio len h2
  rw [← hm]
  by_cases h1 : fio.eof = 1
  · rw [c1 h1]
    dsimp only
    refine ⟨by omega, List.take_of_length_le (by rw [hsl]), rfl, rfl, rfl, ?_, fun _ => rfl⟩
    intro h0
    omega
  have h0 : fio.eof = 0 := by omega
  by_cases hpos : len - zfread_buf_copy_size fio len > 0
  · rw [c2 h1 hpos]
    dsimp only
    have hcnt := hB fio.fp.1 (len - zfread_buf_copy_size fio len)
    have hmod := Nat.mod_le (B.read fio.fp.1 (len - zfread_buf_copy_size fio len)).count U64
    refine ⟨?_, ?_, rfl, rfl, rfl, fun _ _ => rfl, ?_⟩
    · show (zfread_buf_copy_size fio len +
        (B.read fio.fp.1 (len - zfread_buf_copy_size fio len)).count % U64) % U64 ≤ len
      exact le_trans (Nat.mod_le _ _) (by omega)
    · rw [List.take_append_of_le_length (by rw [hsl])]
      exact List.take_of_length_le (by rw [hsl])
    · intro h
      rcases h with h | h
      · exact absurd h h1
      · omega
  · rw [c3 h1 hpos]
    dsimp only
    refine ⟨by omega, List.take_of_length_le (by rw [hsl]), rfl, rfl, rfl, ?_, fun _ => rfl⟩
    intro _ hp
    omega

/-- C21 amended, at a concrete input: the stream `1, ..., 10`, after one `zfgetc` (`curr = 1`,
`end = 10`, EOF state 1) a `zfread` of 3. -/
theorem C21_zfread_accounting_witness :
    (zf_run (traced file_backend) (demo_rfio_traced [1, 2, 3, 4, 5, 6, 7, 8, 9, 10])
        [.getc]).2.curr ≤
      (zf_run (traced file_backend) (demo_rfio_traced [1, 2, 3, 4, 5, 6, 7, 8, 9, 10])
        [.getc]).2.end_ ∧
    (zfread (traced file_backend)
      (zf_run (traced file_backend) (demo_rfio_traced [1, 2, 3, 4, 5, 6, 7, 8, 9, 10])
        [.getc]).2 3).ret ≤ 3 ∧
    (zfread (traced file_backend)
      (zf_run (traced file_backend) (demo_rfio_traced [1, 2, 3, 4, 5, 6, 7, 8, 9, 10])
        [.getc]).2 3).dst = [2, 3, 4] :=
  ⟨by decide,
   ((C21_zfread_accounting file_backend
      (zf_run (traced file_backend) (demo_rfio_traced [1, 2, 3, 4, 5, 6, 7, 8, 9, 10])
        [.getc]).2 3 (by decide) (fun fp n => List.length_take_le n fp.input)).1
      (Or.inr (by decide))).1,
   by decide⟩

/-! ## Byte values (C22) -/

theorem to_uint8_mod (c : Int) : ((to_uint8 c).val : Int) = c % 256 := by
  unfold to_uint8
  have h1 : 0 ≤ c % 256 := Int.emod_nonneg c (by decide)
  exact Int.toNat_of_nonneg h1

/-- C22: result range of `zfgetc`, and the byte stored by `zfputc`. For every context and
every backend: `zfgetc` returns `EOF` (-1) exactly when the EOF state after its refill step is
2, and otherwise the value, between 0 and 255, of the buffered byte at `curr`; so the data
byte `0xFF` comes back as 255 and not as `EOF` (as on the stream that holds just that byte).
`zfputc(fio, c)` stores `c` modulo 256 at `buf[curr]`, changes no other byte of the buffer,
and returns `c`. -/
theorem C22_byte_values {β : Type} (B : zf_backend β) (fio : zf_s β) (c : Int) :
    ((zfgetc_refill B fio).eof = 2 → (zfgetc B fio).1 = EOF) ∧
    ((zfgetc_refill B fio).eof ≠ 2 →
      (zfgetc B fio).1 =
        (((zfgetc_refill B fio).buf (zfgetc_refill B fio).curr).val : Int) ∧
      0 ≤ (zfgetc B fio).1 ∧ (zfgetc B fio).1 ≤ 255 ∧ (zfgetc B fio).1 ≠ EOF) ∧
    ((zfgetc B fio).1 = EOF ∨ (0 ≤ (zfgetc B fio).1 ∧ (zfgetc B fio).1 ≤ 255)) ∧
    (zf_run file_backend (demo_rfio [255]) [.getc, .getc]).1 = [.getc 255, .getc EOF] ∧
    (zfputc B fio c).2.buf fio.curr = to_uint8 c ∧
    (((zfputc B fio c).2.buf fio.curr).val : Int) = c % 256 ∧
    (∀ i, i ≠ fio.curr → (zfputc B fio c).2.buf i = fio.buf i) ∧
    (zfputc B fio c).1 = c := by
  have hbyte : ∀ b : uint8_t, 0 ≤ ((b.val : Nat) : Int) ∧ ((b.val : Nat) : Int) ≤ 255 ∧
      ((b.val : Nat) : Int) ≠ EOF := by
    intro b
    have := b.isLt
    unfold EOF
    omega
  have hget2 : (zfgetc_refill B fio).eof = 2 → (zfgetc B fio).1 = EOF := by
    intro h2
    unfold zfgetc
    dsimp only
    rw [if_pos h2]
  have hget : (zfgetc_refill B fio).eof ≠ 2 → (zfgetc B fio).1 =
      (((zfgetc_refill B fio).buf (zfgetc_refill B fio).curr).val : Int) := by
    intro h2
    unfold zfgetc
    dsimp only
    rw [if_neg h2]
  have hbuf : (zfputc B fio c).2.buf = Function.update fio.buf fio.curr (to_uint8 c) := by
    unfold zfputc
    dsimp only
    split_ifs <;> rfl
  have hret : (zfputc B fio c).1 = c := by
    unfold zfputc
    dsimp only
    split_ifs <;> rfl
  have hstore : (zfputc B fio c).2.buf fio.curr = to_uint8 c := by
    rw [hbuf]
    simp [Function.update]
  refine ⟨hget2, ?_, ?_, by decide, hstore, ?_, ?_, hret⟩
  · intro h2
    rw [hget h2]
    exact ⟨rfl, hbyte _⟩
  · by_cases h2 : (zfgetc_refill B fio).eof = 2
    · exact Or.inl (hget2 h2)
    · right
      rw [hget h2]
      exact ⟨(hbyte _).1, (hbyte _).2.1⟩
  · rw [hstore]
    exact to_uint8_mod c
  · intro i hi
    rw [hbuf]
    simp [Function.update, hi]

/-- C22 at a concrete input: on the stream that holds the single byte `0xFF`, the first
`zfgetc` returns the buffered byte, a value between 0 and 255 that is not `EOF`; on the empty
stream `zfgetc` returns `EOF`. -/
theorem C22_byte_values_witness :
    ((zfgetc file_backend (demo_rfio [255])).1 =
        (((zfgetc_refill file_backend (demo_rfio [255])).buf
          (zfgetc_refill file_backend (demo_rfio [255])).curr).val : Int) ∧
      0 ≤ (zfgetc file_backend (demo_rfio [255])).1 ∧
      (zfgetc file_backend (demo_rfio [255])).1 ≤ 255 ∧
      (zfgetc file_backend (demo_rfio [255])).1 ≠ EOF) ∧
    (zfgetc file_backend (demo_rfio [])).1 = EOF :=
  ⟨(C22_byte_values file_backend (demo_rfio [255]) 0).2.1 (by decide),
   (C22_byte_values file_backend (demo_rfio []) 0).1 (by decide)⟩

end zf
